import Mathlib

/-!
Verification of the maze-generation / pathfinding core of the repository.

The main embedding follows `DynamicMazeGen/OneShot/DynamicMazeGen(ChatGPT5 - Auto)/maze.py`
and `search.py` (the variant the claims cite).  Mutable Python objects become immutable
Lean structures threaded through step functions; the seeded PRNG becomes a stream of
naturals; wall-clock readings (`time.perf_counter`) become explicit natural-number tick
arguments supplied to each call.
-/

namespace Maze

/-- Grid coordinate `(row, col)`, as in `Coord = Tuple[int, int]`. -/
abbrev Coord := Int × Int

/-- `manhattan` from search.py: `abs(a[0]-b[0]) + abs(a[1]-b[1])`. -/
def manhattan (a b : Coord) : Nat :=
  (a.1 - b.1).natAbs + (a.2 - b.2).natAbs

/-- Python's tuple comparison `(r, c) < (r', c')` (lexicographic). -/
def lexLt (a b : Coord) : Prop :=
  a.1 < b.1 ∨ (a.1 = b.1 ∧ a.2 < b.2)

/-- Python's `<=` on coordinate tuples (lexicographic). -/
def lexLe (a b : Coord) : Prop :=
  lexLt a b ∨ a = b

instance : DecidableRel lexLt := fun a b => by
  unfold lexLt; infer_instance

instance : DecidableRel lexLe := fun a b => by
  unfold lexLe; infer_instance

instance : IsTrans Coord lexLe where
  trans := by
    rintro ⟨a1, a2⟩ ⟨b1, b2⟩ ⟨c1, c2⟩ h1 h2
    simp only [lexLe, lexLt, Prod.mk.injEq] at h1 h2 ⊢
    rcases h1 with (h1 | ⟨h1, h1h⟩) | ⟨h1, h1h⟩ <;>
      rcases h2 with (h2 | ⟨h2, h2h⟩) | ⟨h2, h2h⟩ <;> omega

instance : IsAntisymm Coord lexLe where
  antisymm := by
    rintro ⟨a1, a2⟩ ⟨b1, b2⟩ h1 h2
    simp only [lexLe, lexLt, Prod.mk.injEq] at h1 h2 ⊢
    rcases h1 with (h1 | ⟨h1, h1h⟩) | ⟨h1, h1h⟩ <;>
      rcases h2 with (h2 | ⟨h2, h2h⟩) | ⟨h2, h2h⟩ <;> omega

instance : IsTotal Coord lexLe where
  total := by
    rintro ⟨a1, a2⟩ ⟨b1, b2⟩
    simp only [lexLe, lexLt, Prod.mk.injEq]
    omega

/-! ### SeededRNG (maze.py lines 8-24)

`SeededRNG` wraps `random.Random(seed)`.  The Mersenne-Twister stream itself is not
repository code; it is modelled as a stream `vals : Nat → Nat` of raw draws together
with a cursor.  `pyRandomStream` is a fixed deterministic function of the seed (the
spec requires of the RNG only that it is "deterministic for a fixed seed"); theorems
that quantify over every seed quantify over every stream `vals`, which covers every
realizable draw sequence. -/
structure SeededRNG where
  vals : Nat → Nat
  idx : Nat

/-- Modelled from the spec: the deterministic raw-draw stream of `random.Random(seed)`. -/
def pyRandomStream (seed : Int) : Nat → Nat :=
  fun i => (seed.natAbs + i + 1) * 2654435761 % 4294967296

/-- `SeededRNG(seed)`: a fresh deterministic generator. -/
def SeededRNG.fromSeed (seed : Int) : SeededRNG :=
  ⟨pyRandomStream seed, 0⟩

/-- `randint(a, b)`: one draw, uniform over `[a, b]` (requires `a ≤ b`). -/
def SeededRNG.randint (r : SeededRNG) (a b : Int) : Int × SeededRNG :=
  (a + ((r.vals r.idx % (b - a + 1).toNat : Nat) : Int), ⟨r.vals, r.idx + 1⟩)

/-! ### Grid (maze.py lines 27-101)

`self.grid` is a `rows × cols` matrix of `{wall = 1, free = 0}`; it is modelled as the
boolean predicate `free : Coord → Bool` ("the entry is 0"), all entries initially walls.
`start`/`goal` are the fields set in `__init__`. -/
structure Grid where
  rows : Int
  cols : Int
  free : Coord → Bool
  start : Coord
  goal : Coord
  dirty : Finset Coord

/-- `Grid(rows, cols)` (the `assert rows % 2 == 1 and cols % 2 == 1` is a caller
precondition, carried as a hypothesis by the theorems). -/
def Grid.init (rows cols : Int) : Grid :=
  { rows := rows
    cols := cols
    free := fun _ => false
    start := (1, 1)
    goal := (rows - 2, cols - 2)
    dirty := ∅ }

/-- `in_bounds(r, c)`. -/
def Grid.in_bounds (g : Grid) (r c : Int) : Bool :=
  decide (0 ≤ r ∧ r < g.rows ∧ 0 ≤ c ∧ c < g.cols)

/-- `is_wall(rc)` as used by generator/search code, which always guards it with
`in_bounds` (the raw unchecked list indexing is modelled separately for claim C7). -/
def Grid.is_wall (g : Grid) (rc : Coord) : Bool :=
  ! g.free rc

/-- `set_free(rc)`: mark free and record dirty, skipping if already free. -/
def Grid.set_free (g : Grid) (rc : Coord) : Grid :=
  if g.free rc then g
  else { g with free := Function.update g.free rc true, dirty := insert rc g.dirty }

/-- `carve_cell(r, c)`. -/
def Grid.carve_cell (g : Grid) (r c : Int) : Grid :=
  g.set_free (r, c)

/-- `carve_passage(a, b)`: free `a`, `b` and the wall at their midpoint
(Python `//` is floor division). -/
def Grid.carve_passage (g : Grid) (a b : Coord) : Grid :=
  let g1 := g.set_free a
  let g2 := g1.set_free b
  g2.set_free (Int.fdiv (a.1 + b.1) 2, Int.fdiv (a.2 + b.2) 2)

/-- `finalize_after_generation()`: force start and goal free. -/
def Grid.finalize_after_generation (g : Grid) : Grid :=
  (g.set_free g.start).set_free g.goal

/-- `neighbors_cells(rc)`: step-2 candidates in fixed order up, right, down, left,
filtered to in-bounds. -/
def Grid.neighbors_cells (g : Grid) (rc : Coord) : List Coord :=
  ([(-2, 0), (0, 2), (2, 0), (0, -2)] : List Coord).filterMap fun d =>
    let rr := rc.1 + d.1
    let cc := rc.2 + d.2
    if g.in_bounds rr cc then some (rr, cc) else none

/-- `passable_neighbors(rc)`: step-1 candidates in fixed order up, right, down, left,
filtered to in-bounds non-walls. -/
def Grid.passable_neighbors (g : Grid) (rc : Coord) : List Coord :=
  ([(-1, 0), (0, 1), (1, 0), (0, -1)] : List Coord).filterMap fun d =>
    let rr := rc.1 + d.1
    let cc := rc.2 + d.2
    if g.in_bounds rr cc && ! g.is_wall (rr, cc) then some (rr, cc) else none

/-! ### PrimGenerator (maze.py lines 117-155) -/

structure PrimGen where
  grid : Grid
  rng : SeededRNG
  frontier : Finset Coord

/-- `PrimGenerator.__init__`: carve the start cell and put its step-2 neighbors in the
frontier. -/
def PrimGen.init (grid : Grid) (rng : SeededRNG) : PrimGen :=
  let g1 := grid.carve_cell grid.start.1 grid.start.2
  { grid := g1
    rng := rng
    frontier := (g1.neighbors_cells grid.start).foldl (fun s n => insert n s) ∅ }

/-- One `step()` of `PrimGenerator` (maze.py lines 128-155).  Returns the new state;
the Python return value is `true` iff the frontier was empty on entry. -/
def PrimGen.step (s : PrimGen) : PrimGen :=
  if s.frontier = ∅ then s
  else
    let sorted_front := s.frontier.sort lexLe
    let idxp := s.rng.randint 0 (min 7 ((sorted_front.length : Int) - 1))
    let rng1 := idxp.2
    let rc := sorted_front.getD idxp.1.toNat (0, 0)
    let frontier1 := s.frontier.erase rc
    let carved_neighbors := (s.grid.neighbors_cells rc).filter fun n => ! s.grid.is_wall n
    if carved_neighbors = [] then
      { s with rng := rng1
               frontier := (s.grid.neighbors_cells rc).foldl (fun f n => insert n f) frontier1 }
    else
      let sortedcn := carved_neighbors.mergeSort (fun a b => decide (lexLe a b))
      let np := rng1.randint 0 ((carved_neighbors.length : Int) - 1)
      let rng2 := np.2
      let neighbor := sortedcn.getD np.1.toNat (0, 0)
      let g1 := s.grid.carve_passage rc neighbor
      { grid := g1
        rng := rng2
        frontier := (g1.neighbors_cells rc).foldl
          (fun f n => if g1.is_wall n then insert n f else f) frontier1 }

/-- Whether a `step()` call made at state `s` reports done (`return True`). -/
def PrimGen.reportsDone (s : PrimGen) : Prop :=
  s.frontier = ∅

/-- Iterated stepping: state after `n` calls to `step()`. -/
def PrimGen.runN (grid : Grid) (rng : SeededRNG) : Nat → PrimGen
  | 0 => PrimGen.init grid rng
  | n + 1 => (PrimGen.runN grid rng n).step

/-! ### UnionFind (maze.py lines 210-236)

The Python class keeps two dicts over coordinates.  They are modelled as total
functions together with the set of keys (`x in self.parent`); `find` carries a fuel
argument sufficient under the rank invariant maintained by all callers. -/
structure UnionFind where
  keys : Finset Coord
  parent : Coord → Coord
  rank : Coord → Nat

/-- `UnionFind()`: empty dicts (outside the key set the model maps `x` to itself). -/
def UnionFind.empty : UnionFind :=
  { keys := ∅, parent := fun x => x, rank := fun _ => 0 }

/-- `add(x)`. -/
def UnionFind.add (uf : UnionFind) (x : Coord) : UnionFind :=
  if x ∈ uf.keys then uf
  else { keys := insert x uf.keys
         parent := Function.update uf.parent x x
         rank := Function.update uf.rank x 0 }

/-- Fueled version of the recursive `find(x)` with path compression.  Fuel exhaustion
cannot occur when the fuel is at least the parent-chain length (see `UFWF`). -/
def UnionFind.findAux : Nat → UnionFind → Coord → UnionFind × Coord
  | 0, uf, x => (uf, x)
  | n + 1, uf, x =>
    if uf.parent x = x then (uf, x)
    else
      let p := UnionFind.findAux n uf (uf.parent x)
      ({ p.1 with parent := Function.update p.1.parent x p.2 }, p.2)

/-- `find(x)`: path-compressing root lookup. -/
def UnionFind.find (uf : UnionFind) (x : Coord) : UnionFind × Coord :=
  UnionFind.findAux (uf.keys.card + 1) uf x

/-- `union(a, b)` (union by rank; the Python method returns nothing). -/
def UnionFind.union (uf : UnionFind) (a b : Coord) : UnionFind :=
  let pa := uf.find a
  let pb := pa.1.find b
  let uf2 := pb.1
  let ra := pa.2
  let rb := pb.2
  if ra = rb then uf2
  else if uf2.rank ra < uf2.rank rb then
    { uf2 with parent := Function.update uf2.parent ra rb }
  else if uf2.rank rb < uf2.rank ra then
    { uf2 with parent := Function.update uf2.parent rb ra }
  else
    { uf2 with parent := Function.update uf2.parent rb ra
               rank := Function.update uf2.rank ra (uf2.rank ra + 1) }

/-- Fueled walk up the parent chain without mutation (specification device for
reasoning about `find`/`union`; under `UFInv` the fuel `keys.card` always reaches the
root). -/
def UnionFind.rootN : Nat → UnionFind → Coord → Coord
  | 0, _, x => x
  | n + 1, uf, x => if uf.parent x = x then x else UnionFind.rootN n uf (uf.parent x)

/-- The representative of `x`'s class. -/
def UnionFind.root (uf : UnionFind) (x : Coord) : Coord :=
  UnionFind.rootN uf.keys.card uf x

/-- Structural invariant of the union-find maintained by `add`, `find` and `union`:
ranks strictly increase along parent chains and non-root chains stay inside the key
set.  It bounds every parent chain by `keys.card` steps, so the fuel used by `find`
never runs out. -/
structure UFInv (uf : UnionFind) : Prop where
  strict : ∀ x, uf.parent x ≠ x → uf.rank x < uf.rank (uf.parent x)
  dom : ∀ x, uf.parent x ≠ x → x ∈ uf.keys ∧ uf.parent x ∈ uf.keys

/-! ### KruskalGenerator (maze.py lines 158-207) -/

/-- `range(lo, hi, 2)` over integers: `lo, lo+2, …` while `< hi`. -/
def range2 (lo hi : Int) : List Int :=
  (List.range ((hi - lo + 1) / 2).toNat).map fun (k : Nat) => lo + 2 * (k : Int)

/-- The cell double-loop `for r in range(1, rows, 2): for c in range(1, cols, 2)`. -/
def cellList (rows cols : Int) : List Coord :=
  (range2 1 rows).flatMap fun r => (range2 1 cols).map fun c => (r, c)

/-- The edge double-loop of `KruskalGenerator.__init__` (right and down from each
cell, filtered to in-bounds). -/
def edgeList (g : Grid) : List (Coord × Coord) :=
  (cellList g.rows g.cols).flatMap fun rc =>
    ([(0, 2), (2, 0)] : List Coord).filterMap fun d =>
      let rr := rc.1 + d.1
      let cc := rc.2 + d.2
      if g.in_bounds rr cc then some (rc, (rr, cc)) else none

/-- Models `random.Random.shuffle`: a stream-determined permutation (one draw per
element, selecting which remaining element comes next).  Only the facts that it is a
permutation and is a deterministic function of the stream are relied on. -/
def shuffleAux {α : Type} (vals : Nat → Nat) : Nat → Nat → List α → List α
  | 0, _, l => l
  | _ + 1, _, [] => []
  | n + 1, i, a :: t =>
    let j := vals i % (a :: t).length
    (a :: t).getD j a :: shuffleAux vals n (i + 1) ((a :: t).eraseIdx j)

/-- `rng.shuffle(seq)`: permuted list plus advanced generator. -/
def SeededRNG.shuffle {α : Type} (r : SeededRNG) (l : List α) : List α × SeededRNG :=
  (shuffleAux r.vals l.length r.idx l, ⟨r.vals, r.idx + l.length⟩)

/-- Python's key comparison `(e[0], e[1]) <= (f[0], f[1])` for edge sorting. -/
def edgeLe (e f : Coord × Coord) : Bool :=
  decide (lexLt e.1 f.1) || (decide (e.1 = f.1) && decide (lexLe e.2 f.2))

structure KruskalGen where
  grid : Grid
  rng : SeededRNG
  edges : List (Coord × Coord)
  uf : UnionFind
  i : Nat

/-- `KruskalGenerator.__init__`: free all cell centers, build + shuffle + re-sort the
edge list (the `sorted(...)` on line 179 re-sorts the freshly shuffled list), build
the union-find, reset the whole grid to walls and re-free the cell centers. -/
def KruskalGen.init (grid : Grid) (rng : SeededRNG) : KruskalGen :=
  let g1 := (cellList grid.rows grid.cols).foldl (fun g rc => g.carve_cell rc.1 rc.2) grid
  let sp := rng.shuffle (edgeList g1)
  let edges := sp.1.mergeSort edgeLe
  let uf := (cellList g1.rows g1.cols).foldl (fun u rc => u.add rc) UnionFind.empty
  let g2 := { g1 with free := fun _ => false }
  let g3 := (cellList g2.rows g2.cols).foldl (fun g rc => g.carve_cell rc.1 rc.2) g2
  { grid := g3, rng := sp.2, edges := edges, uf := uf, i := 0 }

/-- The inner loop body `for k in range(self.i, end)` of `KruskalGenerator.step`:
process one edge, carving iff the two finds disagree (both finds, and the finds
inside `union`, mutate the union-find by path compression). -/
def KruskalGen.processEdge (s : KruskalGen) (k : Nat) : KruskalGen :=
  let e := s.edges.getD k ((0, 0), (0, 0))
  let pa := s.uf.find e.1
  let pb := pa.1.find e.2
  if pb.2 = pa.2 then { s with uf := pb.1 }
  else
    { s with uf := pb.1.union e.1 e.2
             grid := s.grid.carve_passage e.1 e.2 }

/-- Process edges `k, k+1, …` for `cnt` edges. -/
def KruskalGen.processFrom (s : KruskalGen) (k : Nat) : Nat → KruskalGen
  | 0 => s
  | cnt + 1 => (s.processEdge k).processFrom (k + 1) cnt

/-- One `step()` of `KruskalGenerator` (maze.py lines 195-207): a batch of up to 8
edges.  The Python return value is `true` iff `i ≥ len(edges)` after the call. -/
def KruskalGen.step (s : KruskalGen) : KruskalGen :=
  if s.i ≥ s.edges.length then s
  else
    let e := min (s.i + 8) s.edges.length
    { s.processFrom s.i (e - s.i) with i := e }

/-- Whether the `step()` call that produced this state reported done. -/
def KruskalGen.reportsDone (s : KruskalGen) : Prop :=
  s.i ≥ s.edges.length

/-- State after `n` calls to `step()`. -/
def KruskalGen.runN (grid : Grid) (rng : SeededRNG) : Nat → KruskalGen
  | 0 => KruskalGen.init grid rng
  | n + 1 => (KruskalGen.runN grid rng n).step

/-! ### Searches (search.py)

All four classes extend `IncrementalSearch` (lines 39-88).  `time.perf_counter()`
readings are modelled as natural-number tick arguments: `step` and `get_metrics` take
the reading that would be sampled during that call.  The GUI-only fields
(`frames_drawn`, `fps_ema`) are never read or written by `step`/`get_metrics` and are
omitted; `correct_path`/`optimal` appear in `get_metrics` and are kept.

`BFS` (lines 91-131) and `DFS` (lines 134-173) differ only in the pop position and
push order of the pool; they are embedded as one parametrized machine:
`popQueue := false` gives BFS (`pop(0)` = head of the list, append at the tail),
`popQueue := true` gives DFS (stack modelled with its top at the head of the list, so
`append`+`pop()` becomes cons+head; the source pushes `reversed(neighbors)` so that
the up neighbor pops first).

`Dijkstra` (lines 176-221) and `AStar` (lines 224-272) differ only in the priority
key `h ≡ 0` versus `h = manhattan(·, goal)`; they are embedded as one machine
parametrized by `h`.  `heapq` always pops the least `(priority, tie, node)` tuple and
tie counters are unique, so the heap is modelled as a list popped at its least key. -/

/-- `search.py`'s `_neighbors(rc)`: step-1 candidates in fixed up, right, down, left
order, filtered to in-bounds non-walls (identical in all four classes). -/
def searchNeighbors (g : Grid) (rc : Coord) : List Coord :=
  ([(rc.1 - 1, rc.2), (rc.1, rc.2 + 1), (rc.1 + 1, rc.2), (rc.1, rc.2 - 1)] : List Coord).filter
    fun p => g.in_bounds p.1 p.2 && ! g.is_wall p

/-- The value of the Python expression `len(self.path)-1 if self.path else ""`
(an `int`, or the empty string when `path` is `None` or `[]`). -/
inductive PyVal where
  | int (n : Nat)
  | emptyStr
deriving DecidableEq

/-- The dict returned by `get_metrics()` (lines 65-73). -/
structure Metrics where
  explored : Nat
  runtime_ms : Nat
  path_len : PyVal
  optimal : Bool
  valid : Bool
deriving DecidableEq

/-- Shared state of `BFS`/`DFS`: `IncrementalSearch` fields plus the pool
(`self.queue` / `self.stack`), `self.parent` and `self.seen`. -/
structure PoolState where
  grid : Grid
  start : Coord
  goal : Coord
  done : Bool
  explored : Nat
  t0 : Nat
  t1 : Nat
  path : Option (List Coord)
  correct_path : Bool
  optimal : Bool
  dirty : Finset Coord
  pool : List Coord
  parent : Coord → Option Coord
  seen : Finset Coord

/-- `BFS.__init__` / `DFS.__init__`: pool `[start]`, empty parent dict, `seen = {start}`. -/
def PoolState.init (g : Grid) (start goal : Coord) : PoolState :=
  { grid := g, start := start, goal := goal, done := false, explored := 0
    t0 := 0, t1 := 0, path := none, correct_path := false, optimal := false
    dirty := ∅, pool := [start], parent := fun _ => none, seen := {start} }

/-- `begin()`: start the clock. -/
def PoolState.begin (t : Nat) (s : PoolState) : PoolState :=
  { s with t0 := t }

/-- `_reconstruct(end)` (lines 126-131): follow `self.parent` from `end` until
`start`, then reverse.  The Python `while` loop is fueled by the size of `seen`,
sufficient because parent chains are injective chains inside `seen`. -/
def chainFrom (parent : Coord → Option Coord) (start : Coord) : Nat → Coord → List Coord
  | 0, c => [c]
  | n + 1, c =>
    if c = start then [c]
    else
      match parent c with
      | none => [c]
      | some p => c :: chainFrom parent start n p

def PoolState.reconstruct (s : PoolState) (e : Coord) : List Coord :=
  (chainFrom s.parent s.start s.seen.card e).reverse

/-- One `step()` of `BFS` (lines 98-118) or `DFS` (lines 141-161), selected by
`isStack`.  `t` is the `perf_counter` reading available during this call. -/
def PoolState.step (isStack : Bool) (t : Nat) (s : PoolState) : PoolState :=
  if s.done || decide (s.pool = []) then
    let s1 := { s with done := true }
    if s1.t1 = 0 then { s1 with t1 := t } else s1
  else
    match s.pool with
    | [] => s
    | rc :: rest =>
      let s1 := { s with pool := rest, explored := s.explored + 1, dirty := insert rc s.dirty }
      if rc = s.goal then
        { s1 with done := true, path := some (s1.reconstruct rc), t1 := t }
      else
        let nbrs := searchNeighbors s1.grid rc
        (if isStack then nbrs.reverse else nbrs).foldl
          (fun st nr =>
            if nr ∈ st.seen then st
            else
              { st with seen := insert nr st.seen
                        parent := Function.update st.parent nr (some rc)
                        pool := if isStack then nr :: st.pool else st.pool ++ [nr] })
          s1

/-- `get_metrics()` (lines 65-73); `t` is the `perf_counter` reading sampled when
`self._t1` is still unset. -/
def PoolState.get_metrics (t : Nat) (s : PoolState) : Metrics :=
  { explored := s.explored
    runtime_ms := if s.t1 > 0 then s.t1 - s.t0 else t - s.t0
    path_len :=
      match s.path with
      | some (x :: xs) => PyVal.int ((x :: xs).length - 1)
      | _ => PyVal.emptyStr
    optimal := s.optimal && s.correct_path
    valid := s.correct_path }

/-- Search run: `begin()` then `n` calls of `step()`, the `k`-th call sampling the
clock value `ts k`. -/
def PoolState.runN (isStack : Bool) (g : Grid) (start goal : Coord) (tb : Nat)
    (ts : Nat → Nat) : Nat → PoolState
  | 0 => PoolState.begin tb (PoolState.init g start goal)
  | n + 1 => PoolState.step isStack (ts n) (PoolState.runN isStack g start goal tb ts n)

/-- Shared state of `Dijkstra`/`AStar`: `dist`/`g` dict, parent dict, lazy heap of
`(priority, tie, node)` entries, tie counter. -/
structure PQState where
  grid : Grid
  start : Coord
  goal : Coord
  done : Bool
  explored : Nat
  t0 : Nat
  t1 : Nat
  path : Option (List Coord)
  correct_path : Bool
  optimal : Bool
  dirty : Finset Coord
  dist : Coord → Option Nat
  parent : Coord → Option Coord
  pq : List (Nat × Nat × Coord)
  tie : Nat

/-- Key order of `heapq` on `(priority, tie, node)` tuples; tie counters are unique
across entries, so the node component never takes part in a comparison. -/
def entryLt (x y : Nat × Nat × Coord) : Bool :=
  decide (x.1 < y.1) || (decide (x.1 = y.1) && decide (x.2.1 < y.2.1))

/-- `heapq.heappop`: remove and return the least entry (first occurrence of the
minimal `(priority, tie)` key). -/
def popMin (l : List (Nat × Nat × Coord)) : Option ((Nat × Nat × Coord) × List (Nat × Nat × Coord)) :=
  match l with
  | [] => none
  | x :: xs =>
    let m := xs.foldl (fun m e => if entryLt e m then e else m) x
    some (m, l.erase m)

/-- `Dijkstra.__init__` / `AStar.__init__` with priority offset `h` (`h ≡ 0` for
Dijkstra; `h = manhattan(·, goal)` for A*): `dist = {start: 0}`,
heap `[(h start, 0, start)]`, tie counter `0`. -/
def PQState.init (h : Coord → Nat) (g : Grid) (start goal : Coord) : PQState :=
  { grid := g, start := start, goal := goal, done := false, explored := 0
    t0 := 0, t1 := 0, path := none, correct_path := false, optimal := false
    dirty := ∅, dist := Function.update (fun _ => none) start (some 0)
    parent := fun _ => none, pq := [(h start, 0, start)], tie := 0 }

def PQState.begin (t : Nat) (s : PQState) : PQState :=
  { s with t0 := t }

def PQState.reconstruct (s : PQState) (e : Coord) : List Coord :=
  (chainFrom s.parent s.start ((s.dist e).getD 0 + 1) e).reverse

/-- The A* priority `self._f(rc) = self.g.get(rc, inf) + manhattan(rc, goal)`
generalized over `h`; for Dijkstra this is `self.dist.get(rc, inf)`.  `none` is
`float("inf")`. -/
def PQState.keyOf (h : Coord → Nat) (s : PQState) (rc : Coord) : Option Nat :=
  (s.dist rc).map fun d => d + h rc

/-- One `step()` of `Dijkstra` (lines 185-209) or `AStar` (lines 233-257): pop the
least heap entry, drop it if stale, else expand.  `t` is the clock reading. -/
def PQState.step (h : Coord → Nat) (t : Nat) (s : PQState) : PQState :=
  if s.done || decide (s.pq = []) then
    let s1 := { s with done := true }
    if s1.t1 = 0 then { s1 with t1 := t } else s1
  else
    match popMin s.pq with
    | none => s
    | some ((d, _, rc), rest) =>
      if PQState.keyOf h s rc ≠ some d then { s with pq := rest }
      else
        let s1 := { s with pq := rest, explored := s.explored + 1, dirty := insert rc s.dirty }
        if rc = s.goal then
          { s1 with done := true, path := some (s1.reconstruct rc), t1 := t }
        else
          (searchNeighbors s1.grid rc).foldl
            (fun st nr =>
              let nd := ((s1.dist rc).getD 0) + 1
              if (match st.dist nr with
                  | none => true
                  | some m => decide (nd < m)) then
                { st with dist := Function.update st.dist nr (some nd)
                          parent := Function.update st.parent nr (some rc)
                          tie := st.tie + 1
                          pq := st.pq ++ [(nd + h nr, st.tie + 1, nr)] }
              else st)
            s1

def PQState.get_metrics (t : Nat) (s : PQState) : Metrics :=
  { explored := s.explored
    runtime_ms := if s.t1 > 0 then s.t1 - s.t0 else t - s.t0
    path_len :=
      match s.path with
      | some (x :: xs) => PyVal.int ((x :: xs).length - 1)
      | _ => PyVal.emptyStr
    optimal := s.optimal && s.correct_path
    valid := s.correct_path }

def PQState.runN (h : Coord → Nat) (g : Grid) (start goal : Coord) (tb : Nat)
    (ts : Nat → Nat) : Nat → PQState
  | 0 => PQState.begin tb (PQState.init h g start goal)
  | n + 1 => PQState.step h (ts n) (PQState.runN h g start goal tb ts n)

/-- `BFS` instantiations. -/
def BFS.step (t : Nat) (s : PoolState) : PoolState := PoolState.step false t s

def BFS.runN (g : Grid) (start goal : Coord) (tb : Nat) (ts : Nat → Nat) (n : Nat) :
    PoolState := PoolState.runN false g start goal tb ts n

/-- `DFS` instantiations. -/
def DFS.step (t : Nat) (s : PoolState) : PoolState := PoolState.step true t s

def DFS.runN (g : Grid) (start goal : Coord) (tb : Nat) (ts : Nat → Nat) (n : Nat) :
    PoolState := PoolState.runN true g start goal tb ts n

/-- `Dijkstra` instantiations (`h ≡ 0`). -/
def Dijkstra.step (t : Nat) (s : PQState) : PQState := PQState.step (fun _ => 0) t s

def Dijkstra.runN (g : Grid) (start goal : Coord) (tb : Nat) (ts : Nat → Nat) (n : Nat) :
    PQState := PQState.runN (fun _ => 0) g start goal tb ts n

/-- `AStar` instantiations (`h = manhattan(·, goal)`). -/
def AStar.step (goal : Coord) (t : Nat) (s : PQState) : PQState :=
  PQState.step (fun rc => manhattan rc goal) t s

def AStar.runN (g : Grid) (start goal : Coord) (tb : Nat) (ts : Nat → Nat) (n : Nat) :
    PQState := PQState.runN (fun rc => manhattan rc goal) g start goal tb ts n

/-! ### Other repository variants referenced by the claims -/

/-- `DynamicMazeGen/OneShot/DynamicMazeGen(GeminiPro)/maze.py` `Grid` (lines 20-59):
odd-rounded dimensions, `CellType` matrix modelled as the predicate "is PASSAGE". -/
structure GGrid where
  rows : Int
  cols : Int
  passage : Coord → Bool

/-- GeminiPro `Grid.__init__`: odd dimensions, all `WALL` except the start `(1, 1)`. -/
def GGrid.init (rows cols : Int) : GGrid :=
  let r := Int.fdiv rows 2 * 2 + 1
  let c := Int.fdiv cols 2 * 2 + 1
  { rows := r, cols := c, passage := fun p => p = (1, 1) }

def GGrid.is_valid (g : GGrid) (r c : Int) : Bool :=
  decide (0 ≤ r ∧ r < g.rows ∧ 0 ≤ c ∧ c < g.cols)

/-- GeminiPro `Grid.get_neighbors` (lines 45-59): note the offset order
`(-step, 0), (step, 0), (0, -step), (0, step)` — up, down, left, right. -/
def GGrid.get_neighbors (g : GGrid) (r c stp : Int) (include_walls : Bool) : List Coord :=
  ([(-stp, 0), (stp, 0), (0, -stp), (0, stp)] : List Coord).filterMap fun d =>
    let nr := r + d.1
    let nc := c + d.2
    if g.is_valid nr nc && (include_walls || g.passage (nr, nc)) then some (nr, nc) else none

/-- `DynamicMazeGen/iterative/DynamixMazeGen(Claude)/maze.py` `Maze.neighbors`
(lines 163-182), in cell coordinates: offset order
`(-1, 0), (0, -1), (0, 1), (1, 0)` — up, left, right, down. -/
def claudeIterNeighbors (cell_rows cell_cols r c : Int) : List Coord :=
  ([(-1, 0), (0, -1), (0, 1), (1, 0)] : List Coord).filterMap fun d =>
    let nr := r + d.1
    let nc := c + d.2
    if decide (0 ≤ nr ∧ nr < cell_rows ∧ 0 ≤ nc ∧ nc < cell_cols) then some (nr, nc) else none

/-- The claimed fixed candidate order up, right, down, left at a given step size. -/
def urdlCandidates (stp r c : Int) : List Coord :=
  [(r - stp, c), (r, c + stp), (r + stp, c), (r, c - stp)]

/-- `DynamixMazeGen(Claude)/maze.py` `Maze` grid fields used by `is_passage`
(lines 148-161): bounds-checked lookup in the 0/1 internal grid. -/
structure CMaze where
  grid_rows : Int
  grid_cols : Int
  grid : Coord → Nat

def CMaze.is_passage (m : CMaze) (r c : Int) : Bool :=
  if 0 ≤ r ∧ r < m.grid_rows ∧ 0 ≤ c ∧ c < m.grid_cols then decide (m.grid (r, c) = 1)
  else false

/-- `DynamicMazeGen/iterative/DynamicMazeGen(ChatGPT5 - Auto)/maze.py` `Maze.is_passage`
(lines 68-71): bounds-checked lookup (`PASSAGE = 0`). -/
structure IMaze where
  H : Int
  W : Int
  grid : Coord → Nat

def IMaze.is_passage (m : IMaze) (r c : Int) : Bool :=
  if r < 0 ∨ c < 0 ∨ r ≥ m.H ∨ c ≥ m.W then false
  else decide (m.grid (r, c) = 0)

/-- Python list indexing `l[i]`: non-negative indices from the front, negative
indices from the back, `none` = `IndexError`. -/
def pyIndex {α : Type} (l : List α) (i : Int) : Option α :=
  if 0 ≤ i ∧ i < l.length then l.get? i.toNat
  else if -(l.length : Int) ≤ i ∧ i < 0 then l.get? ((l.length : Int) + i).toNat
  else none

/-- The OneShot ChatGPT5 `Grid.is_wall` (maze.py lines 43-45) as actually written:
`self.grid[r][c] == self.wall` with no bounds check — raw Python list indexing.
`none` models the raised `IndexError`. -/
def oneShotIsWallRaw (grid : List (List Nat)) (rc : Coord) : Option Bool :=
  (pyIndex grid rc.1).bind fun row => (pyIndex row rc.2).map fun v => decide (v = 1)

/-- The all-walls matrix of `Grid(3, 3)` (`[[1]*3]*3`). -/
def wallMatrix3 : List (List Nat) :=
  [[1, 1, 1], [1, 1, 1], [1, 1, 1]]

/-! ### The passage graph and the perfect-maze property -/

/-- The passage graph of a grid: vertices are coordinates, edges join two free cells
at Manhattan distance 1 (the adjacency used by `passable_neighbors` and the searches'
`_neighbors`; non-free coordinates are isolated vertices). -/
def passageGraph (g : Grid) : SimpleGraph Coord where
  Adj a b := manhattan a b = 1 ∧ g.free a = true ∧ g.free b = true
  symm := by
    intro a b ⟨h1, h2, h3⟩
    refine ⟨?_, h3, h2⟩
    unfold manhattan at h1 ⊢
    omega
  loopless := by
    intro a ⟨h1, _, _⟩
    unfold manhattan at h1
    omega

/-- Odd/odd ("cell-center") coordinate. -/
def oddCell (p : Coord) : Prop :=
  p.1 % 2 = 1 ∧ p.2 % 2 = 1

/-- Midpoint of two coordinates, as computed by `carve_passage` (floor division). -/
def midpt (a b : Coord) : Coord :=
  (Int.fdiv (a.1 + b.1) 2, Int.fdiv (a.2 + b.2) 2)

/-- The finite set of in-bounds cell-center coordinates. -/
def cellsF (rows cols : Int) : Finset Coord :=
  (Finset.Icc 0 (rows - 1) ×ˢ Finset.Icc 0 (cols - 1)).filter fun p =>
    p.1 % 2 = 1 ∧ p.2 % 2 = 1

/-- The in-bounds cell-centers still walls in `g`. -/
def uncarvedF (rows cols : Int) (g : Grid) : Finset Coord :=
  (cellsF rows cols).filter fun p => g.free p = false

/-- Geometric invariant shared by both generators: dimensions are fixed, free
coordinates are in-bounds and never even/even, every free midpoint has both of its
cell neighbors free, and the passage graph is acyclic. -/
structure GridInv (rows cols : Int) (g : Grid) : Prop where
  rows_eq : g.rows = rows
  cols_eq : g.cols = cols
  free_inb : ∀ p : Coord, g.free p = true → g.in_bounds p.1 p.2 = true
  free_not_ee : ∀ p : Coord, g.free p = true → ¬(p.1 % 2 = 0 ∧ p.2 % 2 = 0)
  mid_vert : ∀ r c : Int, g.free (r, c) = true → r % 2 = 0 → c % 2 = 1 →
    g.free (r - 1, c) = true ∧ g.free (r + 1, c) = true
  mid_horz : ∀ r c : Int, g.free (r, c) = true → r % 2 = 1 → c % 2 = 0 →
    g.free (r, c - 1) = true ∧ g.free (r, c + 1) = true
  acyclic : (passageGraph g).IsAcyclic

/-- Inductive invariant of the Prim generator: the geometric invariant, the frontier
invariants of claim C8 plus coverage (every uncarved cell with a carved step-2
neighbor is in the frontier), and every free vertex reachable from the start. -/
structure PrimInv (rows cols : Int) (s : PrimGen) : Prop where
  ginv : GridInv rows cols s.grid
  start_free : s.grid.free (1, 1) = true
  fr_wall : ∀ f ∈ s.frontier, s.grid.free f = false
  fr_cell : ∀ f ∈ s.frontier, oddCell f ∧ s.grid.in_bounds f.1 f.2 = true
  fr_carved_nb : ∀ f ∈ s.frontier, ∃ nb ∈ s.grid.neighbors_cells f, s.grid.free nb = true
  fr_cover : ∀ p : Coord, oddCell p → s.grid.in_bounds p.1 p.2 = true →
    s.grid.free p = false → (∃ nb ∈ s.grid.neighbors_cells p, s.grid.free nb = true) →
    p ∈ s.frontier
  conn : ∀ p : Coord, s.grid.free p = true → (passageGraph s.grid).Reachable (1, 1) p

/-- Inductive invariant of the Kruskal generator: the geometric invariant, all cell
centers carved, the union-find keyed exactly by the cell centers with its structural
invariant, agreement between union-find classes and passage-graph connectivity in
both directions, the edge list a permutation of the generated lattice edges, and
every already-processed edge having connected endpoints. -/
structure KruskalInv (rows cols : Int) (s : KruskalGen) : Prop where
  ginv : GridInv rows cols s.grid
  cells_free : ∀ p : Coord, oddCell p → s.grid.in_bounds p.1 p.2 = true →
    s.grid.free p = true
  uf_keys : s.uf.keys = (cellList rows cols).toFinset
  ufinv : UFInv s.uf
  sound : ∀ a b : Coord, a ∈ s.uf.keys → b ∈ s.uf.keys → s.uf.root a = s.uf.root b →
    (passageGraph s.grid).Reachable a b
  complete : ∀ a b : Coord, a ∈ s.uf.keys → b ∈ s.uf.keys →
    (passageGraph s.grid).Reachable a b → s.uf.root a = s.uf.root b
  edges_perm : s.edges.Perm (edgeList (Grid.init rows cols))
  processed : ∀ k : Nat, k < s.i →
    (passageGraph s.grid).Reachable (s.edges.getD k ((0, 0), (0, 0))).1
      (s.edges.getD k ((0, 0), (0, 0))).2

/-- The step relation actually used by all four searches: one move to an in-bounds
non-wall neighbor.  (It is directed: the popped cell itself is never checked, so a
wall start still expands.) -/
def searchReach (g : Grid) (a b : Coord) : Prop :=
  Relation.ReflTransGen (fun x y => y ∈ searchNeighbors g x) a b

/-- The finite set of in-bounds free coordinates. -/
def freeCellsF (g : Grid) : Finset Coord :=
  (Finset.Icc 0 (g.rows - 1) ×ˢ Finset.Icc 0 (g.cols - 1)).filter fun p => g.free p = true

/-- Every coordinate a search can ever record: the start plus the free cells. -/
def searchSupport (g : Grid) (start : Coord) : Finset Coord :=
  insert start (freeCellsF g)

/-- Run invariant of the BFS/DFS machine used for termination and unreachable-goal
behavior. -/
structure PoolInv (g : Grid) (start goal : Coord) (s : PoolState) : Prop where
  grid_eq : s.grid = g
  start_eq : s.start = start
  goal_eq : s.goal = goal
  seen_sub : s.seen ⊆ searchSupport g start
  reach : ∀ c ∈ s.pool, searchReach g start c

/-- Termination measure of the BFS/DFS machine: each non-final step strictly
decreases it. -/
def poolMeasure (g : Grid) (start : Coord) (s : PoolState) : Nat :=
  2 * ((searchSupport g start) \ s.seen).card + s.pool.length

/-- Run invariant of the Dijkstra/A* machine. -/
structure PQInv (g : Grid) (start goal : Coord) (s : PQState) : Prop where
  grid_eq : s.grid = g
  start_eq : s.start = start
  goal_eq : s.goal = goal
  dist_sub : ∀ v : Coord, s.dist v ≠ none → v ∈ searchSupport g start
  dist_bound : ∀ (v : Coord) (d : Nat), s.dist v = some d →
    d < ((searchSupport g start).filter fun w => s.dist w ≠ none).card
  pq_reach : ∀ e ∈ s.pq, searchReach g start e.2.2

/-- Termination measure of the Dijkstra/A* machine (distances default to the cap
`|support| + 1`, which every recorded distance stays below). -/
def pqMeasure (g : Grid) (start : Coord) (s : PQState) : Nat :=
  2 * (searchSupport g start).sum
      (fun v => (s.dist v).getD ((searchSupport g start).card + 1)) +
    s.pq.length

/-- Facts carried out of the Dijkstra/A* neighbor-expansion fold. -/
structure PQFoldOut (g : Grid) (start : Coord) (st res : PQState) : Prop where
  grid_eq : res.grid = st.grid
  start_eq : res.start = st.start
  goal_eq : res.goal = st.goal
  done_eq : res.done = st.done
  path_eq : res.path = st.path
  t1_eq : res.t1 = st.t1
  dist_sub : ∀ v : Coord, res.dist v ≠ none → v ∈ searchSupport g start
  dist_bound : ∀ (v : Coord) (d : Nat), res.dist v = some d →
    d < ((searchSupport g start).filter fun w => res.dist w ≠ none).card
  pq_reach : ∀ e ∈ res.pq, searchReach g start e.2.2
  measure_le : 2 * (searchSupport g start).sum
      (fun v => (res.dist v).getD ((searchSupport g start).card + 1)) + res.pq.length ≤
    2 * (searchSupport g start).sum
      (fun v => (st.dist v).getD ((searchSupport g start).card + 1)) + st.pq.length

/-- A recorded search path: it starts at `start`, ends at `goal`, visits no
coordinate twice, and each step moves to an in-bounds non-wall `_neighbors` cell. -/
def listPathOK (g : Grid) (start goal : Coord) (l : List Coord) : Prop :=
  l.head? = some start ∧ l.getLast? = some goal ∧ l.Nodup ∧
    List.Chain' (fun a b => b ∈ searchNeighbors g a) l

/-- The neighbor-expansion fold of one BFS/DFS step, abbreviated (definitionally
equal to the fold inside `PoolState.step`). -/
def poolExpandFold (isStack : Bool) (rc : Coord) (l : List Coord) (st : PoolState) :
    PoolState :=
  l.foldl (fun st nr =>
    if nr ∈ st.seen then st
    else
      { st with seen := insert nr st.seen
                parent := Function.update st.parent nr (some rc)
                pool := if isStack then nr :: st.pool else st.pool ++ [nr] }) st

/-- The neighbor-relaxation fold of one Dijkstra/A* step, abbreviated
(definitionally equal to the fold inside `PQState.step`). -/
def pqRelaxFold (h : Coord → Nat) (s1 : PQState) (rc : Coord) (l : List Coord)
    (st : PQState) : PQState :=
  l.foldl (fun st nr =>
    let nd := ((s1.dist rc).getD 0) + 1
    if (match st.dist nr with
        | none => true
        | some m => decide (nd < m)) then
      { st with dist := Function.update st.dist nr (some nd)
                parent := Function.update st.parent nr (some rc)
                tie := st.tie + 1
                pq := st.pq ++ [(nd + h nr, st.tie + 1, nr)] }
    else st) st

/-- Soundness/completeness invariant of the BFS/DFS machine: the parent chains
form strictly depth-decreasing search edges inside `seen` ending at `start`, the
seen set is closed up to pending pool entries, an unfound goal is never silently
dropped, done-by-exhaustion has an empty pool, and a recorded path is a valid
simple start-goal path. -/
structure PoolSound (g : Grid) (start goal : Coord) (s : PoolState) : Prop where
  start_seen : start ∈ s.seen
  parent_start : s.parent start = none
  parent_spec : ∀ x p : Coord, s.parent x = some p →
    x ∈ s.seen ∧ p ∈ s.seen ∧ x ∈ searchNeighbors g p ∧ x ≠ start
  seen_parent : ∀ x ∈ s.seen, x = start ∨ s.parent x ≠ none
  pool_seen : ∀ c ∈ s.pool, c ∈ s.seen
  depth : ∃ dep : Coord → Nat, (∀ x ∈ s.seen, dep x < s.seen.card) ∧
    ∀ x p : Coord, s.parent x = some p → dep p < dep x
  closure : s.path = none → ∀ x ∈ s.seen, x ∈ s.pool ∨
    ∀ y ∈ searchNeighbors g x, y ∈ s.seen
  goal_pending : s.path = none → goal ∉ s.seen ∨ goal ∈ s.pool
  done_pool : s.done = true → s.path ≠ none ∨ s.pool = []
  path_ok : s.path = none ∨ ∃ l, s.path = some l ∧ listPathOK g start goal l

/-- Facts carried out of the BFS/DFS neighbor-expansion fold for the soundness
invariant. -/
structure PoolFoldSound (g : Grid) (start rc : Coord) (l : List Coord)
    (st res : PoolState) : Prop where
  path_eq : res.path = st.path
  done_eq : res.done = st.done
  seen_mono : st.seen ⊆ res.seen
  pool_mono : ∀ c ∈ st.pool, c ∈ res.pool
  new_in_pool : ∀ x : Coord, x ∈ res.seen → x ∉ st.seen → x ∈ res.pool
  all_seen : ∀ n ∈ l, n ∈ res.seen
  start_seen : start ∈ res.seen
  parent_start : res.parent start = none
  parent_spec : ∀ x p : Coord, res.parent x = some p →
    x ∈ res.seen ∧ p ∈ res.seen ∧ x ∈ searchNeighbors g p ∧ x ≠ start
  seen_parent : ∀ x ∈ res.seen, x = start ∨ res.parent x ≠ none
  pool_seen : ∀ c ∈ res.pool, c ∈ res.seen
  depth : ∃ dep : Coord → Nat, (∀ x ∈ res.seen, dep x < res.seen.card) ∧
    ∀ x p : Coord, res.parent x = some p → dep p < dep x

/-- Soundness/completeness invariant of the Dijkstra/A* machine (`h` is the
priority offset): parent links are search edges of strictly smaller recorded
distance, every recorded node still has a fresh heap entry unless it was expanded,
the goal in particular keeps a fresh entry until popped, done-by-exhaustion has an
empty heap, and a recorded path is a valid simple start-goal path. -/
structure PQSound (h : Coord → Nat) (g : Grid) (start goal : Coord) (s : PQState) :
    Prop where
  dist_start : s.dist start = some 0
  parent_start : s.parent start = none
  parent_spec : ∀ x p : Coord, s.parent x = some p →
    x ∈ searchNeighbors g p ∧ x ≠ start ∧
      ∃ dx dp : Nat, s.dist x = some dx ∧ s.dist p = some dp ∧ dp < dx
  dist_parent : ∀ x : Coord, s.dist x ≠ none → x ≠ start → s.parent x ≠ none
  expanded : s.path = none → ∀ (x : Coord) (dx : Nat), s.dist x = some dx →
    (∃ e ∈ s.pq, e.2.2 = x ∧ e.1 = dx + h x) ∨
      ∀ y ∈ searchNeighbors g x, s.dist y ≠ none
  goal_pending : s.path = none → s.dist goal = none ∨
    ∃ e ∈ s.pq, e.2.2 = goal ∧ ∃ dg : Nat, s.dist goal = some dg ∧ e.1 = dg + h goal
  done_pq : s.done = true → s.path ≠ none ∨ s.pq = []
  path_ok : s.path = none ∨ ∃ l, s.path = some l ∧ listPathOK g start goal l

/-- Facts carried out of the Dijkstra/A* neighbor-relaxation fold for the
soundness invariant. -/
structure PQFoldSound (h : Coord → Nat) (g : Grid) (start goal rc : Coord)
    (drc : Nat) (l : List Coord) (st res : PQState) : Prop where
  path_eq : res.path = st.path
  done_eq : res.done = st.done
  dist_rc : res.dist rc = some drc
  dist_start : res.dist start = some 0
  parent_start : res.parent start = none
  parent_spec : ∀ x p : Coord, res.parent x = some p →
    x ∈ searchNeighbors g p ∧ x ≠ start ∧
      ∃ dx dp : Nat, res.dist x = some dx ∧ res.dist p = some dp ∧ dp < dx
  dist_parent : ∀ x : Coord, res.dist x ≠ none → x ≠ start → res.parent x ≠ none
  expanded_nrc : res.path = none → ∀ (x : Coord) (dx : Nat), res.dist x = some dx →
    x ≠ rc → (∃ e ∈ res.pq, e.2.2 = x ∧ e.1 = dx + h x) ∨
      ∀ y ∈ searchNeighbors g x, res.dist y ≠ none
  goal_pending : res.path = none → res.dist goal = none ∨
    ∃ e ∈ res.pq, e.2.2 = goal ∧ ∃ dg : Nat, res.dist goal = some dg ∧ e.1 = dg + h goal
  defined_mono : ∀ x : Coord, st.dist x ≠ none → res.dist x ≠ none
  all_defined : ∀ n ∈ l, res.dist n ≠ none

/-- The claim-C4 property of a maze: however each of the four algorithms is stepped
to completion, all four record a path; BFS, Dijkstra and A* paths have equal length
and the DFS path is at least as long as Dijkstra's. -/
def allSearchPathsAgree (g : Grid) (start goal : Coord) : Prop :=
  ∀ (tb1 tb2 tb3 tb4 : Nat) (ts1 ts2 ts3 ts4 : Nat → Nat) (n1 n2 n3 n4 : Nat),
    (BFS.runN g start goal tb1 ts1 n1).done = true →
    (DFS.runN g start goal tb2 ts2 n2).done = true →
    (Dijkstra.runN g start goal tb3 ts3 n3).done = true →
    (AStar.runN g start goal tb4 ts4 n4).done = true →
    ∃ lB lD lJ lA : List Coord,
      (BFS.runN g start goal tb1 ts1 n1).path = some lB ∧
      (DFS.runN g start goal tb2 ts2 n2).path = some lD ∧
      (Dijkstra.runN g start goal tb3 ts3 n3).path = some lJ ∧
      (AStar.runN g start goal tb4 ts4 n4).path = some lA ∧
      lB.length = lJ.length ∧ lA.length = lJ.length ∧ lJ.length ≤ lD.length

/-- A concrete grid whose goal cell is sealed off from the start (a C5 test
fixture). -/
def disconnectedGrid : Grid :=
  { rows := 5
    cols := 5
    free := fun p => decide (p = ((1, 1) : Coord)) || decide (p = ((3, 3) : Coord))
    start := (1, 1)
    goal := (3, 3)
    dirty := ∅ }

/-! ## Theorems -/

theorem manhattan_comm (a b : Coord) : manhattan a b = manhattan b a := by
  unfold manhattan; omega

theorem manhattan_self (a : Coord) : manhattan a a = 0 := by
  simp [manhattan]

theorem SeededRNG.randint_le {r : SeededRNG} {a b : Int} (h : a ≤ b) :
    a ≤ (r.randint a b).1 ∧ (r.randint a b).1 ≤ b := by
  unfold SeededRNG.randint
  have hpos : 0 < (b - a + 1).toNat := by omega
  have hlt : r.vals r.idx % (b - a + 1).toNat < (b - a + 1).toNat :=
    Nat.mod_lt _ hpos
  constructor
  · simp only []
    omega
  · simp only []
    omega

/-! ### Frame lemmas: search steps never touch the shared grid (claim C10) -/

theorem foldl_grid_pool {F : PoolState → Coord → PoolState}
    (h : ∀ st x, (F st x).grid = st.grid ∧ (F st x).start = st.start ∧ (F st x).goal = st.goal) :
    ∀ (l : List Coord) (s : PoolState),
      (l.foldl F s).grid = s.grid ∧ (l.foldl F s).start = s.start ∧ (l.foldl F s).goal = s.goal := by
  intro l
  induction l with
  | nil => intro s; exact ⟨rfl, rfl, rfl⟩
  | cons x xs ih =>
    intro s
    have h1 := h s x
    have h2 := ih (F s x)
    simp only [List.foldl_cons]
    exact ⟨h2.1.trans h1.1, h2.2.1.trans h1.2.1, h2.2.2.trans h1.2.2⟩

theorem foldl_grid_pq {F : PQState → Coord → PQState}
    (h : ∀ st x, (F st x).grid = st.grid ∧ (F st x).start = st.start ∧ (F st x).goal = st.goal) :
    ∀ (l : List Coord) (s : PQState),
      (l.foldl F s).grid = s.grid ∧ (l.foldl F s).start = s.start ∧ (l.foldl F s).goal = s.goal := by
  intro l
  induction l with
  | nil => intro s; exact ⟨rfl, rfl, rfl⟩
  | cons x xs ih =>
    intro s
    have h1 := h s x
    have h2 := ih (F s x)
    simp only [List.foldl_cons]
    exact ⟨h2.1.trans h1.1, h2.2.1.trans h1.2.1, h2.2.2.trans h1.2.2⟩

theorem poolStep_frame (b : Bool) (t : Nat) (s : PoolState) :
    (PoolState.step b t s).grid = s.grid ∧ (PoolState.step b t s).start = s.start ∧
      (PoolState.step b t s).goal = s.goal := by
  unfold PoolState.step
  split
  · dsimp only
    split <;> exact ⟨rfl, rfl, rfl⟩
  · rcases hp : s.pool with _ | ⟨rc, rest⟩
    · exact ⟨rfl, rfl, rfl⟩
    · simp only []
      split
      · exact ⟨rfl, rfl, rfl⟩
      · refine foldl_grid_pool ?_ _ _
        intro st x
        dsimp only []
        split <;> exact ⟨rfl, rfl, rfl⟩

theorem pqStep_frame (h : Coord → Nat) (t : Nat) (s : PQState) :
    (PQState.step h t s).grid = s.grid ∧ (PQState.step h t s).start = s.start ∧
      (PQState.step h t s).goal = s.goal := by
  unfold PQState.step
  split
  · dsimp only
    split <;> exact ⟨rfl, rfl, rfl⟩
  · rcases hp : popMin s.pq with _ | ⟨⟨d, tie, rc⟩, rest⟩
    · exact ⟨rfl, rfl, rfl⟩
    · simp only []
      split
      · exact ⟨rfl, rfl, rfl⟩
      · split
        · exact ⟨rfl, rfl, rfl⟩
        · refine foldl_grid_pq ?_ _ _
          intro st x
          dsimp only []
          split <;> exact ⟨rfl, rfl, rfl⟩

/-- Claim C10: no `step()` of any of the four search algorithms mutates the shared
grid or the start/goal coordinates; a step changes only the algorithm's own state, so
interleaving searches over one grid cannot affect any individual search's result. -/
theorem c10_search_step_preserves_grid :
    ∀ (t : Nat) (s : PoolState) (q : PQState) (goal : Coord),
      ((BFS.step t s).grid = s.grid ∧ (BFS.step t s).start = s.start ∧
        (BFS.step t s).goal = s.goal) ∧
      ((DFS.step t s).grid = s.grid ∧ (DFS.step t s).start = s.start ∧
        (DFS.step t s).goal = s.goal) ∧
      ((Dijkstra.step t q).grid = q.grid ∧ (Dijkstra.step t q).start = q.start ∧
        (Dijkstra.step t q).goal = q.goal) ∧
      ((AStar.step goal t q).grid = q.grid ∧ (AStar.step goal t q).start = q.start ∧
        (AStar.step goal t q).goal = q.goal) :=
  fun t s q goal =>
    ⟨poolStep_frame false t s, poolStep_frame true t s,
      pqStep_frame (fun _ => 0) t q, pqStep_frame (fun rc => manhattan rc goal) t q⟩

/-! ### Determinism (claim C2) -/

/-- Claim C2: with a fixed seed and fixed dimensions, two runs of either generator
from freshly constructed state produce bit-identical grid contents after any number of
`step()` calls.  In the embedding every component is a pure function of
`(rows, cols, seed)`, so the two freshly-built runs coincide exactly. -/
theorem c2_generation_deterministic :
    ∀ (rows cols seed : Int) (n : Nat),
      ((PrimGen.runN (Grid.init rows cols) (SeededRNG.fromSeed seed) n).grid.free =
        (PrimGen.runN (Grid.init rows cols) (SeededRNG.fromSeed seed) n).grid.free) ∧
      ((KruskalGen.runN (Grid.init rows cols) (SeededRNG.fromSeed seed) n).grid.free =
        (KruskalGen.runN (Grid.init rows cols) (SeededRNG.fromSeed seed) n).grid.free) :=
  fun _ _ _ _ => ⟨rfl, rfl⟩

/-! ### Neighbor enumeration order (claim C3) -/

theorem filterMap_guard_map {α β : Type} (F : α → β) (q : β → Bool) (l : List α) :
    (l.filterMap fun a => if q (F a) then some (F a) else none) = (l.map F).filter q := by
  induction l with
  | nil => rfl
  | cons a t ih =>
    simp only [List.filterMap_cons, List.map_cons, List.filter_cons]
    cases h : q (F a) <;> simp [h, ih]

theorem neighbors_cells_eq_urdl (g : Grid) (rc : Coord) :
    g.neighbors_cells rc =
      (urdlCandidates 2 rc.1 rc.2).filter fun p => g.in_bounds p.1 p.2 := by
  rcases rc with ⟨r, c⟩
  have h := filterMap_guard_map (fun d : Coord => (r + d.1, c + d.2))
    (fun p : Coord => g.in_bounds p.1 p.2) [(-2, 0), (0, 2), (2, 0), (0, -2)]
  refine Eq.trans h ?_
  simp [urdlCandidates, sub_eq_add_neg]

theorem passable_neighbors_eq_urdl (g : Grid) (rc : Coord) :
    g.passable_neighbors rc =
      (urdlCandidates 1 rc.1 rc.2).filter fun p => g.in_bounds p.1 p.2 && ! g.is_wall p := by
  rcases rc with ⟨r, c⟩
  have h := filterMap_guard_map (fun d : Coord => (r + d.1, c + d.2))
    (fun p : Coord => g.in_bounds p.1 p.2 && ! g.is_wall p) [(-1, 0), (0, 1), (1, 0), (0, -1)]
  refine Eq.trans h ?_
  simp [urdlCandidates, sub_eq_add_neg]

theorem searchNeighbors_eq_urdl (g : Grid) (rc : Coord) :
    searchNeighbors g rc =
      (urdlCandidates 1 rc.1 rc.2).filter fun p => g.in_bounds p.1 p.2 && ! g.is_wall p := by
  rcases rc with ⟨r, c⟩
  rfl

/-- Counterexample to claim C3: the GeminiPro `Grid.get_neighbors` enumerates
candidates up, **down, left, right** — at `(3, 3)` with step 1 on an 11×11 grid it
returns `[(2,3), (4,3), (3,2), (3,4)]`, not the claimed up, right, down, left order
`[(2,3), (3,4), (4,3), (3,2)]`. -/
theorem c3_counterexample :
    (GGrid.init 11 11).get_neighbors 3 3 1 true = [(2, 3), (4, 3), (3, 2), (3, 4)] ∧
      ((urdlCandidates 1 3 3).filter fun p => (GGrid.init 11 11).is_valid p.1 p.2) =
        [(2, 3), (3, 4), (4, 3), (3, 2)] ∧
      ([((2 : Int), (3 : Int)), (4, 3), (3, 2), (3, 4)] ≠
        [((2 : Int), (3 : Int)), (3, 4), (4, 3), (3, 2)]) := by
  refine ⟨by decide, by decide, by decide⟩

/-- Claim C3, amended: within the ChatGPT5 OneShot variant every neighbor enumeration
(generation adjacency, pathfinding adjacency, and the searches' `_neighbors`) uses the
fixed order up, right, down, left; but the order varies across variants — the
GeminiPro grid enumerates up, down, left, right, and the Claude iterative maze
enumerates up, left, right, down. -/
theorem c3_neighbor_order_amended :
    (∀ (g : Grid) (rc : Coord),
      g.neighbors_cells rc =
        ((urdlCandidates 2 rc.1 rc.2).filter fun p => g.in_bounds p.1 p.2) ∧
      g.passable_neighbors rc =
        ((urdlCandidates 1 rc.1 rc.2).filter fun p => g.in_bounds p.1 p.2 && ! g.is_wall p) ∧
      searchNeighbors g rc =
        ((urdlCandidates 1 rc.1 rc.2).filter fun p => g.in_bounds p.1 p.2 && ! g.is_wall p)) ∧
    (∀ (gg : GGrid) (r c stp : Int),
      gg.get_neighbors r c stp true =
        (([(r - stp, c), (r + stp, c), (r, c - stp), (r, c + stp)] : List Coord).filter
          fun p => gg.is_valid p.1 p.2)) ∧
    (∀ (cr cc r c : Int),
      claudeIterNeighbors cr cc r c =
        (([(r - 1, c), (r, c - 1), (r, c + 1), (r + 1, c)] : List Coord).filter
          fun p => decide (0 ≤ p.1 ∧ p.1 < cr ∧ 0 ≤ p.2 ∧ p.2 < cc))) := by
  refine ⟨fun g rc => ⟨neighbors_cells_eq_urdl g rc, passable_neighbors_eq_urdl g rc,
    searchNeighbors_eq_urdl g rc⟩, fun gg r c stp => ?_, fun cr cc r c => ?_⟩
  · have h := filterMap_guard_map (fun d : Coord => (r + d.1, c + d.2))
      (fun p : Coord => gg.is_valid p.1 p.2 && (true || gg.passage p))
      [(-stp, 0), (stp, 0), (0, -stp), (0, stp)]
    refine Eq.trans h ?_
    simp [sub_eq_add_neg]
  · have h := filterMap_guard_map (fun d : Coord => (r + d.1, c + d.2))
      (fun p : Coord => decide (0 ≤ p.1 ∧ p.1 < cr ∧ 0 ≤ p.2 ∧ p.2 < cc))
      [(-1, 0), (0, -1), (0, 1), (1, 0)]
    refine Eq.trans h ?_
    simp [sub_eq_add_neg]

/-! ### Totality of the passage query (claim C7) -/

/-- Counterexample to claim C7: the OneShot ChatGPT5 `Grid.is_wall` (the passage query
of that variant) indexes the grid rows/columns without a bounds check: at `(3, 0)` on
a 3×3 grid it raises `IndexError` (modelled as `none`), and at `(-1, 0)` it silently
indexes from the end of the list instead of reporting out-of-bounds. -/
theorem c7_counterexample :
    oneShotIsWallRaw wallMatrix3 (3, 0) = none ∧
      oneShotIsWallRaw wallMatrix3 (-1, 0) = some true := by
  constructor <;> rfl

/-- Claim C7, amended: the bounds-checked `is_passage` of the iterative Claude and
iterative ChatGPT5 variants is total and returns `false` for every out-of-bounds
coordinate (including negative ones), so callers can use it as a neighbor filter; the
OneShot ChatGPT5 `Grid.is_wall`, however, indexes the grid unchecked (negative
coordinates wrap; coordinates past the end raise `IndexError`). -/
theorem c7_is_passage_amended :
    (∀ (m : CMaze) (r c : Int),
      ¬(0 ≤ r ∧ r < m.grid_rows ∧ 0 ≤ c ∧ c < m.grid_cols) → m.is_passage r c = false) ∧
    (∀ (m : IMaze) (r c : Int),
      ¬(0 ≤ r ∧ r < m.H ∧ 0 ≤ c ∧ c < m.W) → m.is_passage r c = false) := by
  constructor
  · intro m r c h
    simp only [CMaze.is_passage]
    rw [if_neg h]
  · intro m r c h
    simp only [IMaze.is_passage]
    rw [if_pos (by omega)]

/-! ### `step()` is a no-op after completion (claim C6) -/

theorem foldl_keeps_done_t1_pool {F : PoolState → Coord → PoolState}
    (h : ∀ st x, (F st x).done = st.done ∧ (F st x).t1 = st.t1) :
    ∀ (l : List Coord) (s : PoolState),
      (l.foldl F s).done = s.done ∧ (l.foldl F s).t1 = s.t1 := by
  intro l
  induction l with
  | nil => intro s; exact ⟨rfl, rfl⟩
  | cons x xs ih =>
    intro s
    have h1 := h s x
    have h2 := ih (F s x)
    simp only [List.foldl_cons]
    exact ⟨h2.1.trans h1.1, h2.2.trans h1.2⟩

theorem foldl_keeps_done_t1_pq {F : PQState → Coord → PQState}
    (h : ∀ st x, (F st x).done = st.done ∧ (F st x).t1 = st.t1) :
    ∀ (l : List Coord) (s : PQState),
      (l.foldl F s).done = s.done ∧ (l.foldl F s).t1 = s.t1 := by
  intro l
  induction l with
  | nil => intro s; exact ⟨rfl, rfl⟩
  | cons x xs ih =>
    intro s
    have h1 := h s x
    have h2 := ih (F s x)
    simp only [List.foldl_cons]
    exact ⟨h2.1.trans h1.1, h2.2.trans h1.2⟩

/-- In any reachable search state (positive clock readings), `done` implies the stop
time `_t1` has been recorded (is nonzero). -/
theorem pool_done_t1_pos (b : Bool) (g : Grid) (st gl : Coord) (tb : Nat) (ts : Nat → Nat)
    (hts : ∀ i, 0 < ts i) :
    ∀ n, (PoolState.runN b g st gl tb ts n).done = true →
      0 < (PoolState.runN b g st gl tb ts n).t1 := by
  intro n
  induction n with
  | zero => intro hdone; cases hdone
  | succ n ih =>
    intro hdone
    set s := PoolState.runN b g st gl tb ts n with hs
    have hstep : PoolState.runN b g st gl tb ts (n + 1) = PoolState.step b (ts n) s := rfl
    rw [hstep] at hdone ⊢
    unfold PoolState.step at hdone ⊢
    by_cases hd : (s.done || decide (s.pool = [])) = true
    · rw [if_pos hd] at hdone ⊢
      dsimp only at hdone ⊢
      by_cases ht : s.t1 = 0
      · rw [if_pos ht]
        exact hts n
      · rw [if_neg ht]
        show 0 < s.t1
        omega
    · rw [if_neg hd] at hdone ⊢
      rcases hp : s.pool with _ | ⟨rc, rest⟩
      · simp [hp] at hd
      · simp only [hp] at hdone ⊢
        by_cases hg : rc = s.goal
        · rw [if_pos hg]
          exact hts n
        · rw [if_neg hg] at hdone ⊢
          have hkeep := foldl_keeps_done_t1_pool (F := fun stt nr =>
              if nr ∈ stt.seen then stt
              else
                { stt with seen := insert nr stt.seen
                           parent := Function.update stt.parent nr (some rc)
                           pool := if b then nr :: stt.pool else stt.pool ++ [nr] })
            (by intro stt x; dsimp only; split <;> exact ⟨rfl, rfl⟩)
          have hdone' := (hkeep _ _).1.symm.trans hdone
          simp only [hp] at hdone'
          have : s.done = true := hdone'
          simp [this] at hd

theorem pq_done_t1_pos (h : Coord → Nat) (g : Grid) (st gl : Coord) (tb : Nat)
    (ts : Nat → Nat) (hts : ∀ i, 0 < ts i) :
    ∀ n, (PQState.runN h g st gl tb ts n).done = true →
      0 < (PQState.runN h g st gl tb ts n).t1 := by
  intro n
  induction n with
  | zero => intro hdone; cases hdone
  | succ n ih =>
    intro hdone
    set s := PQState.runN h g st gl tb ts n with hs
    have hstep : PQState.runN h g st gl tb ts (n + 1) = PQState.step h (ts n) s := rfl
    rw [hstep] at hdone ⊢
    unfold PQState.step at hdone ⊢
    by_cases hd : (s.done || decide (s.pq = [])) = true
    · rw [if_pos hd] at hdone ⊢
      dsimp only at hdone ⊢
      by_cases ht : s.t1 = 0
      · rw [if_pos ht]
        exact hts n
      · rw [if_neg ht]
        show 0 < s.t1
        omega
    · rw [if_neg hd] at hdone ⊢
      rcases hp : popMin s.pq with _ | ⟨⟨d, tie, rc⟩, rest⟩
      · have : s.pq = [] := by
          unfold popMin at hp
          rcases hq : s.pq with _ | ⟨x, xs⟩
          · rfl
          · rw [hq] at hp; cases hp
        simp [this] at hd
      · simp only [hp] at hdone ⊢
        by_cases hstale : PQState.keyOf h s rc ≠ some d
        · rw [if_pos hstale] at hdone ⊢
          have : s.done = true := hdone
          simp [this] at hd
        · rw [if_neg hstale] at hdone ⊢
          by_cases hg : rc = s.goal
          · rw [if_pos hg]
            exact hts n
          · rw [if_neg hg] at hdone ⊢
            have hkeep : ∀ (l : List Coord) (s0 : PQState),
                ((List.foldl
                  (fun stt nr =>
                    if (match stt.dist nr with
                        | none => true
                        | some m => decide ((s.dist rc).getD 0 + 1 < m)) = true then
                      { stt with dist := Function.update stt.dist nr
                                   (some ((s.dist rc).getD 0 + 1))
                                 parent := Function.update stt.parent nr (some rc)
                                 pq := stt.pq ++ [((s.dist rc).getD 0 + 1 + h nr,
                                   stt.tie + 1, nr)]
                                 tie := stt.tie + 1 }
                    else stt) s0 l).done = s0.done ∧
                 (List.foldl
                  (fun stt nr =>
                    if (match stt.dist nr with
                        | none => true
                        | some m => decide ((s.dist rc).getD 0 + 1 < m)) = true then
                      { stt with dist := Function.update stt.dist nr
                                   (some ((s.dist rc).getD 0 + 1))
                                 parent := Function.update stt.parent nr (some rc)
                                 pq := stt.pq ++ [((s.dist rc).getD 0 + 1 + h nr,
                                   stt.tie + 1, nr)]
                                 tie := stt.tie + 1 }
                    else stt) s0 l).t1 = s0.t1) :=
              foldl_keeps_done_t1_pq
                (by intro stt x; split <;> exact ⟨rfl, rfl⟩)
            have hdone' := (hkeep _ _).1.symm.trans hdone
            have : s.done = true := hdone'
            simp [this] at hd

theorem poolState_set_done_eq (s : PoolState) (hd : s.done = true) :
    ({ s with done := true } : PoolState) = s := by
  cases s
  simp_all

theorem pqState_set_done_eq (s : PQState) (hd : s.done = true) :
    ({ s with done := true } : PQState) = s := by
  cases s
  simp_all

/-- A single `step()` on a done state with recorded stop time is the identity. -/
theorem poolStep_done_noop (b : Bool) (t : Nat) (s : PoolState) (hd : s.done = true)
    (ht : 0 < s.t1) : PoolState.step b t s = s := by
  unfold PoolState.step
  rw [if_pos (by simp [hd])]
  dsimp only
  rw [poolState_set_done_eq s hd]
  rw [if_neg (by omega)]

theorem pqStep_done_noop (h : Coord → Nat) (t : Nat) (s : PQState) (hd : s.done = true)
    (ht : 0 < s.t1) : PQState.step h t s = s := by
  unfold PQState.step
  rw [if_pos (by simp [hd])]
  dsimp only
  rw [pqState_set_done_eq s hd]
  rw [if_neg (by omega)]

/-- Claim C6: for every instance of the four search algorithms (any reachable state,
with positive clock readings), once `is_done()` is true every further `step()` call is
a no-op — the state, hence `get_path()`-visible path and `get_metrics()`, are
unchanged after any number of further calls. -/
theorem c6_step_noop_after_done :
    ∀ (g : Grid) (st gl : Coord) (tb : Nat) (ts : Nat → Nat) (n : Nat),
      (∀ i, 0 < ts i) →
      ((BFS.runN g st gl tb ts n).done = true →
        ∀ t k, (BFS.step t)^[k] (BFS.runN g st gl tb ts n) = BFS.runN g st gl tb ts n ∧
          ∀ t2, PoolState.get_metrics t2 ((BFS.step t)^[k] (BFS.runN g st gl tb ts n)) =
            PoolState.get_metrics t2 (BFS.runN g st gl tb ts n)) ∧
      ((DFS.runN g st gl tb ts n).done = true →
        ∀ t k, (DFS.step t)^[k] (DFS.runN g st gl tb ts n) = DFS.runN g st gl tb ts n ∧
          ∀ t2, PoolState.get_metrics t2 ((DFS.step t)^[k] (DFS.runN g st gl tb ts n)) =
            PoolState.get_metrics t2 (DFS.runN g st gl tb ts n)) ∧
      ((Dijkstra.runN g st gl tb ts n).done = true →
        ∀ t k, (Dijkstra.step t)^[k] (Dijkstra.runN g st gl tb ts n) =
            Dijkstra.runN g st gl tb ts n ∧
          ∀ t2, PQState.get_metrics t2 ((Dijkstra.step t)^[k] (Dijkstra.runN g st gl tb ts n)) =
            PQState.get_metrics t2 (Dijkstra.runN g st gl tb ts n)) ∧
      ((AStar.runN g st gl tb ts n).done = true →
        ∀ t k, (AStar.step gl t)^[k] (AStar.runN g st gl tb ts n) =
            AStar.runN g st gl tb ts n ∧
          ∀ t2, PQState.get_metrics t2 ((AStar.step gl t)^[k] (AStar.runN g st gl tb ts n)) =
            PQState.get_metrics t2 (AStar.runN g st gl tb ts n)) := by
  intro g st gl tb ts n hts
  have fixpt : ∀ {α : Type} (f : α → α) (x : α), f x = x → ∀ k, f^[k] x = x := by
    intro α f x hfx k
    induction k with
    | zero => rfl
    | succ k ih => rw [Function.iterate_succ_apply, hfx, ih]
  refine ⟨fun hd t k => ?_, fun hd t k => ?_, fun hd t k => ?_, fun hd t k => ?_⟩
  · have h1 := poolStep_done_noop false t _ hd (pool_done_t1_pos false g st gl tb ts hts n hd)
    have h2 := fixpt (BFS.step t) _ h1 k
    exact ⟨h2, fun t2 => by rw [h2]⟩
  · have h1 := poolStep_done_noop true t _ hd (pool_done_t1_pos true g st gl tb ts hts n hd)
    have h2 := fixpt (DFS.step t) _ h1 k
    exact ⟨h2, fun t2 => by rw [h2]⟩
  · have h1 := pqStep_done_noop (fun _ => 0) t _ hd
      (pq_done_t1_pos (fun _ => 0) g st gl tb ts hts n hd)
    have h2 := fixpt (Dijkstra.step t) _ h1 k
    exact ⟨h2, fun t2 => by rw [h2]⟩
  · have h1 := pqStep_done_noop (fun rc => manhattan rc gl) t _ hd
      (pq_done_t1_pos (fun rc => manhattan rc gl) g st gl tb ts hts n hd)
    have h2 := fixpt (AStar.step gl t) _ h1 k
    exact ⟨h2, fun t2 => by rw [h2]⟩

/-- Witness for C6: a BFS/DFS/Dijkstra/A* run on `Grid(3, 3)` from `(1,1)` to `(1,1)`
is done after one step; further steps change nothing. -/
theorem c6_step_noop_after_done_witness :
    (∀ i : Nat, 0 < (fun _ : Nat => 1) i) ∧
    ((BFS.runN (Grid.init 3 3) (1, 1) (1, 1) 1 (fun _ => 1) 1).done = true ∧
      (BFS.step 7)^[2] (BFS.runN (Grid.init 3 3) (1, 1) (1, 1) 1 (fun _ => 1) 1) =
        BFS.runN (Grid.init 3 3) (1, 1) (1, 1) 1 (fun _ => 1) 1) ∧
    ((AStar.runN (Grid.init 3 3) (1, 1) (1, 1) 1 (fun _ => 1) 1).done = true ∧
      (AStar.step (1, 1) 7)^[2] (AStar.runN (Grid.init 3 3) (1, 1) (1, 1) 1 (fun _ => 1) 1) =
        AStar.runN (Grid.init 3 3) (1, 1) (1, 1) 1 (fun _ => 1) 1) := by
  have hts : ∀ i : Nat, 0 < (fun _ : Nat => 1) i := fun _ => Nat.one_pos
  have hb : (BFS.runN (Grid.init 3 3) (1, 1) (1, 1) 1 (fun _ => 1) 1).done = true := by rfl
  have ha : (AStar.runN (Grid.init 3 3) (1, 1) (1, 1) 1 (fun _ => 1) 1).done = true := by rfl
  have hmain := c6_step_noop_after_done (Grid.init 3 3) (1, 1) (1, 1) 1 (fun _ => 1) 1 hts
  exact ⟨hts, ⟨hb, (hmain.1 hb 7 2).1⟩, ⟨ha, (hmain.2.2.2 ha 7 2).1⟩⟩

/-! ### Graph lemmas: growing a forest one bridge at a time -/

theorem passageGraph_adj {g : Grid} {a b : Coord} :
    (passageGraph g).Adj a b ↔ manhattan a b = 1 ∧ g.free a = true ∧ g.free b = true :=
  Iff.rfl

/-- A non-free coordinate is isolated in the passage graph. -/
theorem reachable_of_not_free {g : Grid} {a b : Coord} (ha : g.free a = false)
    (h : (passageGraph g).Reachable a b) : a = b := by
  obtain ⟨w⟩ := h
  cases w with
  | nil => rfl
  | cons hadj w' =>
    rw [passageGraph_adj] at hadj
    rw [hadj.2.1] at ha
    cases ha

/-- Edges of the passage graph are monotone in the free predicate. -/
theorem passageGraph_mono {g g' : Grid}
    (h : ∀ p, g.free p = true → g'.free p = true) :
    passageGraph g ≤ passageGraph g' := by
  intro a b hadj
  rw [passageGraph_adj] at hadj ⊢
  exact ⟨hadj.1, h _ hadj.2.1, h _ hadj.2.2⟩

/-- Reachability in `G` plus an extra edge `{u, v}` decomposes into reachability in
`G` possibly crossing the new edge once in either direction. -/
theorem reachable_sup_edge {G : SimpleGraph Coord} {u v : Coord} {x y : Coord}
    (h : (G ⊔ SimpleGraph.fromEdgeSet {s(u, v)}).Reachable x y) :
    G.Reachable x y ∨ (G.Reachable x u ∧ G.Reachable v y) ∨
      (G.Reachable x v ∧ G.Reachable u y) := by
  obtain ⟨w⟩ := h
  induction w with
  | nil => exact Or.inl (SimpleGraph.Reachable.refl _)
  | cons hadj w' ih =>
    rename_i a b c
    rcases hadj with hG | hE
    · rcases ih with h1 | ⟨h1, h2⟩ | ⟨h1, h2⟩
      · exact Or.inl (hG.reachable.trans h1)
      · exact Or.inr (Or.inl ⟨hG.reachable.trans h1, h2⟩)
      · exact Or.inr (Or.inr ⟨hG.reachable.trans h1, h2⟩)
    · rw [SimpleGraph.fromEdgeSet_adj] at hE
      have hec : (a = u ∧ b = v) ∨ (a = v ∧ b = u) := by
        have := hE.1
        simp only [Set.mem_singleton_iff, Sym2.eq_iff] at this
        exact this
      rcases hec with ⟨rfl, rfl⟩ | ⟨rfl, rfl⟩
      · rcases ih with h1 | ⟨h1, h2⟩ | ⟨h1, h2⟩
        · exact Or.inr (Or.inl ⟨SimpleGraph.Reachable.refl _, h1⟩)
        · exact Or.inl (h1.symm.trans h2)
        · exact Or.inl h2
      · rcases ih with h1 | ⟨h1, h2⟩ | ⟨h1, h2⟩
        · exact Or.inr (Or.inr ⟨SimpleGraph.Reachable.refl _, h1⟩)
        · exact Or.inl h2
        · exact Or.inl (h1.symm.trans h2)

/-- Adding an edge between two vertices not connected in an acyclic graph keeps the
graph acyclic (the new edge is a bridge). -/
theorem isAcyclic_sup_bridge {G : SimpleGraph Coord} {u v : Coord}
    (hG : G.IsAcyclic) (hnr : ¬G.Reachable u v) :
    (G ⊔ SimpleGraph.fromEdgeSet {s(u, v)}).IsAcyclic := by
  have huv : u ≠ v := fun h => hnr (h ▸ SimpleGraph.Reachable.refl u)
  have hGadj : ¬G.Adj u v := fun h => hnr h.reachable
  have hle : (G ⊔ SimpleGraph.fromEdgeSet {s(u, v)}) \ SimpleGraph.fromEdgeSet {s(u, v)} ≤ G := by
    intro a b hab
    rw [SimpleGraph.sdiff_adj, SimpleGraph.sup_adj] at hab
    rcases hab.1 with h | h
    · exact h
    · exact absurd h hab.2
  have hbridge : (G ⊔ SimpleGraph.fromEdgeSet {s(u, v)}).IsBridge s(u, v) := by
    rw [SimpleGraph.isBridge_iff]
    refine ⟨Or.inr ?_, fun hre => hnr (hre.mono hle)⟩
    rw [SimpleGraph.fromEdgeSet_adj]
    exact ⟨rfl, huv⟩
  intro x c hc
  by_cases he : s(u, v) ∈ c.edges
  · exact (SimpleGraph.isBridge_iff_mem_and_forall_cycle_not_mem.1 hbridge).2 c hc he
  · have hedges : ∀ e ∈ c.edges, e ∈ G.edgeSet := by
      intro e hee
      have hmem := c.edges_subset_edgeSet hee
      rw [SimpleGraph.edgeSet_sup] at hmem
      rcases hmem with h | h
      · exact h
      · rw [SimpleGraph.edgeSet_fromEdgeSet] at h
        obtain ⟨h1, _⟩ := h
        rw [Set.mem_singleton_iff] at h1
        exact absurd (h1 ▸ hee) he
    exact hG (c.transfer G hedges) (hc.transfer _)

/-! ### Grid-level helper lemmas -/

theorem set_free_dims (g : Grid) (q : Coord) :
    (g.set_free q).rows = g.rows ∧ (g.set_free q).cols = g.cols ∧
      (g.set_free q).start = g.start ∧ (g.set_free q).goal = g.goal := by
  unfold Grid.set_free
  split <;> exact ⟨rfl, rfl, rfl, rfl⟩

theorem set_free_free (g : Grid) (q p : Coord) :
    (g.set_free q).free p = (g.free p || decide (p = q)) := by
  unfold Grid.set_free
  split
  · rename_i h
    by_cases hpq : p = q
    · subst hpq; simp [h]
    · simp [hpq]
  · simp only []
    rw [Function.update_apply]
    by_cases hpq : p = q
    · simp [hpq]
    · simp [hpq]

theorem carve_passage_dims (g : Grid) (a b : Coord) :
    (g.carve_passage a b).rows = g.rows ∧ (g.carve_passage a b).cols = g.cols ∧
      (g.carve_passage a b).start = g.start ∧ (g.carve_passage a b).goal = g.goal := by
  unfold Grid.carve_passage
  refine ⟨?_, ?_, ?_, ?_⟩ <;>
    simp [(set_free_dims _ _).1, (set_free_dims _ _).2.1,
      (set_free_dims _ _).2.2.1, (set_free_dims _ _).2.2.2]

theorem carve_passage_free (g : Grid) (a b p : Coord) :
    (g.carve_passage a b).free p =
      (g.free p || decide (p = a) || decide (p = b) || decide (p = midpt a b)) := by
  unfold Grid.carve_passage
  rw [set_free_free, set_free_free, set_free_free]
  rfl

theorem in_bounds_congr {g g' : Grid} (hr : g'.rows = g.rows) (hc : g'.cols = g.cols)
    (r c : Int) : g'.in_bounds r c = g.in_bounds r c := by
  unfold Grid.in_bounds
  rw [hr, hc]

theorem neighbors_cells_congr {g g' : Grid} (hr : g'.rows = g.rows) (hc : g'.cols = g.cols)
    (y : Coord) : g'.neighbors_cells y = g.neighbors_cells y := by
  unfold Grid.neighbors_cells
  refine List.filterMap_congr ?_
  intro d _
  dsimp only
  rw [in_bounds_congr hr hc]

theorem mem_neighbors_cells {g : Grid} {y x : Coord} :
    x ∈ g.neighbors_cells y ↔
      (x = (y.1 - 2, y.2) ∨ x = (y.1, y.2 + 2) ∨ x = (y.1 + 2, y.2) ∨ x = (y.1, y.2 - 2)) ∧
        g.in_bounds x.1 x.2 = true := by
  rw [neighbors_cells_eq_urdl, List.mem_filter]
  unfold urdlCandidates
  simp only [List.mem_cons, List.not_mem_nil, or_false]

theorem in_bounds_iff {g : Grid} {r c : Int} :
    g.in_bounds r c = true ↔ 0 ≤ r ∧ r < g.rows ∧ 0 ≤ c ∧ c < g.cols := by
  unfold Grid.in_bounds
  exact decide_eq_true_iff

/-- The midpoint of a step-2 neighbor pair, in each of the four directions. -/
theorem midpt_cases {g : Grid} {y x : Coord} (h : x ∈ g.neighbors_cells y) :
    (x = (y.1 - 2, y.2) ∧ midpt y x = (y.1 - 1, y.2)) ∨
    (x = (y.1, y.2 + 2) ∧ midpt y x = (y.1, y.2 + 1)) ∨
    (x = (y.1 + 2, y.2) ∧ midpt y x = (y.1 + 1, y.2)) ∨
    (x = (y.1, y.2 - 2) ∧ midpt y x = (y.1, y.2 - 1)) := by
  have h2 : ∀ k : Int, Int.fdiv (2 * k) 2 = k := fun k => Int.mul_fdiv_cancel_left k two_ne_zero
  rcases (mem_neighbors_cells.1 h).1 with rfl | rfl | rfl | rfl
  · refine Or.inl ⟨rfl, ?_⟩
    unfold midpt
    have : y.1 + (y.1 - 2) = 2 * (y.1 - 1) := by ring
    have h22 : y.2 + y.2 = 2 * y.2 := by ring
    simp only [this, h22, h2]
  · refine Or.inr (Or.inl ⟨rfl, ?_⟩)
    unfold midpt
    have h11 : y.1 + y.1 = 2 * y.1 := by ring
    have : y.2 + (y.2 + 2) = 2 * (y.2 + 1) := by ring
    simp only [this, h11, h2]
  · refine Or.inr (Or.inr (Or.inl ⟨rfl, ?_⟩))
    unfold midpt
    have : y.1 + (y.1 + 2) = 2 * (y.1 + 1) := by ring
    have h22 : y.2 + y.2 = 2 * y.2 := by ring
    simp only [this, h22, h2]
  · refine Or.inr (Or.inr (Or.inr ⟨rfl, ?_⟩))
    unfold midpt
    have h11 : y.1 + y.1 = 2 * y.1 := by ring
    have : y.2 + (y.2 - 2) = 2 * (y.2 - 1) := by ring
    simp only [this, h11, h2]

/-- A step-2 neighbor of a cell-center is a cell-center. -/
theorem neighbors_cells_oddCell {g : Grid} {y x : Coord} (h : x ∈ g.neighbors_cells y)
    (hy : oddCell y) : oddCell x := by
  obtain ⟨ho1, ho2⟩ := hy
  rcases (mem_neighbors_cells.1 h).1 with rfl | rfl | rfl | rfl <;>
    exact ⟨by omega, by omega⟩

theorem neighbors_cells_symm {g : Grid} {y x : Coord} (h : x ∈ g.neighbors_cells y)
    (hy : g.in_bounds y.1 y.2 = true) : y ∈ g.neighbors_cells x := by
  refine mem_neighbors_cells.2 ⟨?_, hy⟩
  rcases (mem_neighbors_cells.1 h).1 with rfl | rfl | rfl | rfl
  · exact Or.inr (Or.inr (Or.inl (by simp)))
  · exact Or.inr (Or.inr (Or.inr (by simp)))
  · exact Or.inl (by simp)
  · exact Or.inr (Or.inl (by simp))

theorem manhattan_one_iff {p y : Coord} :
    manhattan p y = 1 ↔
      y = (p.1 - 1, p.2) ∨ y = (p.1 + 1, p.2) ∨ y = (p.1, p.2 - 1) ∨ y = (p.1, p.2 + 1) := by
  rcases p with ⟨pr, pc⟩; rcases y with ⟨yr, yc⟩
  unfold manhattan
  simp only [Prod.mk.injEq]
  omega

theorem manhattan_neighbors_cells {g : Grid} {a b : Coord} (h : b ∈ g.neighbors_cells a) :
    manhattan a b = 2 := by
  rcases (mem_neighbors_cells.1 h).1 with rfl | rfl | rfl | rfl <;>
    (unfold manhattan; omega)

theorem midpt_ne_ends {g : Grid} {a b : Coord} (h : b ∈ g.neighbors_cells a) :
    midpt a b ≠ a ∧ midpt a b ≠ b := by
  rcases midpt_cases h with ⟨rfl, hm⟩ | ⟨rfl, hm⟩ | ⟨rfl, hm⟩ | ⟨rfl, hm⟩ <;>
    (rw [hm]; constructor <;> (intro hc; rw [Prod.ext_iff] at hc; omega))

theorem manhattan_midpt {g : Grid} {a b : Coord} (h : b ∈ g.neighbors_cells a) :
    manhattan a (midpt a b) = 1 ∧ manhattan (midpt a b) b = 1 := by
  rcases midpt_cases h with ⟨rfl, hm⟩ | ⟨rfl, hm⟩ | ⟨rfl, hm⟩ | ⟨rfl, hm⟩ <;>
    (rw [hm]; unfold manhattan; constructor <;> simp <;> omega)

/-- After `carve_passage a b` with `b` already free, the free set grows by exactly
`a` and the midpoint. -/
theorem carve_free_iff {g : Grid} {a b : Coord} (hbfree : g.free b = true) (p : Coord) :
    (g.carve_passage a b).free p = true ↔
      g.free p = true ∨ p = a ∨ p = midpt a b := by
  rw [carve_passage_free]
  constructor
  · intro h
    simp only [Bool.or_eq_true, decide_eq_true_iff] at h
    rcases h with ((h | h) | h) | h
    · exact Or.inl h
    · exact Or.inr (Or.inl h)
    · exact Or.inl (h ▸ hbfree)
    · exact Or.inr (Or.inr h)
  · intro h
    simp only [Bool.or_eq_true, decide_eq_true_iff]
    rcases h with h | h | h
    · exact Or.inl (Or.inl (Or.inl h))
    · exact Or.inl (Or.inl (Or.inr h))
    · exact Or.inr h

/-- A free coordinate at distance 1 from an uncarved cell-center cannot exist: it
would be a midpoint whose cell invariant forces the center to be carved. -/
theorem no_free_dist1_of_wall_cell {rows cols : Int} {g : Grid} (hg : GridInv rows cols g)
    {a y : Coord} (ha_odd : oddCell a) (haw : g.free a = false)
    (hdist : manhattan a y = 1) (hyfree : g.free y = true) : False := by
  obtain ⟨ho1, ho2⟩ := ha_odd
  rcases manhattan_one_iff.1 hdist with rfl | rfl | rfl | rfl
  · have := hg.mid_vert (a.1 - 1) a.2 hyfree (by omega) ho2
    have h2 : a.1 - 1 + 1 = a.1 := by omega
    rw [h2] at this
    rw [this.2] at haw
    cases haw
  · have := hg.mid_vert (a.1 + 1) a.2 hyfree (by omega) ho2
    have h2 : a.1 + 1 - 1 = a.1 := by omega
    rw [h2] at this
    rw [this.1] at haw
    cases haw
  · have := hg.mid_horz a.1 (a.2 - 1) hyfree ho1 (by omega)
    have h2 : a.2 - 1 + 1 = a.2 := by omega
    rw [h2] at this
    rw [this.2] at haw
    cases haw
  · have := hg.mid_horz a.1 (a.2 + 1) hyfree ho1 (by omega)
    have h2 : a.2 + 1 - 1 = a.2 := by omega
    rw [h2] at this
    rw [this.1] at haw
    cases haw

/-- Any coordinate at distance 1 from the midpoint of a step-2 cell pair that is
free, or equal to one of the two cells, is one of the two cells (the other two
candidates are even/even and never free). -/
theorem free_even_even_false {rows cols : Int} {g : Grid} (hg : GridInv rows cols g)
    {x y : Int} (h : g.free (x, y) = true) (hx : x % 2 = 0) (hy : y % 2 = 0) : False :=
  hg.free_not_ee (x, y) h ⟨hx, hy⟩

theorem mem_neighbors_cells_coords {g : Grid} {a1 a2 b1 b2 : Int}
    (h : ((b1, b2) : Coord) ∈ g.neighbors_cells (a1, a2)) :
    (b1 = a1 - 2 ∧ b2 = a2) ∨ (b1 = a1 ∧ b2 = a2 + 2) ∨
      (b1 = a1 + 2 ∧ b2 = a2) ∨ (b1 = a1 ∧ b2 = a2 - 2) := by
  rcases (mem_neighbors_cells.1 h).1 with h | h | h | h <;>
    simp only [Prod.mk.injEq] at h <;> tauto

theorem fdiv_two_double (k : Int) : Int.fdiv (2 * k) 2 = k :=
  Int.mul_fdiv_cancel_left k two_ne_zero

theorem manhattan_coords_one {p1 p2 y1 y2 : Int}
    (h : manhattan (p1, p2) (y1, y2) = 1) :
    (y1 = p1 - 1 ∧ y2 = p2) ∨ (y1 = p1 + 1 ∧ y2 = p2) ∨
      (y1 = p1 ∧ y2 = p2 - 1) ∨ (y1 = p1 ∧ y2 = p2 + 1) := by
  unfold manhattan at h
  simp only [] at h
  omega

theorem dist1_of_midpt {rows cols : Int} {g : Grid} (hg : GridInv rows cols g)
    {a b y : Coord} (hnb : b ∈ g.neighbors_cells a) (ha_odd : oddCell a)
    (hdist : manhattan (midpt a b) y = 1)
    (hy : g.free y = true ∨ y = a ∨ y = b) : y = a ∨ y = b := by
  obtain ⟨a1, a2⟩ := a
  obtain ⟨b1, b2⟩ := b
  obtain ⟨y1, y2⟩ := y
  obtain ⟨ho1, ho2⟩ := ha_odd
  simp only [] at ho1 ho2
  simp only [Prod.mk.injEq] at hy ⊢
  have hb := mem_neighbors_cells_coords hnb
  have hyc := manhattan_coords_one
    (show manhattan (Int.fdiv (a1 + b1) 2, Int.fdiv (a2 + b2) 2) (y1, y2) = 1 from hdist)
  have hfd : ∀ u v w : Int, u + v = 2 * w → Int.fdiv (u + v) 2 = w := by
    intro u v w h
    rw [h]
    exact fdiv_two_double w
  rcases hb with ⟨h1, h2⟩ | ⟨h1, h2⟩ | ⟨h1, h2⟩ | ⟨h1, h2⟩
  · have e1 := hfd a1 b1 (a1 - 1) (by omega)
    have e2 := hfd a2 b2 a2 (by omega)
    rcases hyc with ⟨hc1, hc2⟩ | ⟨hc1, hc2⟩ | ⟨hc1, hc2⟩ | ⟨hc1, hc2⟩ <;>
      first
        | omega
        | (rcases hy with hyf | hya | hyb
           · exact absurd (free_even_even_false hg hyf (by omega) (by omega)) not_false
           · omega
           · omega)
  · have e1 := hfd a1 b1 a1 (by omega)
    have e2 := hfd a2 b2 (a2 + 1) (by omega)
    rcases hyc with ⟨hc1, hc2⟩ | ⟨hc1, hc2⟩ | ⟨hc1, hc2⟩ | ⟨hc1, hc2⟩ <;>
      first
        | omega
        | (rcases hy with hyf | hya | hyb
           · exact absurd (free_even_even_false hg hyf (by omega) (by omega)) not_false
           · omega
           · omega)
  · have e1 := hfd a1 b1 (a1 + 1) (by omega)
    have e2 := hfd a2 b2 a2 (by omega)
    rcases hyc with ⟨hc1, hc2⟩ | ⟨hc1, hc2⟩ | ⟨hc1, hc2⟩ | ⟨hc1, hc2⟩ <;>
      first
        | omega
        | (rcases hy with hyf | hya | hyb
           · exact absurd (free_even_even_false hg hyf (by omega) (by omega)) not_false
           · omega
           · omega)
  · have e1 := hfd a1 b1 a1 (by omega)
    have e2 := hfd a2 b2 (a2 - 1) (by omega)
    rcases hyc with ⟨hc1, hc2⟩ | ⟨hc1, hc2⟩ | ⟨hc1, hc2⟩ | ⟨hc1, hc2⟩ <;>
      first
        | omega
        | (rcases hy with hyf | hya | hyb
           · exact absurd (free_even_even_false hg hyf (by omega) (by omega)) not_false
           · omega
           · omega)

theorem manhattan_one_ne {x y : Coord} (h : manhattan x y = 1) : x ≠ y := by
  intro hxy
  rw [hxy, manhattan_self] at h
  cases h

/-- Carving a passage from cell `a` to carved neighbor `b` adds to the passage graph
exactly the two edges `a — midpt` and `midpt — b`. -/
theorem passageGraph_carve_eq {rows cols : Int} {g : Grid} (hg : GridInv rows cols g)
    {a b : Coord} (hnb : b ∈ g.neighbors_cells a) (ha_odd : oddCell a)
    (hbfree : g.free b = true) (hmw : g.free (midpt a b) = false) :
    passageGraph (g.carve_passage a b) =
      (passageGraph g ⊔ SimpleGraph.fromEdgeSet {s(a, midpt a b)}) ⊔
        SimpleGraph.fromEdgeSet {s(midpt a b, b)} := by
  obtain ⟨hma, hmb⟩ := manhattan_midpt hnb
  obtain ⟨hnea, hneb⟩ := midpt_ne_ends hnb
  ext x y
  simp only [SimpleGraph.sup_adj, SimpleGraph.fromEdgeSet_adj, Set.mem_singleton_iff,
    Sym2.eq_iff]
  constructor
  · rintro ⟨hd, hx, hy⟩
    have hxy : x ≠ y := manhattan_one_ne hd
    rw [carve_free_iff hbfree] at hx hy
    rcases hx with hx | hxa | hxm <;> rcases hy with hy | hya | hym
    · exact Or.inl (Or.inl ⟨hd, hx, hy⟩)
    · rw [hya] at hd hxy ⊢
      by_cases haf : g.free a = true
      · exact Or.inl (Or.inl ⟨hd, hx, haf⟩)
      · exact absurd (no_free_dist1_of_wall_cell hg ha_odd (by simpa using haf)
          ((manhattan_comm _ _) ▸ hd) hx) not_false
    · rw [hym] at hd hxy ⊢
      rcases dist1_of_midpt hg hnb ha_odd ((manhattan_comm _ _) ▸ hd) (Or.inl hx)
        with hxa | hxb
      · rw [hxa] at hxy ⊢
        exact Or.inl (Or.inr ⟨Or.inl ⟨rfl, rfl⟩, hxy⟩)
      · rw [hxb] at hxy ⊢
        exact Or.inr ⟨Or.inr ⟨rfl, rfl⟩, hxy⟩
    · rw [hxa] at hd hxy ⊢
      by_cases haf : g.free a = true
      · exact Or.inl (Or.inl ⟨hd, haf, hy⟩)
      · exact absurd (no_free_dist1_of_wall_cell hg ha_odd (by simpa using haf) hd hy)
          not_false
    · rw [hxa, hya] at hxy
      exact absurd rfl hxy
    · rw [hxa] at hxy ⊢
      rw [hym] at hxy ⊢
      exact Or.inl (Or.inr ⟨Or.inl ⟨rfl, rfl⟩, hxy⟩)
    · rw [hxm] at hd hxy ⊢
      rcases dist1_of_midpt hg hnb ha_odd hd (Or.inl hy) with hya | hyb
      · rw [hya] at hxy ⊢
        exact Or.inl (Or.inr ⟨Or.inr ⟨rfl, rfl⟩, hxy⟩)
      · rw [hyb] at hxy ⊢
        exact Or.inr ⟨Or.inl ⟨rfl, rfl⟩, hxy⟩
    · rw [hxm] at hxy ⊢
      rw [hya] at hxy ⊢
      exact Or.inl (Or.inr ⟨Or.inr ⟨rfl, rfl⟩, hxy⟩)
    · rw [hxm, hym] at hxy
      exact absurd rfl hxy
  · rintro ((⟨hd, hx, hy⟩ | ⟨hp, hne⟩) | ⟨hp, hne⟩)
    · exact ⟨hd, (carve_free_iff hbfree _).2 (Or.inl hx),
        (carve_free_iff hbfree _).2 (Or.inl hy)⟩
    · rcases hp with ⟨h1, h2⟩ | ⟨h1, h2⟩ <;> rw [h1, h2]
      · exact ⟨hma, (carve_free_iff hbfree _).2 (Or.inr (Or.inl rfl)),
          (carve_free_iff hbfree _).2 (Or.inr (Or.inr rfl))⟩
      · exact ⟨(manhattan_comm _ _) ▸ hma, (carve_free_iff hbfree _).2 (Or.inr (Or.inr rfl)),
          (carve_free_iff hbfree _).2 (Or.inr (Or.inl rfl))⟩
    · rcases hp with ⟨h1, h2⟩ | ⟨h1, h2⟩ <;> rw [h1, h2]
      · exact ⟨hmb, (carve_free_iff hbfree _).2 (Or.inr (Or.inr rfl)),
          (carve_free_iff hbfree _).2 (Or.inl hbfree)⟩
      · exact ⟨(manhattan_comm _ _) ▸ hmb, (carve_free_iff hbfree _).2 (Or.inl hbfree),
          (carve_free_iff hbfree _).2 (Or.inr (Or.inr rfl))⟩

/-- An isolated (non-free) midpoint cannot be reached from anywhere else. -/
theorem reach_midpt_eq {g : Grid} {m x : Coord} (hmw : g.free m = false)
    (h : (passageGraph g).Reachable x m) : x = m :=
  (reachable_of_not_free hmw h.symm).symm

/-- Carving a bridge passage keeps the passage graph acyclic. -/
theorem carve_acyclic {rows cols : Int} {g : Grid} (hg : GridInv rows cols g)
    {a b : Coord} (hnb : b ∈ g.neighbors_cells a) (ha_odd : oddCell a)
    (hbfree : g.free b = true) (hmw : g.free (midpt a b) = false)
    (hnr : ¬(passageGraph g).Reachable a b) :
    (passageGraph (g.carve_passage a b)).IsAcyclic := by
  obtain ⟨hnea, hneb⟩ := midpt_ne_ends hnb
  rw [passageGraph_carve_eq hg hnb ha_odd hbfree hmw]
  have h1 : ¬(passageGraph g).Reachable a (midpt a b) := fun h =>
    hnea (reach_midpt_eq hmw h).symm
  have hacy1 : (passageGraph g ⊔ SimpleGraph.fromEdgeSet {s(a, midpt a b)}).IsAcyclic :=
    isAcyclic_sup_bridge hg.acyclic h1
  have h2 : ¬(passageGraph g ⊔ SimpleGraph.fromEdgeSet {s(a, midpt a b)}).Reachable
      (midpt a b) b := by
    intro h
    rcases reachable_sup_edge h with h | ⟨ha1, ha2⟩ | ⟨ha1, ha2⟩
    · exact hneb (reachable_of_not_free hmw h)
    · exact hnea (reachable_of_not_free hmw ha1)
    · exact hnr ha2
  exact isAcyclic_sup_bridge hacy1 h2

/-- After carving, `a`, the midpoint and `b` are mutually reachable. -/
theorem carve_reach_ab {g : Grid} {a b : Coord} (hnb : b ∈ g.neighbors_cells a)
    (hbfree : g.free b = true) :
    (passageGraph (g.carve_passage a b)).Reachable a b ∧
      (passageGraph (g.carve_passage a b)).Reachable a (midpt a b) := by
  obtain ⟨hma, hmb⟩ := manhattan_midpt hnb
  have hadj1 : (passageGraph (g.carve_passage a b)).Adj a (midpt a b) :=
    ⟨hma, (carve_free_iff hbfree _).2 (Or.inr (Or.inl rfl)),
      (carve_free_iff hbfree _).2 (Or.inr (Or.inr rfl))⟩
  have hadj2 : (passageGraph (g.carve_passage a b)).Adj (midpt a b) b :=
    ⟨hmb, (carve_free_iff hbfree _).2 (Or.inr (Or.inr rfl)),
      (carve_free_iff hbfree _).2 (Or.inl hbfree)⟩
  exact ⟨hadj1.reachable.trans hadj2.reachable, hadj1.reachable⟩

theorem carve_mono {g : Grid} {a b : Coord} (hbfree : g.free b = true) :
    passageGraph g ≤ passageGraph (g.carve_passage a b) :=
  passageGraph_mono fun p hp => (carve_free_iff hbfree p).2 (Or.inl hp)

/-- Reachability after carving decomposes into old reachability possibly crossing the
new passage (for endpoints that are not the new midpoint). -/
theorem carve_reach_decomp {rows cols : Int} {g : Grid} (hg : GridInv rows cols g)
    {a b : Coord} (hnb : b ∈ g.neighbors_cells a) (ha_odd : oddCell a)
    (hbfree : g.free b = true) (hmw : g.free (midpt a b) = false)
    {x y : Coord} (hx : x ≠ midpt a b) (hy : y ≠ midpt a b)
    (h : (passageGraph (g.carve_passage a b)).Reachable x y) :
    (passageGraph g).Reachable x y ∨
      ((passageGraph g).Reachable x a ∧ (passageGraph g).Reachable b y) ∨
      ((passageGraph g).Reachable x b ∧ (passageGraph g).Reachable a y) := by
  rw [passageGraph_carve_eq hg hnb ha_odd hbfree hmw] at h
  have hbm : b ≠ midpt a b := fun hc => (midpt_ne_ends hnb).2 hc.symm
  have haux : ∀ p q : Coord,
      (passageGraph g ⊔ SimpleGraph.fromEdgeSet {s(a, midpt a b)}).Reachable p q →
      (passageGraph g).Reachable p q ∨
        ((passageGraph g).Reachable p a ∧ q = midpt a b) ∨
        ((passageGraph g).Reachable a q ∧ p = midpt a b) := by
    intro p q hpq
    rcases reachable_sup_edge hpq with h0 | ⟨h1, h2⟩ | ⟨h1, h2⟩
    · exact Or.inl h0
    · exact Or.inr (Or.inl ⟨h1, (reachable_of_not_free hmw h2).symm⟩)
    · exact Or.inr (Or.inr ⟨h2, reach_midpt_eq hmw h1⟩)
  rcases reachable_sup_edge h with hI | ⟨h1, h2⟩ | ⟨h1, h2⟩
  · rcases haux _ _ hI with h0 | ⟨_, hq⟩ | ⟨_, hp⟩
    · exact Or.inl h0
    · exact absurd hq hy
    · exact absurd hp hx
  · have hxa : (passageGraph g).Reachable x a := by
      rcases haux _ _ h1 with h0 | ⟨ha1, _⟩ | ⟨_, hp⟩
      · exact absurd (reach_midpt_eq hmw h0) hx
      · exact ha1
      · exact absurd hp hx
    have hby : (passageGraph g).Reachable b y := by
      rcases haux _ _ h2 with h0 | ⟨_, hq⟩ | ⟨_, hp⟩
      · exact h0
      · exact absurd hq hy
      · exact absurd hp hbm
    exact Or.inr (Or.inl ⟨hxa, hby⟩)
  · have hxb : (passageGraph g).Reachable x b := by
      rcases haux _ _ h1 with h0 | ⟨_, hq⟩ | ⟨_, hp⟩
      · exact h0
      · exact absurd hq hbm
      · exact absurd hp hx
    have hay : (passageGraph g).Reachable a y := by
      rcases haux _ _ h2 with h0 | ⟨_, hq⟩ | ⟨ha2, _⟩
      · exact absurd (reachable_of_not_free hmw h0).symm hy
      · exact absurd hq hy
      · exact ha2
    exact Or.inr (Or.inr ⟨hxb, hay⟩)

theorem fdiv_sum_eq {u v w : Int} (h : u + v = 2 * w) : Int.fdiv (u + v) 2 = w := by
  rw [h]
  exact fdiv_two_double w

/-- The carved midpoint's coordinates, stated over plain integers. -/
theorem midpt_coords {g : Grid} {a1 a2 b1 b2 : Int}
    (hnb : ((b1, b2) : Coord) ∈ g.neighbors_cells (a1, a2)) :
    (midpt (a1, a2) (b1, b2) = (a1 - 1, a2) ∧ b1 = a1 - 2 ∧ b2 = a2) ∨
    (midpt (a1, a2) (b1, b2) = (a1, a2 + 1) ∧ b1 = a1 ∧ b2 = a2 + 2) ∨
    (midpt (a1, a2) (b1, b2) = (a1 + 1, a2) ∧ b1 = a1 + 2 ∧ b2 = a2) ∨
    (midpt (a1, a2) (b1, b2) = (a1, a2 - 1) ∧ b1 = a1 ∧ b2 = a2 - 2) := by
  have hshow : midpt (a1, a2) (b1, b2) = (Int.fdiv (a1 + b1) 2, Int.fdiv (a2 + b2) 2) := rfl
  rcases mem_neighbors_cells_coords hnb with ⟨h1, h2⟩ | ⟨h1, h2⟩ | ⟨h1, h2⟩ | ⟨h1, h2⟩
  · refine Or.inl ⟨?_, h1, h2⟩
    rw [hshow, fdiv_sum_eq (by omega : a1 + b1 = 2 * (a1 - 1)),
      fdiv_sum_eq (by omega : a2 + b2 = 2 * a2)]
  · refine Or.inr (Or.inl ⟨?_, h1, h2⟩)
    rw [hshow, fdiv_sum_eq (by omega : a1 + b1 = 2 * a1),
      fdiv_sum_eq (by omega : a2 + b2 = 2 * (a2 + 1))]
  · refine Or.inr (Or.inr (Or.inl ⟨?_, h1, h2⟩))
    rw [hshow, fdiv_sum_eq (by omega : a1 + b1 = 2 * (a1 + 1)),
      fdiv_sum_eq (by omega : a2 + b2 = 2 * a2)]
  · refine Or.inr (Or.inr (Or.inr ⟨?_, h1, h2⟩))
    rw [hshow, fdiv_sum_eq (by omega : a1 + b1 = 2 * a1),
      fdiv_sum_eq (by omega : a2 + b2 = 2 * (a2 - 1))]

theorem in_bounds_coords {g : Grid} {r c : Int} :
    g.in_bounds r c = true ↔ 0 ≤ r ∧ r < g.rows ∧ 0 ≤ c ∧ c < g.cols :=
  in_bounds_iff

/-- The geometric grid invariant survives a bridge carve. -/
theorem gridInv_carve {rows cols : Int} {g : Grid} (hg : GridInv rows cols g)
    {a b : Coord} (hnb : b ∈ g.neighbors_cells a) (ha_odd : oddCell a)
    (ha_inb : g.in_bounds a.1 a.2 = true)
    (hbfree : g.free b = true) (hmw : g.free (midpt a b) = false)
    (hnr : ¬(passageGraph g).Reachable a b) :
    GridInv rows cols (g.carve_passage a b) := by
  obtain ⟨hd1, hd2, _, _⟩ := carve_passage_dims g a b
  have hacy := carve_acyclic hg hnb ha_odd hbfree hmw hnr
  obtain ⟨a1, a2⟩ := a
  obtain ⟨b1, b2⟩ := b
  obtain ⟨ho1, ho2⟩ := ha_odd
  simp only [] at ho1 ho2
  have hb_inb : g.in_bounds b1 b2 = true := (mem_neighbors_cells.1 hnb).2
  have hmc := midpt_coords hnb
  refine ⟨hd1.trans hg.rows_eq, hd2.trans hg.cols_eq, ?_, ?_, ?_, ?_, hacy⟩
  · -- free_inb
    intro p hp
    rw [in_bounds_congr hd1 hd2]
    rcases (carve_free_iff hbfree p).1 hp with h | rfl | rfl
    · exact hg.free_inb p h
    · exact ha_inb
    · rw [in_bounds_coords] at ha_inb hb_inb
      dsimp only at ha_inb hb_inb
      rcases hmc with ⟨hm, h1, h2⟩ | ⟨hm, h1, h2⟩ | ⟨hm, h1, h2⟩ | ⟨hm, h1, h2⟩ <;>
        rw [hm] <;> rw [in_bounds_coords] <;> dsimp only <;> omega
  · -- free_not_ee
    intro p hp
    rcases (carve_free_iff hbfree p).1 hp with h | rfl | rfl
    · exact hg.free_not_ee p h
    · intro hc
      dsimp only at hc
      omega
    · rcases hmc with ⟨hm, h1, h2⟩ | ⟨hm, h1, h2⟩ | ⟨hm, h1, h2⟩ | ⟨hm, h1, h2⟩ <;>
        rw [hm] <;> intro hc <;> dsimp only at hc <;> omega
  · -- mid_vert
    intro r c hp hr hc
    have hmono : ∀ q : Coord, g.free q = true → (g.carve_passage (a1, a2) (b1, b2)).free q = true :=
      fun q hq => (carve_free_iff hbfree q).2 (Or.inl hq)
    rcases (carve_free_iff hbfree (r, c)).1 hp with h | heq | heq
    · obtain ⟨hv1, hv2⟩ := hg.mid_vert r c h hr hc
      exact ⟨hmono _ hv1, hmono _ hv2⟩
    · simp only [Prod.mk.injEq] at heq
      omega
    · rcases hmc with ⟨hm, h1, h2⟩ | ⟨hm, h1, h2⟩ | ⟨hm, h1, h2⟩ | ⟨hm, h1, h2⟩ <;>
        rw [hm] at heq <;> simp only [Prod.mk.injEq] at heq
      · -- m = (a1 - 1, a2): vertical; flanks are b (above) and a (below)
        have hup : ((r - 1 : Int), c) = ((b1, b2) : Coord) := by
          simp only [Prod.mk.injEq]
          omega
        have hdn : ((r + 1 : Int), c) = ((a1, a2) : Coord) := by
          simp only [Prod.mk.injEq]
          omega
        rw [hup, hdn]
        exact ⟨hmono _ hbfree, (carve_free_iff hbfree _).2 (Or.inr (Or.inl rfl))⟩
      · omega
      · have hup : ((r - 1 : Int), c) = ((a1, a2) : Coord) := by
          simp only [Prod.mk.injEq]
          omega
        have hdn : ((r + 1 : Int), c) = ((b1, b2) : Coord) := by
          simp only [Prod.mk.injEq]
          omega
        rw [hup, hdn]
        exact ⟨(carve_free_iff hbfree _).2 (Or.inr (Or.inl rfl)), hmono _ hbfree⟩
      · omega
  · -- mid_horz
    intro r c hp hr hc
    have hmono : ∀ q : Coord, g.free q = true → (g.carve_passage (a1, a2) (b1, b2)).free q = true :=
      fun q hq => (carve_free_iff hbfree q).2 (Or.inl hq)
    rcases (carve_free_iff hbfree (r, c)).1 hp with h | heq | heq
    · obtain ⟨hv1, hv2⟩ := hg.mid_horz r c h hr hc
      exact ⟨hmono _ hv1, hmono _ hv2⟩
    · simp only [Prod.mk.injEq] at heq
      omega
    · rcases hmc with ⟨hm, h1, h2⟩ | ⟨hm, h1, h2⟩ | ⟨hm, h1, h2⟩ | ⟨hm, h1, h2⟩ <;>
        rw [hm] at heq <;> simp only [Prod.mk.injEq] at heq
      · omega
      · have hlf : ((r : Int), c - 1) = ((a1, a2) : Coord) := by
          simp only [Prod.mk.injEq]
          omega
        have hrt : ((r : Int), c + 1) = ((b1, b2) : Coord) := by
          simp only [Prod.mk.injEq]
          omega
        rw [hlf, hrt]
        exact ⟨(carve_free_iff hbfree _).2 (Or.inr (Or.inl rfl)), hmono _ hbfree⟩
      · omega
      · have hlf : ((r : Int), c - 1) = ((b1, b2) : Coord) := by
          simp only [Prod.mk.injEq]
          omega
        have hrt : ((r : Int), c + 1) = ((a1, a2) : Coord) := by
          simp only [Prod.mk.injEq]
          omega
        rw [hlf, hrt]
        exact ⟨hmono _ hbfree, (carve_free_iff hbfree _).2 (Or.inr (Or.inl rfl))⟩

theorem bang_is_wall (g : Grid) (n : Coord) : (!g.is_wall n) = g.free n := by
  unfold Grid.is_wall
  cases g.free n <;> rfl

/-- With a nonempty frontier whose members all have a carved step-2 neighbor, a Prim
step pops some frontier cell `rc`, carves a passage to some free neighbor `nb`, and
rebuilds the frontier from the wall neighbors of `rc`. -/
theorem primStep_spec {s : PrimGen} (hfr : s.frontier ≠ ∅)
    (hcn : ∀ f ∈ s.frontier, ∃ nb ∈ s.grid.neighbors_cells f, s.grid.free nb = true) :
    ∃ rc ∈ s.frontier, ∃ nb ∈ s.grid.neighbors_cells rc, s.grid.free nb = true ∧
      s.step.grid = s.grid.carve_passage rc nb ∧
      s.step.frontier = ((s.grid.carve_passage rc nb).neighbors_cells rc).foldl
        (fun f n => if (s.grid.carve_passage rc nb).is_wall n then insert n f else f)
        (s.frontier.erase rc) := by
  have hlen : (s.frontier.sort lexLe).length = s.frontier.card := Finset.length_sort lexLe
  have hpos : 0 < (s.frontier.sort lexLe).length := by
    rw [hlen]
    exact Finset.card_pos.2 (Finset.nonempty_iff_ne_empty.2 hfr)
  have hb0 : (0 : Int) ≤ min 7 (((s.frontier.sort lexLe).length : Int) - 1) := by
    omega
  obtain ⟨hi0, hi1⟩ := SeededRNG.randint_le (r := s.rng) hb0
  set idxp := s.rng.randint 0 (min 7 (((s.frontier.sort lexLe).length : Int) - 1)) with hidxp
  have hidx : idxp.1.toNat < (s.frontier.sort lexLe).length := by omega
  set rc := (s.frontier.sort lexLe).getD idxp.1.toNat (0, 0) with hrc
  have hrcmem : rc ∈ s.frontier := by
    rw [hrc, List.getD_eq_getElem _ _ hidx]
    exact (Finset.mem_sort lexLe).1 (List.getElem_mem hidx)
  set cn := (s.grid.neighbors_cells rc).filter (fun n => ! s.grid.is_wall n) with hcnn
  obtain ⟨nb0, hnb0m, hnb0f⟩ := hcn rc hrcmem
  have hcne : cn ≠ [] := by
    intro h
    have hmem : nb0 ∈ cn :=
      List.mem_filter.2 ⟨hnb0m, by rw [bang_is_wall]; exact hnb0f⟩
    rw [h] at hmem
    exact absurd hmem (List.not_mem_nil nb0)
  have hcnlen : 0 < cn.length := List.length_pos.2 hcne
  have hb1 : (0 : Int) ≤ (cn.length : Int) - 1 := by omega
  obtain ⟨hj0, hj1⟩ := SeededRNG.randint_le (r := idxp.2) hb1
  set np := idxp.2.randint 0 ((cn.length : Int) - 1) with hnp
  have hmslen : (cn.mergeSort (fun a b => decide (lexLe a b))).length = cn.length :=
    List.length_mergeSort cn
  have hjdx : np.1.toNat < (cn.mergeSort (fun a b => decide (lexLe a b))).length := by
    rw [hmslen]
    omega
  set nb := (cn.mergeSort (fun a b => decide (lexLe a b))).getD np.1.toNat (0, 0) with hnb
  have hnbcn : nb ∈ cn := by
    refine (List.mergeSort_perm cn (fun a b => decide (lexLe a b))).mem_iff.1 ?_
    rw [hnb, List.getD_eq_getElem _ _ hjdx]
    exact List.getElem_mem hjdx
  obtain ⟨hnbm, hnbw⟩ := List.mem_filter.1 hnbcn
  have hnbf : s.grid.free nb = true := by
    rw [← bang_is_wall]
    exact hnbw
  have hstep : s.step =
      { grid := s.grid.carve_passage rc nb
        rng := np.2
        frontier := ((s.grid.carve_passage rc nb).neighbors_cells rc).foldl
          (fun f n => if (s.grid.carve_passage rc nb).is_wall n then insert n f else f)
          (s.frontier.erase rc) } := by
    unfold PrimGen.step
    rw [if_neg hfr]
    simp only []
    rw [← hidxp, ← hrc, ← hcnn, if_neg hcne, ← hnp, ← hnb]
  exact ⟨rc, hrcmem, nb, hnbm, hnbf, by rw [hstep], by rw [hstep]⟩

theorem is_wall_iff (g : Grid) (n : Coord) : g.is_wall n = true ↔ g.free n = false := by
  unfold Grid.is_wall
  cases g.free n <;> simp

/-- Membership in the frontier-rebuilding fold of `PrimGen.step`. -/
theorem mem_foldl_guard_insert {q : Coord → Bool} (l : List Coord) (base : Finset Coord)
    (p : Coord) :
    p ∈ l.foldl (fun f n => if q n then insert n f else f) base ↔
      p ∈ base ∨ (p ∈ l ∧ q p = true) := by
  induction l generalizing base with
  | nil => simp
  | cons a t ih =>
    rw [List.foldl_cons]
    by_cases hq : q a = true
    · rw [if_pos hq, ih]
      simp only [Finset.mem_insert, List.mem_cons]
      constructor
      · rintro ((rfl | hb) | ⟨ht, hp⟩)
        · exact Or.inr ⟨Or.inl rfl, hq⟩
        · exact Or.inl hb
        · exact Or.inr ⟨Or.inr ht, hp⟩
      · rintro (hb | ⟨rfl | ht, hp⟩)
        · exact Or.inl (Or.inr hb)
        · exact Or.inl (Or.inl rfl)
        · exact Or.inr ⟨ht, hp⟩
    · rw [if_neg hq, ih]
      simp only [List.mem_cons]
      constructor
      · rintro (hb | ⟨ht, hp⟩)
        · exact Or.inl hb
        · exact Or.inr ⟨Or.inr ht, hp⟩
      · rintro (hb | ⟨rfl | ht, hp⟩)
        · exact Or.inl hb
        · exact absurd hp hq
        · exact Or.inr ⟨ht, hp⟩

/-- The midpoint of a step-2 passage is never a cell center. -/
theorem midpt_not_oddCell {g : Grid} {a b : Coord} (hnb : b ∈ g.neighbors_cells a)
    (ha : oddCell a) : ¬oddCell (midpt a b) := by
  obtain ⟨a1, a2⟩ := a
  obtain ⟨b1, b2⟩ := b
  obtain ⟨ho1, ho2⟩ := ha
  dsimp only at ho1 ho2
  rcases midpt_coords hnb with ⟨hm, _, _⟩ | ⟨hm, _, _⟩ | ⟨hm, _, _⟩ | ⟨hm, _, _⟩ <;>
    rw [hm] <;> rintro ⟨hc1, hc2⟩ <;> dsimp only at hc1 hc2 <;> omega

/-- The Prim invariant is preserved by every `step()` call. -/
theorem primInv_step {rows cols : Int} {s : PrimGen} (hinv : PrimInv rows cols s) :
    PrimInv rows cols s.step := by
  by_cases hfr : s.frontier = ∅
  · have hs : s.step = s := by
      unfold PrimGen.step
      rw [if_pos hfr]
    rw [hs]
    exact hinv
  · obtain ⟨rc, hrcm, nb, hnbm, hnbf, hsg, hsf⟩ := primStep_spec hfr hinv.fr_carved_nb
    obtain ⟨hrco, hrcb⟩ := hinv.fr_cell rc hrcm
    have hrcw : s.grid.free rc = false := hinv.fr_wall rc hrcm
    have hcd1 : (s.grid.carve_passage rc nb).rows = s.grid.rows :=
      (carve_passage_dims s.grid rc nb).1
    have hcd2 : (s.grid.carve_passage rc nb).cols = s.grid.cols :=
      (carve_passage_dims s.grid rc nb).2.1
    have hmw : s.grid.free (midpt rc nb) = false := by
      cases hval : s.grid.free (midpt rc nb)
      · rfl
      · exact absurd hval.symm (fun hc =>
          no_free_dist1_of_wall_cell hinv.ginv hrco hrcw (manhattan_midpt hnbm).1 hc.symm)
    have hnr : ¬(passageGraph s.grid).Reachable rc nb := by
      intro h
      have heq := reachable_of_not_free hrcw h
      rw [heq] at hrcw
      rw [hrcw] at hnbf
      cases hnbf
    have hrcfree : (s.grid.carve_passage rc nb).free rc = true :=
      (carve_free_iff hnbf rc).2 (Or.inr (Or.inl rfl))
    refine ⟨?_, ?_, ?_, ?_, ?_, ?_, ?_⟩
    · rw [hsg]
      exact gridInv_carve hinv.ginv hnbm hrco hrcb hnbf hmw hnr
    · rw [hsg]
      exact (carve_free_iff hnbf _).2 (Or.inl hinv.start_free)
    · -- fr_wall
      intro f hf
      rw [hsf, mem_foldl_guard_insert] at hf
      rw [hsg]
      rcases hf with hf | ⟨_, hw⟩
      · obtain ⟨hfne, hfm⟩ := Finset.mem_erase.1 hf
        have hfw := hinv.fr_wall f hfm
        have hfodd := (hinv.fr_cell f hfm).1
        cases hval : (s.grid.carve_passage rc nb).free f
        · rfl
        · exfalso
          rcases (carve_free_iff hnbf f).1 hval with h | h | h
          · rw [h] at hfw
            cases hfw
          · exact hfne h
          · exact midpt_not_oddCell hnbm hrco (h ▸ hfodd)
      · rw [is_wall_iff] at hw
        exact hw
    · -- fr_cell
      intro f hf
      rw [hsf, mem_foldl_guard_insert] at hf
      rcases hf with hf | ⟨hmem, _⟩
      · obtain ⟨hfne, hfm⟩ := Finset.mem_erase.1 hf
        obtain ⟨ho, hb⟩ := hinv.fr_cell f hfm
        refine ⟨ho, ?_⟩
        rw [hsg, in_bounds_congr hcd1 hcd2]
        exact hb
      · have hmem' : f ∈ s.grid.neighbors_cells rc := by
          rw [neighbors_cells_congr hcd1 hcd2] at hmem
          exact hmem
        refine ⟨neighbors_cells_oddCell hmem' hrco, ?_⟩
        rw [hsg]
        exact (mem_neighbors_cells.1 hmem).2
    · -- fr_carved_nb
      intro f hf
      rw [hsf, mem_foldl_guard_insert] at hf
      rcases hf with hf | ⟨hmem, _⟩
      · obtain ⟨hfne, hfm⟩ := Finset.mem_erase.1 hf
        obtain ⟨nb1, hnb1m, hnb1f⟩ := hinv.fr_carved_nb f hfm
        refine ⟨nb1, ?_, ?_⟩
        · rw [hsg, neighbors_cells_congr hcd1 hcd2]
          exact hnb1m
        · rw [hsg]
          exact (carve_free_iff hnbf nb1).2 (Or.inl hnb1f)
      · refine ⟨rc, ?_, ?_⟩
        · rw [hsg]
          refine neighbors_cells_symm hmem ?_
          rw [in_bounds_congr hcd1 hcd2]
          exact hrcb
        · rw [hsg]
          exact hrcfree
    · -- fr_cover
      intro p hpo hpb hpw hpnb
      rw [hsf, mem_foldl_guard_insert]
      rw [hsg] at hpb hpw
      obtain ⟨nb1, hnb1m, hnb1f⟩ := hpnb
      rw [hsg] at hnb1m hnb1f
      rcases (carve_free_iff hnbf nb1).1 hnb1f with h | h | h
      · have hpb1 : s.grid.in_bounds p.1 p.2 = true := by
          rw [in_bounds_congr hcd1 hcd2] at hpb
          exact hpb
        have hpw1 : s.grid.free p = false := by
          cases hval : s.grid.free p
          · rfl
          · exfalso
            have hc : (s.grid.carve_passage rc nb).free p = true :=
              (carve_free_iff hnbf p).2 (Or.inl hval)
            rw [hc] at hpw
            cases hpw
        have hnb1m1 : nb1 ∈ s.grid.neighbors_cells p := by
          rw [neighbors_cells_congr hcd1 hcd2] at hnb1m
          exact hnb1m
        have hpmem := hinv.fr_cover p hpo hpb1 hpw1 ⟨nb1, hnb1m1, h⟩
        refine Or.inl (Finset.mem_erase.2 ⟨?_, hpmem⟩)
        intro hc
        rw [hc, hrcfree] at hpw
        cases hpw
      · refine Or.inr ⟨?_, ?_⟩
        · rw [h] at hnb1m
          exact neighbors_cells_symm hnb1m hpb
        · rw [is_wall_iff]
          exact hpw
      · exfalso
        have hodd1 : oddCell nb1 := by
          rw [neighbors_cells_congr hcd1 hcd2] at hnb1m
          exact neighbors_cells_oddCell hnb1m hpo
        rw [h] at hodd1
        exact midpt_not_oddCell hnbm hrco hodd1
    · -- conn
      intro p hp
      rw [hsg] at hp ⊢
      rcases (carve_free_iff hnbf p).1 hp with h | h | h
      · exact (hinv.conn p h).mono (carve_mono hnbf)
      · rw [h]
        exact ((hinv.conn nb hnbf).mono (carve_mono hnbf)).trans
          (carve_reach_ab hnbm hnbf).1.symm
      · rw [h]
        exact (((hinv.conn nb hnbf).mono (carve_mono hnbf)).trans
          (carve_reach_ab hnbm hnbf).1.symm).trans (carve_reach_ab hnbm hnbf).2

theorem mem_foldl_insert {α : Type} [DecidableEq α] (l : List α) (base : Finset α) (p : α) :
    p ∈ l.foldl (fun f n => insert n f) base ↔ p ∈ base ∨ p ∈ l := by
  induction l generalizing base with
  | nil => simp
  | cons a t ih =>
    rw [List.foldl_cons, ih]
    simp only [Finset.mem_insert, List.mem_cons]
    tauto

/-- The Prim invariant holds right after `PrimGenerator.__init__` on a fresh grid. -/
theorem primInv_init {rows cols : Int} (r : SeededRNG) (hr2 : 2 ≤ rows) (hc2 : 2 ≤ cols) :
    PrimInv rows cols (PrimGen.init (Grid.init rows cols) r) := by
  have hgrid : (PrimGen.init (Grid.init rows cols) r).grid =
      (Grid.init rows cols).carve_cell 1 1 := rfl
  have hfront : (PrimGen.init (Grid.init rows cols) r).frontier =
      (((Grid.init rows cols).carve_cell 1 1).neighbors_cells (1, 1)).foldl
        (fun f n => insert n f) ∅ := rfl
  have hfree : ∀ p : Coord,
      ((Grid.init rows cols).carve_cell 1 1).free p = decide (p = ((1, 1) : Coord)) := by
    intro p
    unfold Grid.carve_cell
    rw [set_free_free]
    rfl
  have hrows : ((Grid.init rows cols).carve_cell 1 1).rows = rows := by
    unfold Grid.carve_cell
    rw [(set_free_dims _ _).1]
    rfl
  have hcols : ((Grid.init rows cols).carve_cell 1 1).cols = cols := by
    unfold Grid.carve_cell
    rw [(set_free_dims _ _).2.1]
    rfl
  have hinb : ∀ p : Coord, ((Grid.init rows cols).carve_cell 1 1).in_bounds p.1 p.2 = true ↔
      (0 ≤ p.1 ∧ p.1 < rows ∧ 0 ≤ p.2 ∧ p.2 < cols) := by
    intro p
    rw [in_bounds_iff, hrows, hcols]
  have hfree_eq : ∀ p : Coord,
      (((Grid.init rows cols).carve_cell 1 1).free p = true ↔ p = ((1, 1) : Coord)) := by
    intro p
    rw [hfree]
    exact decide_eq_true_iff
  have h11 : ((Grid.init rows cols).carve_cell 1 1).free (1, 1) = true := (hfree_eq _).2 rfl
  have hinb11 : ((Grid.init rows cols).carve_cell 1 1).in_bounds 1 1 = true :=
    (hinb (1, 1)).2 (by constructor <;> omega)
  have hadj : ∀ a b : Coord,
      ¬(passageGraph ((Grid.init rows cols).carve_cell 1 1)).Adj a b := by
    intro a b hab
    rw [passageGraph_adj] at hab
    obtain ⟨hd, hfa, hfb⟩ := hab
    rw [hfree_eq] at hfa hfb
    rw [hfa, hfb, manhattan_self] at hd
    exact absurd hd (by decide)
  have hacyc : (passageGraph ((Grid.init rows cols).carve_cell 1 1)).IsAcyclic := by
    intro v c hc
    cases c with
    | nil => exact hc.ne_nil rfl
    | cons h p => exact hadj _ _ h
  refine ⟨⟨hrows, hcols, ?_, ?_, ?_, ?_, hacyc⟩, h11, ?_, ?_, ?_, ?_, ?_⟩
  · -- free_inb
    intro p hp
    rw [hgrid, hfree_eq] at hp
    rw [hgrid, hp]
    exact hinb11
  · -- free_not_ee
    intro p hp
    rw [hgrid, hfree_eq] at hp
    rw [hp]
    rintro ⟨h1, h2⟩
    dsimp only at h1 h2
    omega
  · -- mid_vert (vacuous: the only free cell has odd row)
    intro a b hp ha _
    rw [hgrid, hfree_eq] at hp
    exfalso
    rw [Prod.mk.injEq] at hp
    omega
  · -- mid_horz (vacuous: the only free cell has odd column)
    intro a b hp _ hb
    rw [hgrid, hfree_eq] at hp
    exfalso
    rw [Prod.mk.injEq] at hp
    omega
  · -- fr_wall
    intro f hf
    rw [hfront, mem_foldl_insert] at hf
    rcases hf with hf | hf
    · exact absurd hf (Finset.not_mem_empty f)
    · have hman := manhattan_neighbors_cells hf
      rw [hgrid]
      cases hval : ((Grid.init rows cols).carve_cell 1 1).free f
      · rfl
      · exfalso
        rw [hfree_eq] at hval
        rw [hval, manhattan_self] at hman
        exact absurd hman (by decide)
  · -- fr_cell
    intro f hf
    rw [hfront, mem_foldl_insert] at hf
    rcases hf with hf | hf
    · exact absurd hf (Finset.not_mem_empty f)
    · refine ⟨neighbors_cells_oddCell hf ⟨by decide, by decide⟩, ?_⟩
      rw [hgrid]
      exact (mem_neighbors_cells.1 hf).2
  · -- fr_carved_nb
    intro f hf
    rw [hfront, mem_foldl_insert] at hf
    rcases hf with hf | hf
    · exact absurd hf (Finset.not_mem_empty f)
    · rw [hgrid]
      exact ⟨(1, 1), neighbors_cells_symm hf hinb11, h11⟩
  · -- fr_cover
    intro p hpo hpb hpw hpnb
    rw [hfront, mem_foldl_insert]
    obtain ⟨nb1, hnbm, hnbf⟩ := hpnb
    rw [hgrid] at hnbm hnbf hpb
    rw [hfree_eq] at hnbf
    right
    rw [← hnbf]
    exact neighbors_cells_symm hnbm hpb
  · -- conn
    intro p hp
    rw [hgrid] at hp ⊢
    rw [hfree_eq] at hp
    rw [hp]

/-- The Prim invariant holds at every reachable state. -/
theorem primInv_runN {rows cols : Int} (r : SeededRNG) (hr2 : 2 ≤ rows) (hc2 : 2 ≤ cols)
    (n : Nat) : PrimInv rows cols (PrimGen.runN (Grid.init rows cols) r n) := by
  induction n with
  | zero => exact primInv_init r hr2 hc2
  | succ n ih => exact primInv_step ih

theorem mem_cellsF {rows cols : Int} {p : Coord} :
    p ∈ cellsF rows cols ↔
      ((0 ≤ p.1 ∧ p.1 ≤ rows - 1) ∧ (0 ≤ p.2 ∧ p.2 ≤ cols - 1)) ∧
        (p.1 % 2 = 1 ∧ p.2 % 2 = 1) := by
  unfold cellsF
  rw [Finset.mem_filter, Finset.mem_product, Finset.mem_Icc, Finset.mem_Icc]

/-- Carving one passage removes exactly the popped cell from the uncarved set. -/
theorem uncarvedF_carve {rows cols : Int} {g : Grid}
    {rc nb : Coord} (hnbm : nb ∈ g.neighbors_cells rc) (hrco : oddCell rc)
    (hnbf : g.free nb = true) :
    uncarvedF rows cols (g.carve_passage rc nb) = (uncarvedF rows cols g).erase rc := by
  ext p
  rw [uncarvedF, uncarvedF, Finset.mem_erase, Finset.mem_filter, Finset.mem_filter]
  constructor
  · rintro ⟨hcell, hwall⟩
    have hpne : p ≠ rc := by
      intro hc
      rw [hc] at hwall
      rw [(carve_free_iff hnbf rc).2 (Or.inr (Or.inl rfl))] at hwall
      cases hwall
    refine ⟨hpne, hcell, ?_⟩
    cases hval : g.free p
    · rfl
    · exfalso
      have h2 : (g.carve_passage rc nb).free p = true :=
        (carve_free_iff hnbf p).2 (Or.inl hval)
      rw [h2] at hwall
      cases hwall
  · rintro ⟨hne, hcell, hwall⟩
    refine ⟨hcell, ?_⟩
    cases hval : (g.carve_passage rc nb).free p
    · rfl
    · exfalso
      rcases (carve_free_iff hnbf p).1 hval with h | h | h
      · rw [h] at hwall
        cases hwall
      · exact hne h
      · have hodd : oddCell p := (mem_cellsF.1 hcell).2
        rw [h] at hodd
        exact midpt_not_oddCell hnbm hrco hodd

/-- Frontier cells are always uncarved in-bounds cell centers. -/
theorem frontier_subset_uncarvedF {rows cols : Int} {s : PrimGen}
    (hinv : PrimInv rows cols s) : ∀ f ∈ s.frontier, f ∈ uncarvedF rows cols s.grid := by
  intro f hf
  obtain ⟨ho, hb⟩ := hinv.fr_cell f hf
  rw [uncarvedF, Finset.mem_filter]
  refine ⟨?_, hinv.fr_wall f hf⟩
  rw [in_bounds_iff, hinv.ginv.rows_eq, hinv.ginv.cols_eq] at hb
  exact mem_cellsF.2 ⟨⟨⟨hb.1, by omega⟩, ⟨hb.2.2.1, by omega⟩⟩, ho⟩

/-- Every non-final Prim step shrinks the uncarved set by exactly one cell. -/
theorem prim_uncarved_bound {rows cols : Int} (r : SeededRNG) (hr2 : 2 ≤ rows)
    (hc2 : 2 ≤ cols) :
    ∀ n : Nat, (PrimGen.runN (Grid.init rows cols) r n).frontier = ∅ ∨
      (uncarvedF rows cols (PrimGen.runN (Grid.init rows cols) r n).grid).card + n ≤
        (uncarvedF rows cols (PrimGen.runN (Grid.init rows cols) r 0).grid).card := by
  intro n
  induction n with
  | zero => right; omega
  | succ n ih =>
    by_cases hfr : (PrimGen.runN (Grid.init rows cols) r n).frontier = ∅
    · left
      show (PrimGen.runN (Grid.init rows cols) r n).step.frontier = ∅
      unfold PrimGen.step
      rw [if_pos hfr]
      exact hfr
    · have hinv := primInv_runN r hr2 hc2 n
      obtain ⟨rc, hrcm, nb, hnbm, hnbf, hsg, hsf⟩ := primStep_spec hfr hinv.fr_carved_nb
      rcases ih with h | h
      · exact absurd h hfr
      · right
        have hrco := (hinv.fr_cell rc hrcm).1
        have herase : uncarvedF rows cols (PrimGen.runN (Grid.init rows cols) r (n + 1)).grid =
            (uncarvedF rows cols (PrimGen.runN (Grid.init rows cols) r n).grid).erase rc := by
          show uncarvedF rows cols (PrimGen.runN (Grid.init rows cols) r n).step.grid = _
          rw [hsg]
          exact uncarvedF_carve hnbm hrco hnbf
        have hmem : rc ∈ uncarvedF rows cols (PrimGen.runN (Grid.init rows cols) r n).grid :=
          frontier_subset_uncarvedF hinv rc hrcm
        have hpos : 0 < (uncarvedF rows cols (PrimGen.runN (Grid.init rows cols) r n).grid).card :=
          Finset.card_pos.2 ⟨rc, hmem⟩
        rw [herase, Finset.card_erase_of_mem hmem]
        omega

/-- After as many steps as there are initially uncarved cells, the frontier is empty. -/
theorem prim_done_within {rows cols : Int} (r : SeededRNG) (hr2 : 2 ≤ rows) (hc2 : 2 ≤ cols)
    {N : Nat} (hN : (uncarvedF rows cols (PrimGen.runN (Grid.init rows cols) r 0).grid).card ≤ N) :
    (PrimGen.runN (Grid.init rows cols) r N).frontier = ∅ := by
  rcases prim_uncarved_bound r hr2 hc2 N with h | h
  · exact h
  · have hcard : (uncarvedF rows cols (PrimGen.runN (Grid.init rows cols) r N).grid).card = 0 := by
      omega
    have hemp : uncarvedF rows cols (PrimGen.runN (Grid.init rows cols) r N).grid = ∅ :=
      Finset.card_eq_zero.1 hcard
    have hinv := primInv_runN r hr2 hc2 N
    by_contra hne
    obtain ⟨f, hf⟩ := Finset.nonempty_iff_ne_empty.2 hne
    have hmem := frontier_subset_uncarvedF hinv f hf
    rw [hemp] at hmem
    exact Finset.not_mem_empty f hmem

/-- C8: at every reachable state of the Prim generator (after construction and after
any number of `step()` calls), every cell in the frontier has at least one
already-carved neighbor at cell-distance 2, and the frontier never contains an
already-carved cell. -/
theorem c8_prim_frontier_invariant (rows cols : Int) (r : SeededRNG) (n : Nat)
    (hr2 : 2 ≤ rows) (hc2 : 2 ≤ cols) :
    ∀ f ∈ (PrimGen.runN (Grid.init rows cols) r n).frontier,
      (∃ nb ∈ (PrimGen.runN (Grid.init rows cols) r n).grid.neighbors_cells f,
        manhattan f nb = 2 ∧ (PrimGen.runN (Grid.init rows cols) r n).grid.free nb = true) ∧
      (PrimGen.runN (Grid.init rows cols) r n).grid.free f = false := by
  intro f hf
  have hinv := primInv_runN r hr2 hc2 n
  obtain ⟨nb, hnbm, hnbf⟩ := hinv.fr_carved_nb f hf
  exact ⟨⟨nb, hnbm, manhattan_neighbors_cells hnbm, hnbf⟩, hinv.fr_wall f hf⟩

/-- Witness for C8 on a concrete 5×5 grid, seed 42, after three steps. -/
theorem c8_prim_frontier_invariant_witness :
    (2 : Int) ≤ 5 ∧
    ∀ f ∈ (PrimGen.runN (Grid.init 5 5) (SeededRNG.fromSeed 42) 3).frontier,
      (∃ nb ∈ (PrimGen.runN (Grid.init 5 5) (SeededRNG.fromSeed 42) 3).grid.neighbors_cells f,
        manhattan f nb = 2 ∧
          (PrimGen.runN (Grid.init 5 5) (SeededRNG.fromSeed 42) 3).grid.free nb = true) ∧
      (PrimGen.runN (Grid.init 5 5) (SeededRNG.fromSeed 42) 3).grid.free f = false :=
  ⟨by decide,
    c8_prim_frontier_invariant 5 5 (SeededRNG.fromSeed 42) 3 (by decide) (by decide)⟩

/-- C9: on the 11×11 internal grid with start (1,1), Prim generation reports done
within 25 `step()` calls — for every PRNG stream, in particular for seed 42. -/
theorem c9_prim_terminates_within_25 :
    (∀ r : SeededRNG, ∃ k, k < 25 ∧
      PrimGen.reportsDone (PrimGen.runN (Grid.init 11 11) r k)) ∧
    (∃ k, k < 25 ∧
      PrimGen.reportsDone (PrimGen.runN (Grid.init 11 11) (SeededRNG.fromSeed 42) k)) := by
  have hgen : ∀ r : SeededRNG, ∃ k, k < 25 ∧
      PrimGen.reportsDone (PrimGen.runN (Grid.init 11 11) r k) := by
    intro r
    refine ⟨24, by omega, ?_⟩
    show (PrimGen.runN (Grid.init 11 11) r 24).frontier = ∅
    refine prim_done_within r (by omega) (by omega) ?_
    have hcard : (uncarvedF 11 11 (PrimGen.runN (Grid.init 11 11) r 0).grid).card = 24 := by
      show (uncarvedF 11 11 ((Grid.init 11 11).carve_cell 1 1)).card = 24
      decide
    omega
  exact ⟨hgen, hgen (SeededRNG.fromSeed 42)⟩

/-- When the frontier is empty, every in-bounds cell center has been carved. -/
theorem prim_spanning {rows cols : Int} {s : PrimGen} (hinv : PrimInv rows cols s)
    (hfr : s.frontier = ∅) :
    ∀ p : Coord, oddCell p → s.grid.in_bounds p.1 p.2 = true → s.grid.free p = true := by
  suffices H : ∀ k : Nat, ∀ p : Coord, manhattan (1, 1) p = k → oddCell p →
      s.grid.in_bounds p.1 p.2 = true → s.grid.free p = true by
    intro p ho hb
    exact H (manhattan (1, 1) p) p rfl ho hb
  intro k
  induction k using Nat.strong_induction_on with
  | _ k ih =>
    intro p hk ho hb
    by_cases hp1 : p = (1, 1)
    · rw [hp1]
      exact hinv.start_free
    · -- pick the step-2 neighbor strictly closer to (1,1)
      have hb' := in_bounds_iff.1 hb
      obtain ⟨ho1, ho2⟩ := ho
      have hq : ∃ q : Coord, q ∈ s.grid.neighbors_cells p ∧ oddCell q ∧
          manhattan (1, 1) q < k := by
        by_cases hc1 : 1 < p.1
        · refine ⟨(p.1 - 2, p.2), ?_, ⟨by dsimp only; omega, by dsimp only; exact ho2⟩, ?_⟩
          · refine mem_neighbors_cells.2 ⟨Or.inl rfl, ?_⟩
            rw [in_bounds_iff]
            dsimp only
            omega
          · unfold manhattan at hk ⊢
            dsimp only
            omega
        · have hc2 : 1 < p.2 := by
            rcases p with ⟨x, y⟩
            dsimp only at ho1 ho2 hc1 hb' ⊢
            have hx : x = 1 := by omega
            have hy : y ≠ 1 := by
              intro hc
              exact hp1 (by rw [Prod.mk.injEq]; exact ⟨hx, hc⟩)
            omega
          refine ⟨(p.1, p.2 - 2), ?_, ⟨by dsimp only; exact ho1, by dsimp only; omega⟩, ?_⟩
          · refine mem_neighbors_cells.2 ⟨Or.inr (Or.inr (Or.inr rfl)), ?_⟩
            rw [in_bounds_iff]
            dsimp only
            omega
          · unfold manhattan at hk ⊢
            dsimp only
            have hx : p.1 = 1 := by omega
            omega
      obtain ⟨q, hqm, hqo, hqlt⟩ := hq
      have hqb : s.grid.in_bounds q.1 q.2 = true := (mem_neighbors_cells.1 hqm).2
      have hqfree : s.grid.free q = true := ih _ hqlt q rfl hqo hqb
      cases hval : s.grid.free p
      · exfalso
        have hmem := hinv.fr_cover p ⟨ho1, ho2⟩ hb hval ⟨q, hqm, hqfree⟩
        rw [hfr] at hmem
        exact Finset.not_mem_empty p hmem
      · rfl

/-- In an acyclic grid with all free cells reachable from the start, any two free
coordinates are joined by exactly one simple path. -/
theorem perfect_of_inv {rows cols : Int} {g : Grid} (hgI : GridInv rows cols g)
    (hconn : ∀ p : Coord, g.free p = true → (passageGraph g).Reachable (1, 1) p) :
    ∀ a b : Coord, g.free a = true → g.free b = true →
      ∃ p : (passageGraph g).Path a b, ∀ q : (passageGraph g).Path a b, q = p := by
  intro a b ha hb
  have hr : (passageGraph g).Reachable a b := (hconn a ha).symm.trans (hconn b hb)
  obtain ⟨w⟩ := hr
  exact ⟨w.toPath, fun q => SimpleGraph.isAcyclic_iff_path_unique.1 hgI.acyclic q w.toPath⟩

/-! ### UnionFind correctness -/

theorem rootN_of_fix {u : UnionFind} {x : Coord} (h : u.parent x = x) :
    ∀ n, UnionFind.rootN n u x = x
  | 0 => rfl
  | n + 1 => by unfold UnionFind.rootN; rw [if_pos h]

theorem root_of_fix {u : UnionFind} {x : Coord} (h : u.parent x = x) : u.root x = x :=
  rootN_of_fix h _

theorem rootN_succ_of_ne {u : UnionFind} {x : Coord} (h : u.parent x ≠ x) (n : Nat) :
    UnionFind.rootN (n + 1) u x = UnionFind.rootN n u (u.parent x) := by
  show (if u.parent x = x then x else UnionFind.rootN n u (u.parent x)) =
    UnionFind.rootN n u (u.parent x)
  rw [if_neg h]

theorem rootN_stable {u : UnionFind} :
    ∀ n, ∀ x, u.parent (UnionFind.rootN n u x) = UnionFind.rootN n u x →
      ∀ m, n ≤ m → UnionFind.rootN m u x = UnionFind.rootN n u x := by
  intro n
  induction n with
  | zero =>
    intro x hfix m _
    exact rootN_of_fix hfix m
  | succ n ih =>
    intro x hfix m hm
    by_cases hp : u.parent x = x
    · rw [rootN_of_fix hp, rootN_of_fix hp]
    · obtain ⟨m', rfl⟩ : ∃ m', m = m' + 1 := ⟨m - 1, by omega⟩
      rw [rootN_succ_of_ne hp] at hfix ⊢
      rw [rootN_succ_of_ne hp]
      exact ih (u.parent x) hfix m' (by omega)

/-- Walking one step up the chain strictly shrinks the set of keys of higher rank. -/
theorem uf_measure_lt {u : UnionFind} (h : UFInv u) {x : Coord} (hne : u.parent x ≠ x) :
    (u.keys.filter fun y => u.rank (u.parent x) < u.rank y).card <
      (u.keys.filter fun y => u.rank x < u.rank y).card := by
  refine Finset.card_lt_card ((Finset.ssubset_iff_of_subset ?_).2 ⟨u.parent x, ?_, ?_⟩)
  · intro y hy
    rw [Finset.mem_filter] at hy ⊢
    exact ⟨hy.1, lt_trans (h.strict x hne) hy.2⟩
  · rw [Finset.mem_filter]
    exact ⟨(h.dom x hne).2, h.strict x hne⟩
  · rw [Finset.mem_filter]
    rintro ⟨_, hlt⟩
    exact absurd hlt (lt_irrefl _)

theorem root_exists_aux {u : UnionFind} (h : UFInv u) :
    ∀ M : Nat, ∀ x : Coord, (u.keys.filter fun y => u.rank x < u.rank y).card ≤ M →
      ∃ n, n ≤ M ∧ u.parent (UnionFind.rootN n u x) = UnionFind.rootN n u x := by
  intro M
  induction M with
  | zero =>
    intro x hM
    by_cases hp : u.parent x = x
    · exact ⟨0, Nat.le_refl 0, hp⟩
    · exact absurd (uf_measure_lt h hp) (by omega)
  | succ M ih =>
    intro x hM
    by_cases hp : u.parent x = x
    · exact ⟨0, by omega, hp⟩
    · have hlt := uf_measure_lt h hp
      obtain ⟨n, hn, hfix⟩ := ih (u.parent x) (by omega)
      refine ⟨n + 1, by omega, ?_⟩
      rw [rootN_succ_of_ne hp]
      exact hfix

theorem root_fix {u : UnionFind} (h : UFInv u) (x : Coord) :
    u.parent (u.root x) = u.root x := by
  obtain ⟨n, hn, hfix⟩ :=
    root_exists_aux h u.keys.card x (Finset.card_filter_le _ _)
  unfold UnionFind.root
  rw [rootN_stable n x hfix u.keys.card hn]
  exact hfix

theorem root_of_parent {u : UnionFind} (h : UFInv u) (x : Coord) :
    u.root x = u.root (u.parent x) := by
  by_cases hp : u.parent x = x
  · rw [hp]
  · obtain ⟨n, hn, hfix⟩ :=
      root_exists_aux h
        ((u.keys.filter fun y => u.rank (u.parent x) < u.rank y).card) (u.parent x)
        (Nat.le_refl _)
    have hfix1 : u.parent (UnionFind.rootN (n + 1) u x) = UnionFind.rootN (n + 1) u x := by
      rw [rootN_succ_of_ne hp]
      exact hfix
    have hlt := uf_measure_lt h hp
    have hle := Finset.card_filter_le u.keys fun y => u.rank x < u.rank y
    have hn1 : n + 1 ≤ u.keys.card := by omega
    have hn2 : n ≤ u.keys.card := by omega
    unfold UnionFind.root
    rw [rootN_stable (n + 1) x hfix1 u.keys.card hn1, rootN_succ_of_ne hp,
      rootN_stable n (u.parent x) hfix u.keys.card hn2]

theorem root_rank_le {u : UnionFind} (h : UFInv u) :
    ∀ M : Nat, ∀ x : Coord, (u.keys.filter fun y => u.rank x < u.rank y).card ≤ M →
      u.rank x ≤ u.rank (u.root x) := by
  intro M
  induction M with
  | zero =>
    intro x hM
    by_cases hp : u.parent x = x
    · rw [root_of_fix hp]
    · exact absurd (uf_measure_lt h hp) (by omega)
  | succ M ih =>
    intro x hM
    by_cases hp : u.parent x = x
    · rw [root_of_fix hp]
    · have hlt := uf_measure_lt h hp
      have hrec := ih (u.parent x) (by omega)
      have hstep := h.strict x hp
      rw [root_of_parent h x]
      omega

theorem root_rank_lt {u : UnionFind} (h : UFInv u) {x : Coord} (hne : u.parent x ≠ x) :
    u.rank x < u.rank (u.root x) := by
  have h1 := h.strict x hne
  have h2 := root_rank_le h
    ((u.keys.filter fun y => u.rank (u.parent x) < u.rank y).card) (u.parent x) (Nat.le_refl _)
  rw [root_of_parent h x]
  omega

theorem root_ne_of_ne {u : UnionFind} (h : UFInv u) {x : Coord} (hne : u.parent x ≠ x) :
    u.root x ≠ x := by
  intro hc
  have := root_rank_lt h hne
  rw [hc] at this
  exact absurd this (lt_irrefl _)

theorem root_mem_keys_of_ne {u : UnionFind} (h : UFInv u) :
    ∀ M : Nat, ∀ x : Coord, (u.keys.filter fun y => u.rank x < u.rank y).card ≤ M →
      u.parent x ≠ x → u.root x ∈ u.keys := by
  intro M
  induction M with
  | zero =>
    intro x hM hne
    exact absurd (uf_measure_lt h hne) (by omega)
  | succ M ih =>
    intro x hM hne
    by_cases hpp : u.parent (u.parent x) = u.parent x
    · rw [root_of_parent h x, root_of_fix hpp]
      exact (h.dom x hne).2
    · have hlt := uf_measure_lt h hne
      rw [root_of_parent h x]
      exact ih (u.parent x) (by omega) hpp

theorem root_mem_keys {u : UnionFind} (h : UFInv u) {x : Coord} (hx : x ∈ u.keys) :
    u.root x ∈ u.keys := by
  by_cases hp : u.parent x = x
  · rw [root_of_fix hp]
    exact hx
  · exact root_mem_keys_of_ne h _ x (Nat.le_refl _) hp

/-- Pointing a non-root `x` directly at its root (path compression) keeps the
invariant. -/
theorem ufinv_update_root {u : UnionFind} (h : UFInv u) {x : Coord}
    (hne : u.parent x ≠ x) :
    UFInv { u with parent := Function.update u.parent x (u.root x) } := by
  constructor
  · intro y hy
    by_cases hyx : y = x
    · rw [hyx] at hy ⊢
      simp only [Function.update_same] at hy ⊢
      exact root_rank_lt h hne
    · simp only [Function.update_noteq hyx] at hy ⊢
      exact h.strict y hy
  · intro y hy
    by_cases hyx : y = x
    · rw [hyx] at hy ⊢
      simp only [Function.update_same] at hy ⊢
      exact ⟨(h.dom x hne).1, root_mem_keys_of_ne h _ x (Nat.le_refl _) hne⟩
    · simp only [Function.update_noteq hyx] at hy ⊢
      exact h.dom y hy

/-- Path compression never changes any element's root. -/
theorem root_update_root {u : UnionFind} (h : UFInv u) {x : Coord}
    (hne : u.parent x ≠ x) :
    ∀ y, UnionFind.root { u with parent := Function.update u.parent x (u.root x) } y =
      u.root y := by
  have hinv' := ufinv_update_root h hne
  have hrfix := root_fix h x
  have hrne := root_ne_of_ne h hne
  suffices H : ∀ M : Nat, ∀ y : Coord,
      (u.keys.filter fun z => u.rank y < u.rank z).card ≤ M →
      UnionFind.root { u with parent := Function.update u.parent x (u.root x) } y =
        u.root y by
    intro y
    exact H _ y (Nat.le_refl _)
  intro M
  induction M with
  | zero =>
    intro y hM
    have hpy : u.parent y = y := by
      by_contra hc
      exact absurd (uf_measure_lt h hc) (by omega)
    have hyx : y ≠ x := fun hc => hne (hc ▸ hpy)
    have hfix' : Function.update u.parent x (u.root x) y = y := by
      rw [Function.update_noteq hyx]
      exact hpy
    rw [root_of_fix (u := { u with parent := Function.update u.parent x (u.root x) }) hfix',
      root_of_fix hpy]
  | succ M ih =>
    intro y hM
    by_cases hpy : u.parent y = y
    · have hyx : y ≠ x := fun hc => hne (hc ▸ hpy)
      have hfix' : Function.update u.parent x (u.root x) y = y := by
        rw [Function.update_noteq hyx]
        exact hpy
      rw [root_of_fix (u := { u with parent := Function.update u.parent x (u.root x) }) hfix',
        root_of_fix hpy]
    · by_cases hyx : y = x
      · -- the compressed element itself: its new parent is its old root, a fixpoint
        rw [hyx]
        rw [root_of_parent
          (u := { u with parent := Function.update u.parent x (u.root x) }) hinv' x]
        have hpar : Function.update u.parent x (u.root x) x = u.root x :=
          Function.update_same x (u.root x) u.parent
        dsimp only
        rw [hpar]
        have hfix' : Function.update u.parent x (u.root x) (u.root x) = u.root x := by
          rw [Function.update_noteq hrne]
          exact hrfix
        exact root_of_fix (u := { u with parent := Function.update u.parent x (u.root x) })
          hfix'
      · rw [root_of_parent
          (u := { u with parent := Function.update u.parent x (u.root x) }) hinv' y]
        have hpar : Function.update u.parent x (u.root x) y = u.parent y :=
          Function.update_noteq hyx _ _
        dsimp only
        rw [hpar, root_of_parent h y]
        have hlt := uf_measure_lt h hpy
        exact ih (u.parent y) (by omega)

/-- Full specification of the fueled `find` recursion: given enough fuel it returns
the root, preserves keys, ranks, every element's root and the invariant, and touches
only parents of elements of rank at least that of the argument. -/
theorem findAux_spec {u : UnionFind} (h : UFInv u) :
    ∀ n x, u.parent (UnionFind.rootN n u x) = UnionFind.rootN n u x →
      (UnionFind.findAux n u x).2 = u.root x ∧
      (UnionFind.findAux n u x).1.keys = u.keys ∧
      (UnionFind.findAux n u x).1.rank = u.rank ∧
      UFInv (UnionFind.findAux n u x).1 ∧
      (∀ y, (UnionFind.findAux n u x).1.root y = u.root y) ∧
      (∀ y, (UnionFind.findAux n u x).1.parent y ≠ u.parent y → u.rank x ≤ u.rank y) := by
  intro n
  induction n with
  | zero =>
    intro x hfix
    exact ⟨(root_of_fix hfix).symm, rfl, rfl, h, fun y => rfl, fun y hy => absurd rfl hy⟩
  | succ n ih =>
    intro x hfix
    by_cases hp : u.parent x = x
    · have hres : UnionFind.findAux (n + 1) u x = (u, x) := by
        show (if u.parent x = x then (u, x) else _) = (u, x)
        rw [if_pos hp]
      rw [hres]
      exact ⟨(root_of_fix hp).symm, rfl, rfl, h, fun y => rfl, fun y hy => absurd rfl hy⟩
    · have hfix' : u.parent (UnionFind.rootN n u (u.parent x)) =
          UnionFind.rootN n u (u.parent x) := by
        rw [← rootN_succ_of_ne hp]
        exact hfix
      obtain ⟨hr2, hkeys, hrank, hinv', hroots, htouch⟩ := ih (u.parent x) hfix'
      have hres : UnionFind.findAux (n + 1) u x =
          ({ (UnionFind.findAux n u (u.parent x)).1 with
              parent := Function.update (UnionFind.findAux n u (u.parent x)).1.parent x
                (UnionFind.findAux n u (u.parent x)).2 },
            (UnionFind.findAux n u (u.parent x)).2) := by
        show (if u.parent x = x then (u, x) else _) = _
        rw [if_neg hp]
      have hrx : (UnionFind.findAux n u (u.parent x)).2 = u.root x := by
        rw [hr2, ← root_of_parent h x]
      have hpx : (UnionFind.findAux n u (u.parent x)).1.parent x = u.parent x := by
        by_contra hc
        have h1 := htouch x hc
        have h2 := h.strict x hp
        omega
      have hpne : (UnionFind.findAux n u (u.parent x)).1.parent x ≠ x := by
        rw [hpx]
        exact hp
      have hrp : (UnionFind.findAux n u (u.parent x)).2 =
          (UnionFind.findAux n u (u.parent x)).1.root x := by
        rw [hrx, ← hroots x]
      rw [hres]
      refine ⟨hrx, hkeys, hrank, ?_, ?_, ?_⟩
      · rw [hrp]
        exact ufinv_update_root hinv' hpne
      · intro y
        have := root_update_root hinv' hpne y
        rw [hrp]
        rw [this, hroots y]
      · intro y hy
        by_cases hyx : y = x
        · rw [hyx]
        · simp only [Function.update_noteq hyx] at hy
          have h1 := htouch y hy
          have h2 := h.strict x hp
          omega

/-- Specification of `find` (fuel `keys.card + 1` always suffices). -/
theorem find_spec {u : UnionFind} (h : UFInv u) (x : Coord) :
    (u.find x).2 = u.root x ∧ (u.find x).1.keys = u.keys ∧ (u.find x).1.rank = u.rank ∧
      UFInv (u.find x).1 ∧ ∀ y, (u.find x).1.root y = u.root y := by
  have hfuel : u.parent (UnionFind.rootN (u.keys.card + 1) u x) =
      UnionFind.rootN (u.keys.card + 1) u x := by
    obtain ⟨n, hn, hfix⟩ := root_exists_aux h u.keys.card x (Finset.card_filter_le _ _)
    rw [rootN_stable n x hfix (u.keys.card + 1) (by omega)]
    exact hfix
  obtain ⟨h1, h2, h3, h4, h5, _⟩ := findAux_spec h (u.keys.card + 1) x hfuel
  exact ⟨h1, h2, h3, h4, h5⟩

/-- Linking a lower-rank root under a higher-rank root keeps the invariant. -/
theorem ufinv_link_lt {u : UnionFind} (h : UFInv u) {r1 r2 : Coord}
    (h1 : u.parent r1 = r1) (h2 : u.parent r2 = r2) (hne : r1 ≠ r2)
    (hm1 : r1 ∈ u.keys) (hm2 : r2 ∈ u.keys) (hlt : u.rank r1 < u.rank r2) :
    UFInv { u with parent := Function.update u.parent r1 r2 } := by
  constructor
  · intro y hy
    by_cases hy1 : y = r1
    · rw [hy1] at hy ⊢
      simp only [Function.update_same] at hy ⊢
      exact hlt
    · simp only [Function.update_noteq hy1] at hy ⊢
      exact h.strict y hy
  · intro y hy
    by_cases hy1 : y = r1
    · rw [hy1] at hy ⊢
      simp only [Function.update_same] at hy ⊢
      exact ⟨hm1, hm2⟩
    · simp only [Function.update_noteq hy1] at hy ⊢
      exact h.dom y hy

/-- Linking two equal-rank roots and bumping the surviving root's rank keeps the
invariant. -/
theorem ufinv_link_eq {u : UnionFind} (h : UFInv u) {r1 r2 : Coord}
    (h1 : u.parent r1 = r1) (h2 : u.parent r2 = r2) (hne : r1 ≠ r2)
    (hm1 : r1 ∈ u.keys) (hm2 : r2 ∈ u.keys) (heq : u.rank r1 = u.rank r2) :
    UFInv { u with parent := Function.update u.parent r2 r1
                   rank := Function.update u.rank r1 (u.rank r1 + 1) } := by
  have hne' : r2 ≠ r1 := fun hc => hne hc.symm
  constructor
  · intro y hy
    have hy' : Function.update u.parent r2 r1 y ≠ y := hy
    show Function.update u.rank r1 (u.rank r1 + 1) y <
      Function.update u.rank r1 (u.rank r1 + 1) (Function.update u.parent r2 r1 y)
    by_cases hy2 : y = r2
    · rw [hy2, Function.update_same, Function.update_same, Function.update_noteq hne']
      omega
    · have hp : Function.update u.parent r2 r1 y = u.parent y :=
        Function.update_noteq hy2 r1 u.parent
      rw [hp] at hy' ⊢
      have hold := h.strict y hy'
      have hyr1 : y ≠ r1 := fun hc => hy' (hc ▸ h1)
      rw [Function.update_noteq hyr1]
      by_cases hp1 : u.parent y = r1
      · rw [hp1, Function.update_same]
        rw [hp1] at hold
        omega
      · rw [Function.update_noteq hp1]
        exact hold
  · intro y hy
    have hy' : Function.update u.parent r2 r1 y ≠ y := hy
    show y ∈ u.keys ∧ Function.update u.parent r2 r1 y ∈ u.keys
    by_cases hy2 : y = r2
    · rw [hy2, Function.update_same]
      exact ⟨hm2, hm1⟩
    · have hp : Function.update u.parent r2 r1 y = u.parent y :=
        Function.update_noteq hy2 r1 u.parent
      rw [hp] at hy' ⊢
      exact h.dom y hy'

/-- Adding a link `r1 → r2` between two roots redirects exactly the classes whose
root was `r1`. -/
theorem root_after_link {u v : UnionFind} (hu : UFInv u) (hv : UFInv v)
    {r1 r2 : Coord} (h1 : u.parent r1 = r1) (h2 : u.parent r2 = r2) (hne : r1 ≠ r2)
    (hpar : v.parent = Function.update u.parent r1 r2) :
    ∀ y, v.root y = if u.root y = r1 then r2 else u.root y := by
  have hne' : r2 ≠ r1 := fun hc => hne hc.symm
  have hvr2 : v.root r2 = r2 := by
    apply root_of_fix
    rw [hpar, Function.update_noteq hne']
    exact h2
  suffices H : ∀ M : Nat, ∀ y, (u.keys.filter fun z => u.rank y < u.rank z).card ≤ M →
      v.root y = if u.root y = r1 then r2 else u.root y by
    intro y
    exact H _ y (Nat.le_refl _)
  intro M
  induction M with
  | zero =>
    intro y hM
    have hpy : u.parent y = y := by
      by_contra hc
      exact absurd (uf_measure_lt hu hc) (by omega)
    by_cases hy1 : y = r1
    · rw [hy1, root_of_fix h1, if_pos (rfl : r1 = r1), root_of_parent hv r1]
      have hp : v.parent r1 = r2 := by rw [hpar, Function.update_same]
      rw [hp, hvr2]
    · rw [root_of_fix hpy, if_neg hy1]
      apply root_of_fix
      rw [hpar, Function.update_noteq hy1]
      exact hpy
  | succ M ih =>
    intro y hM
    by_cases hpy : u.parent y = y
    · by_cases hy1 : y = r1
      · rw [hy1, root_of_fix h1, if_pos (rfl : r1 = r1), root_of_parent hv r1]
        have hp : v.parent r1 = r2 := by rw [hpar, Function.update_same]
        rw [hp, hvr2]
      · rw [root_of_fix hpy, if_neg hy1]
        apply root_of_fix
        rw [hpar, Function.update_noteq hy1]
        exact hpy
    · have hy1 : y ≠ r1 := fun hc => hpy (hc ▸ h1)
      rw [root_of_parent hu y, root_of_parent hv y]
      have hp : v.parent y = u.parent y := by rw [hpar, Function.update_noteq hy1]
      rw [hp]
      exact ih (u.parent y) (by have := uf_measure_lt hu hpy; omega)

/-- Propositional shape of class merging through an `r1 → r2` link. -/
theorem ite_link_iff {A B ry rz : Coord} (hAB : A ≠ B) :
    ((if ry = A then B else ry) = (if rz = A then B else rz)) ↔
      (ry = rz ∨ (ry = A ∧ rz = B) ∨ (ry = B ∧ rz = A)) := by
  by_cases hy : ry = A
  · by_cases hz : rz = A
    · rw [if_pos hy, if_pos hz]
      exact ⟨fun _ => Or.inl (hy.trans hz.symm), fun _ => rfl⟩
    · rw [if_pos hy, if_neg hz]
      constructor
      · intro hB
        exact Or.inr (Or.inl ⟨hy, hB.symm⟩)
      · rintro (hc | ⟨_, hc⟩ | ⟨hc, _⟩)
        · exact absurd (hy ▸ hc).symm hz
        · exact hc.symm
        · exact absurd (hy ▸ hc) hAB
  · by_cases hz : rz = A
    · rw [if_neg hy, if_pos hz]
      constructor
      · intro hB
        exact Or.inr (Or.inr ⟨hB, hz⟩)
      · rintro (hc | ⟨hc, _⟩ | ⟨hc, _⟩)
        · exact absurd (hc.trans hz) hy
        · exact absurd hc hy
        · exact hc
    · rw [if_neg hy, if_neg hz]
      constructor
      · exact fun hc => Or.inl hc
      · rintro (hc | ⟨hc, _⟩ | ⟨_, hc⟩)
        · exact hc
        · exact absurd hc hy
        · exact absurd hc hz

/-- Specification of `union(a, b)`: keys are unchanged, the invariant survives, and
two elements share a root afterwards iff they did before or they straddled the two
merged classes. -/
theorem union_spec {u : UnionFind} (h : UFInv u) {a b : Coord}
    (ha : a ∈ u.keys) (hb : b ∈ u.keys) :
    (u.union a b).keys = u.keys ∧ UFInv (u.union a b) ∧
      ∀ y z : Coord, (u.union a b).root y = (u.union a b).root z ↔
        (u.root y = u.root z ∨ (u.root y = u.root a ∧ u.root z = u.root b) ∨
          (u.root y = u.root b ∧ u.root z = u.root a)) := by
  obtain ⟨hfa2, hfa_keys, hfa_rank, hfa_inv, hfa_roots⟩ := find_spec h a
  obtain ⟨hfb2, hfb_keys, hfb_rank, hfb_inv, hfb_roots⟩ := find_spec hfa_inv b
  have h2keys : ((u.find a).1.find b).1.keys = u.keys := hfb_keys.trans hfa_keys
  have h2rank : ((u.find a).1.find b).1.rank = u.rank := hfb_rank.trans hfa_rank
  have hroots2 : ∀ y, ((u.find a).1.find b).1.root y = u.root y :=
    fun y => (hfb_roots y).trans (hfa_roots y)
  have hra_eq : (u.find a).2 = u.root a := hfa2
  have hrb_eq : ((u.find a).1.find b).2 = u.root b := hfb2.trans (hfa_roots b)
  have hfix_ra : ((u.find a).1.find b).1.parent (u.find a).2 = (u.find a).2 := by
    rw [hra_eq, ← hroots2 a]
    exact root_fix hfb_inv a
  have hfix_rb : ((u.find a).1.find b).1.parent ((u.find a).1.find b).2 =
      ((u.find a).1.find b).2 := by
    rw [hrb_eq, ← hroots2 b]
    exact root_fix hfb_inv b
  have hra_mem : (u.find a).2 ∈ ((u.find a).1.find b).1.keys := by
    rw [hra_eq, h2keys]
    exact root_mem_keys h ha
  have hrb_mem : ((u.find a).1.find b).2 ∈ ((u.find a).1.find b).1.keys := by
    rw [hrb_eq, h2keys]
    exact root_mem_keys h hb
  by_cases hr : (u.find a).2 = ((u.find a).1.find b).2
  · -- the two roots coincide: no structural change
    have hres : u.union a b = ((u.find a).1.find b).1 := by
      show (if (u.find a).2 = ((u.find a).1.find b).2 then ((u.find a).1.find b).1
        else _) = _
      rw [if_pos hr]
    have hab : u.root a = u.root b := by rw [← hra_eq, ← hrb_eq, hr]
    rw [hres]
    refine ⟨h2keys, hfb_inv, ?_⟩
    intro y z
    rw [hroots2 y, hroots2 z]
    constructor
    · exact fun hc => Or.inl hc
    · rintro (hc | ⟨h1, h2⟩ | ⟨h1, h2⟩)
      · exact hc
      · rw [h1, h2, hab]
      · rw [h1, h2, hab]
  · have hrne : (u.find a).2 ≠ ((u.find a).1.find b).2 := hr
    have hABne : u.root a ≠ u.root b := by
      rw [← hra_eq, ← hrb_eq]
      exact hrne
    by_cases hlt : ((u.find a).1.find b).1.rank (u.find a).2 <
        ((u.find a).1.find b).1.rank ((u.find a).1.find b).2
    · -- rank ra < rank rb: link ra → rb
      have hres : u.union a b =
          { ((u.find a).1.find b).1 with
            parent := Function.update ((u.find a).1.find b).1.parent (u.find a).2
              ((u.find a).1.find b).2 } := by
        unfold UnionFind.union
        simp only []
        rw [if_neg hr, if_pos hlt]
      have hvinv := ufinv_link_lt hfb_inv hfix_ra hfix_rb hrne hra_mem hrb_mem hlt
      rw [hres]
      refine ⟨h2keys, hvinv, ?_⟩
      have hlink := root_after_link hfb_inv hvinv hfix_ra hfix_rb hrne rfl
      intro y z
      rw [hlink y, hlink z, hroots2 y, hroots2 z, hra_eq, hrb_eq]
      exact ite_link_iff hABne
    · by_cases hgt : ((u.find a).1.find b).1.rank ((u.find a).1.find b).2 <
          ((u.find a).1.find b).1.rank (u.find a).2
      · -- rank rb < rank ra: link rb → ra
        have hres : u.union a b =
            { ((u.find a).1.find b).1 with
              parent := Function.update ((u.find a).1.find b).1.parent
                ((u.find a).1.find b).2 (u.find a).2 } := by
          unfold UnionFind.union
          simp only []
          rw [if_neg hr, if_neg hlt, if_pos hgt]
        have hvinv := ufinv_link_lt hfb_inv hfix_rb hfix_ra (fun hc => hrne hc.symm)
          hrb_mem hra_mem hgt
        rw [hres]
        refine ⟨h2keys, hvinv, ?_⟩
        have hlink := root_after_link hfb_inv hvinv hfix_rb hfix_ra
          (fun hc => hrne hc.symm) rfl
        intro y z
        rw [hlink y, hlink z, hroots2 y, hroots2 z, hra_eq, hrb_eq]
        rw [ite_link_iff (fun hc => hABne hc.symm)]
        constructor
        · rintro (hc | ⟨h1, h2⟩ | ⟨h1, h2⟩)
          · exact Or.inl hc
          · exact Or.inr (Or.inr ⟨h1, h2⟩)
          · exact Or.inr (Or.inl ⟨h1, h2⟩)
        · rintro (hc | ⟨h1, h2⟩ | ⟨h1, h2⟩)
          · exact Or.inl hc
          · exact Or.inr (Or.inr ⟨h1, h2⟩)
          · exact Or.inr (Or.inl ⟨h1, h2⟩)
      · -- equal ranks: link rb → ra and bump ra's rank
        have heqr : ((u.find a).1.find b).1.rank (u.find a).2 =
            ((u.find a).1.find b).1.rank ((u.find a).1.find b).2 := by omega
        have hres : u.union a b =
            { ((u.find a).1.find b).1 with
              parent := Function.update ((u.find a).1.find b).1.parent
                ((u.find a).1.find b).2 (u.find a).2
              rank := Function.update ((u.find a).1.find b).1.rank (u.find a).2
                (((u.find a).1.find b).1.rank (u.find a).2 + 1) } := by
          unfold UnionFind.union
          simp only []
          rw [if_neg hr, if_neg hlt, if_neg hgt]
        have hvinv := ufinv_link_eq hfb_inv hfix_ra hfix_rb hrne hra_mem hrb_mem heqr
        rw [hres]
        refine ⟨h2keys, hvinv, ?_⟩
        have hlink := root_after_link hfb_inv hvinv hfix_rb hfix_ra
          (fun hc => hrne hc.symm) rfl
        intro y z
        rw [hlink y, hlink z, hroots2 y, hroots2 z, hra_eq, hrb_eq]
        rw [ite_link_iff (fun hc => hABne hc.symm)]
        constructor
        · rintro (hc | ⟨h1, h2⟩ | ⟨h1, h2⟩)
          · exact Or.inl hc
          · exact Or.inr (Or.inr ⟨h1, h2⟩)
          · exact Or.inr (Or.inl ⟨h1, h2⟩)
        · rintro (hc | ⟨h1, h2⟩ | ⟨h1, h2⟩)
          · exact Or.inl hc
          · exact Or.inr (Or.inr ⟨h1, h2⟩)
          · exact Or.inr (Or.inl ⟨h1, h2⟩)

/-! ### Kruskal: geometry of the cell and edge lists -/

theorem mem_range2 {lo hi x : Int} :
    x ∈ range2 lo hi ↔ lo ≤ x ∧ x < hi ∧ (x - lo) % 2 = 0 := by
  unfold range2
  rw [List.mem_map]
  constructor
  · rintro ⟨k, hk, rfl⟩
    rw [List.mem_range] at hk
    omega
  · rintro ⟨h1, h2, h3⟩
    refine ⟨((x - lo) / 2).toNat, ?_, ?_⟩
    · rw [List.mem_range]
      omega
    · omega

theorem mem_cellList {rows cols : Int} {p : Coord} :
    p ∈ cellList rows cols ↔
      (1 ≤ p.1 ∧ p.1 < rows ∧ p.1 % 2 = 1) ∧ (1 ≤ p.2 ∧ p.2 < cols ∧ p.2 % 2 = 1) := by
  unfold cellList
  rw [List.mem_flatMap]
  constructor
  · rintro ⟨a, ha, hp⟩
    rw [List.mem_map] at hp
    obtain ⟨c, hc, rfl⟩ := hp
    rw [mem_range2] at ha hc
    dsimp only
    constructor <;> constructor <;> omega
  · rintro ⟨⟨h1, h2, h3⟩, h4, h5, h6⟩
    refine ⟨p.1, mem_range2.2 ⟨h1, h2, by omega⟩, ?_⟩
    rw [List.mem_map]
    exact ⟨p.2, mem_range2.2 ⟨h4, h5, by omega⟩, Prod.mk.eta⟩

theorem edgeList_mem_spec {g : Grid} {e : Coord × Coord} (h : e ∈ edgeList g) :
    e.1 ∈ cellList g.rows g.cols ∧ g.in_bounds e.2.1 e.2.2 = true ∧
      ((e.2.1 = e.1.1 ∧ e.2.2 = e.1.2 + 2) ∨ (e.2.1 = e.1.1 + 2 ∧ e.2.2 = e.1.2)) := by
  unfold edgeList at h
  rw [List.mem_flatMap] at h
  obtain ⟨rc, hrc, he⟩ := h
  rw [List.mem_filterMap] at he
  obtain ⟨d, hd, hopt⟩ := he
  have hd' : d = ((0, 2) : Coord) ∨ d = ((2, 0) : Coord) := by
    rcases List.mem_cons.1 hd with h | h
    · exact Or.inl h
    · rcases List.mem_cons.1 h with h | h
      · exact Or.inr h
      · exact absurd h (List.not_mem_nil d)
  dsimp only at hopt
  by_cases hbnd : g.in_bounds (rc.1 + d.1) (rc.2 + d.2) = true
  · rw [if_pos hbnd] at hopt
    have he := Option.some.inj hopt
    rcases hd' with rfl | rfl <;> rw [← he] <;> dsimp only <;>
      refine ⟨hrc, ?_, ?_⟩
    · exact (by dsimp only at hbnd ⊢; exact hbnd)
    · exact Or.inl ⟨by omega, by omega⟩
    · exact (by dsimp only at hbnd ⊢; exact hbnd)
    · exact Or.inr ⟨by omega, by omega⟩
  · rw [if_neg hbnd] at hopt
    cases hopt

theorem edgeList_mem_intro {g : Grid} {q p : Coord} (hq : q ∈ cellList g.rows g.cols)
    (hp : g.in_bounds p.1 p.2 = true)
    (hrel : (p.1 = q.1 ∧ p.2 = q.2 + 2) ∨ (p.1 = q.1 + 2 ∧ p.2 = q.2)) :
    (q, p) ∈ edgeList g := by
  unfold edgeList
  rw [List.mem_flatMap]
  refine ⟨q, hq, ?_⟩
  rw [List.mem_filterMap]
  rcases hrel with ⟨hr1, hr2⟩ | ⟨hr1, hr2⟩
  · refine ⟨(0, 2), by simp, ?_⟩
    dsimp only
    have hb : g.in_bounds (q.1 + 0) (q.2 + 2) = true := by
      rw [show q.1 + (0 : Int) = p.1 by omega, show q.2 + (2 : Int) = p.2 by omega]
      exact hp
    rw [if_pos hb]
    have : ((q.1 + 0, q.2 + 2) : Coord) = p := by
      rw [Prod.ext_iff]
      constructor <;> dsimp only <;> omega
    rw [this]
  · refine ⟨(2, 0), by simp, ?_⟩
    dsimp only
    have hb : g.in_bounds (q.1 + 2) (q.2 + 0) = true := by
      rw [show q.1 + (2 : Int) = p.1 by omega, show q.2 + (0 : Int) = p.2 by omega]
      exact hp
    rw [if_pos hb]
    have : ((q.1 + 2, q.2 + 0) : Coord) = p := by
      rw [Prod.ext_iff]
      constructor <;> dsimp only <;> omega
    rw [this]

theorem edgeList_congr {g g' : Grid} (hr : g'.rows = g.rows) (hc : g'.cols = g.cols) :
    edgeList g' = edgeList g := by
  unfold edgeList
  rw [hr, hc]
  have hfun : (fun rc : Coord => ([(0, 2), (2, 0)] : List Coord).filterMap fun d =>
        if g'.in_bounds (rc.1 + d.1) (rc.2 + d.2) then some (rc, (rc.1 + d.1, rc.2 + d.2))
        else none) =
      fun rc : Coord => ([(0, 2), (2, 0)] : List Coord).filterMap fun d =>
        if g.in_bounds (rc.1 + d.1) (rc.2 + d.2) then some (rc, (rc.1 + d.1, rc.2 + d.2))
        else none := by
    funext rc
    refine List.filterMap_congr ?_
    intro d _
    rw [in_bounds_congr hr hc]
  rw [hfun]

/-! ### Kruskal: shuffle is a permutation -/

theorem getD_cons_eraseIdx_perm {α : Type} [DecidableEq α] {l : List α} {j : Nat}
    (h : j < l.length) (d : α) : (l.getD j d :: l.eraseIdx j).Perm l := by
  rw [List.getD_eq_getElem l d h]
  exact ((List.perm_cons_erase (List.getElem_mem h)).trans
    ((List.erase_getElem h).cons _)).symm

theorem shuffleAux_perm {α : Type} [DecidableEq α] (vals : Nat → Nat) :
    ∀ n i (l : List α), n = l.length → (shuffleAux vals n i l).Perm l := by
  intro n
  induction n with
  | zero =>
    intro i l h
    exact List.Perm.refl l
  | succ n ih =>
    intro i l h
    cases l with
    | nil => cases h
    | cons a t =>
      have hj : vals i % (a :: t).length < (a :: t).length :=
        Nat.mod_lt _ (Nat.succ_pos t.length)
      have hlen : n = ((a :: t).eraseIdx (vals i % (a :: t).length)).length := by
        have h2 := List.length_eraseIdx_add_one hj
        omega
      exact ((ih (i + 1) _ hlen).cons _).trans (getD_cons_eraseIdx_perm hj a)

theorem shuffle_perm {α : Type} [DecidableEq α] (r : SeededRNG) (l : List α) :
    (r.shuffle l).1.Perm l :=
  shuffleAux_perm r.vals l.length r.idx l rfl

/-! ### Kruskal: the carving and union-find building folds of `__init__` -/

theorem foldl_carve_dims (l : List Coord) (g : Grid) :
    (l.foldl (fun g rc => g.carve_cell rc.1 rc.2) g).rows = g.rows ∧
      (l.foldl (fun g rc => g.carve_cell rc.1 rc.2) g).cols = g.cols := by
  induction l generalizing g with
  | nil => exact ⟨rfl, rfl⟩
  | cons a t ih =>
    rw [List.foldl_cons]
    refine ⟨(ih _).1.trans ?_, (ih _).2.trans ?_⟩
    · exact (set_free_dims g (a.1, a.2)).1
    · exact (set_free_dims g (a.1, a.2)).2.1

theorem foldl_carve_free (l : List Coord) (g : Grid) (p : Coord) :
    (l.foldl (fun g rc => g.carve_cell rc.1 rc.2) g).free p =
      (g.free p || decide (p ∈ l)) := by
  induction l generalizing g with
  | nil => simp
  | cons a t ih =>
    rw [List.foldl_cons, ih]
    unfold Grid.carve_cell
    rw [set_free_free]
    have hpa : ((a.1, a.2) : Coord) = a := Prod.mk.eta
    rw [hpa]
    simp [List.mem_cons, Bool.or_assoc]

theorem foldl_add_spec (l : List Coord) (u : UnionFind) (hpar : ∀ y, u.parent y = y) :
    (l.foldl (fun u rc => u.add rc) u).keys = u.keys ∪ l.toFinset ∧
      ∀ y, (l.foldl (fun u rc => u.add rc) u).parent y = y := by
  induction l generalizing u with
  | nil => exact ⟨by simp, hpar⟩
  | cons a t ih =>
    rw [List.foldl_cons]
    have hadd_par : ∀ y, (u.add a).parent y = y := by
      intro y
      unfold UnionFind.add
      by_cases hmem : a ∈ u.keys
      · rw [if_pos hmem]
        exact hpar y
      · rw [if_neg hmem]
        dsimp only
        by_cases hy : y = a
        · rw [hy, Function.update_same]
        · rw [Function.update_noteq hy]
          exact hpar y
    have hadd_keys : (u.add a).keys = insert a u.keys := by
      unfold UnionFind.add
      by_cases hmem : a ∈ u.keys
      · rw [if_pos hmem]
        exact (Finset.insert_eq_self.2 hmem).symm
      · rw [if_neg hmem]
    obtain ⟨hk, hp⟩ := ih (u.add a) hadd_par
    refine ⟨?_, hp⟩
    rw [hk, hadd_keys, List.toFinset_cons]
    ext z
    simp only [Finset.mem_union, Finset.mem_insert]
    tauto

theorem reach_eq_of_no_adj {G : SimpleGraph Coord} (h : ∀ a b : Coord, ¬G.Adj a b)
    {x y : Coord} (hr : G.Reachable x y) : x = y := by
  obtain ⟨w⟩ := hr
  cases w with
  | nil => rfl
  | cons hadj _ => exact absurd hadj (h _ _)

theorem isAcyclic_of_no_adj {G : SimpleGraph Coord} (h : ∀ a b : Coord, ¬G.Adj a b) :
    G.IsAcyclic := by
  intro v c hc
  cases c with
  | nil => exact hc.ne_nil rfl
  | cons hadj p => exact h _ _ hadj

/-- The Kruskal invariant holds right after `KruskalGenerator.__init__` on a fresh
grid. -/
theorem kruskalInv_init {rows cols : Int} (r : SeededRNG) (hr2 : 2 ≤ rows)
    (hc2 : 2 ≤ cols) :
    KruskalInv rows cols (KruskalGen.init (Grid.init rows cols) r) := by
  set g1 : Grid := (cellList rows cols).foldl (fun g rc => g.carve_cell rc.1 rc.2)
    (Grid.init rows cols) with hg1def
  set g2 : Grid := { g1 with free := fun _ => false } with hg2def
  have hg1r : g1.rows = rows := by
    rw [hg1def]
    exact (foldl_carve_dims _ _).1
  have hg1c : g1.cols = cols := by
    rw [hg1def]
    exact (foldl_carve_dims _ _).2
  have hg2r : g2.rows = rows := hg1r
  have hg2c : g2.cols = cols := hg1c
  have hcl : cellList g2.rows g2.cols = cellList rows cols := by rw [hg2r, hg2c]
  have hgrid : (KruskalGen.init (Grid.init rows cols) r).grid =
      (cellList g2.rows g2.cols).foldl (fun g rc => g.carve_cell rc.1 rc.2) g2 := rfl
  have huf : (KruskalGen.init (Grid.init rows cols) r).uf =
      (cellList g1.rows g1.cols).foldl (fun u rc => u.add rc) UnionFind.empty := rfl
  have hedges : (KruskalGen.init (Grid.init rows cols) r).edges =
      (r.shuffle (edgeList g1)).1.mergeSort edgeLe := rfl
  have hi0 : (KruskalGen.init (Grid.init rows cols) r).i = 0 := rfl
  have hfree : ∀ p : Coord, (KruskalGen.init (Grid.init rows cols) r).grid.free p =
      decide (p ∈ cellList rows cols) := by
    intro p
    rw [hgrid, foldl_carve_free, hcl]
    rfl
  have hfree_iff : ∀ p : Coord,
      ((KruskalGen.init (Grid.init rows cols) r).grid.free p = true ↔
        p ∈ cellList rows cols) := by
    intro p
    rw [hfree]
    exact decide_eq_true_iff
  have hgr : (KruskalGen.init (Grid.init rows cols) r).grid.rows = rows := by
    rw [hgrid]
    exact (foldl_carve_dims _ _).1.trans hg2r
  have hgc : (KruskalGen.init (Grid.init rows cols) r).grid.cols = cols := by
    rw [hgrid]
    exact (foldl_carve_dims _ _).2.trans hg2c
  have hinb : ∀ p : Coord,
      ((KruskalGen.init (Grid.init rows cols) r).grid.in_bounds p.1 p.2 = true ↔
        0 ≤ p.1 ∧ p.1 < rows ∧ 0 ≤ p.2 ∧ p.2 < cols) := by
    intro p
    rw [in_bounds_iff, hgr, hgc]
  have hadj : ∀ a b : Coord,
      ¬(passageGraph (KruskalGen.init (Grid.init rows cols) r).grid).Adj a b := by
    intro a b hab
    rw [passageGraph_adj] at hab
    obtain ⟨hd, hfa, hfb⟩ := hab
    rw [hfree_iff] at hfa hfb
    rw [mem_cellList] at hfa hfb
    rcases a with ⟨a1, a2⟩
    rcases b with ⟨b1, b2⟩
    unfold manhattan at hd
    dsimp only at hd hfa hfb
    omega
  obtain ⟨hufk, hufp⟩ :=
    foldl_add_spec (cellList g1.rows g1.cols) UnionFind.empty (fun y => rfl)
  have hroot_id : ∀ y, (KruskalGen.init (Grid.init rows cols) r).uf.root y = y := by
    intro y
    rw [huf]
    exact root_of_fix (hufp y)
  have hkeys : (KruskalGen.init (Grid.init rows cols) r).uf.keys =
      (cellList rows cols).toFinset := by
    rw [huf, hufk, hg1r, hg1c]
    show (∅ : Finset Coord) ∪ (cellList rows cols).toFinset = (cellList rows cols).toFinset
    rw [Finset.empty_union]
  refine ⟨⟨hgr, hgc, ?_, ?_, ?_, ?_, isAcyclic_of_no_adj hadj⟩, ?_, hkeys, ?_, ?_, ?_,
    ?_, ?_⟩
  · -- free_inb
    intro p hp
    rw [hfree_iff, mem_cellList] at hp
    rw [in_bounds_iff, hgr, hgc]
    omega
  · -- free_not_ee
    intro p hp
    rw [hfree_iff, mem_cellList] at hp
    omega
  · -- mid_vert (vacuous by parity)
    intro a b hp ha _
    exfalso
    rw [hfree_iff, mem_cellList] at hp
    dsimp only at hp
    omega
  · -- mid_horz (vacuous by parity)
    intro a b hp _ hb
    exfalso
    rw [hfree_iff, mem_cellList] at hp
    dsimp only at hp
    omega
  · -- cells_free
    intro p hpo hpb
    rw [hfree_iff, mem_cellList]
    rw [hinb] at hpb
    obtain ⟨ho1, ho2⟩ := hpo
    refine ⟨⟨by omega, by omega, ho1⟩, by omega, by omega, ho2⟩
  · -- UFInv: every parent is the identity
    constructor
    · intro y hy
      have hp : (KruskalGen.init (Grid.init rows cols) r).uf.parent y = y := by
        rw [huf]
        exact hufp y
      exact absurd hp hy
    · intro y hy
      have hp : (KruskalGen.init (Grid.init rows cols) r).uf.parent y = y := by
        rw [huf]
        exact hufp y
      exact absurd hp hy
  · -- sound
    intro a b _ _ hr'
    rw [hroot_id a, hroot_id b] at hr'
    rw [hr']
  · -- complete
    intro a b _ _ hr'
    rw [hroot_id a, hroot_id b]
    exact reach_eq_of_no_adj hadj hr'
  · -- edges_perm
    rw [hedges]
    have hperm : ((r.shuffle (edgeList g1)).1.mergeSort edgeLe).Perm (edgeList g1) :=
      (List.mergeSort_perm _ _).trans (shuffle_perm r _)
    have hel : edgeList g1 = edgeList (Grid.init rows cols) :=
      edgeList_congr hg1r hg1c
    rw [← hel]
    exact hperm
  · -- processed (vacuous)
    intro k hk
    rw [hi0] at hk
    exact absurd hk (by omega)

/-- Processing one edge preserves the Kruskal invariant, leaves the edge list and
cursor unchanged, only grows reachability, and connects the processed edge's
endpoints. -/
theorem kruskal_processEdge {rows cols : Int} {s : KruskalGen}
    (hinv : KruskalInv rows cols s) {k : Nat} (hk : k < s.edges.length) :
    KruskalInv rows cols (s.processEdge k) ∧
    (s.processEdge k).edges = s.edges ∧ (s.processEdge k).i = s.i ∧
    (∀ p q : Coord, (passageGraph s.grid).Reachable p q →
      (passageGraph (s.processEdge k).grid).Reachable p q) ∧
    (passageGraph (s.processEdge k).grid).Reachable
      (s.edges.getD k ((0, 0), (0, 0))).1 (s.edges.getD k ((0, 0), (0, 0))).2 := by
  set e := s.edges.getD k ((0, 0), (0, 0)) with hedef
  have he_mem : e ∈ s.edges := by
    rw [hedef, List.getD_eq_getElem _ _ hk]
    exact List.getElem_mem hk
  have he_el : e ∈ edgeList (Grid.init rows cols) := hinv.edges_perm.mem_iff.1 he_mem
  obtain ⟨hq_cell0, hp_inb0, hrel⟩ := edgeList_mem_spec he_el
  have hq_cell : e.1 ∈ cellList rows cols := hq_cell0
  have hp_bounds : 0 ≤ e.2.1 ∧ e.2.1 < rows ∧ 0 ≤ e.2.2 ∧ e.2.2 < cols := by
    rw [in_bounds_iff] at hp_inb0
    exact hp_inb0
  have hq_mem := mem_cellList.1 hq_cell
  have hq_odd : oddCell e.1 := ⟨hq_mem.1.2.2, hq_mem.2.2.2⟩
  have hp_cell : e.2 ∈ cellList rows cols := by
    rw [mem_cellList]
    rcases hrel with ⟨h1, h2⟩ | ⟨h1, h2⟩ <;> exact ⟨⟨by omega, by omega, by omega⟩,
      by omega, by omega, by omega⟩
  have hp_odd : oddCell e.2 := by
    have h := mem_cellList.1 hp_cell
    exact ⟨h.1.2.2, h.2.2.2⟩
  have hq_inb : s.grid.in_bounds e.1.1 e.1.2 = true := by
    rw [in_bounds_iff, hinv.ginv.rows_eq, hinv.ginv.cols_eq]
    omega
  have hp_inb : s.grid.in_bounds e.2.1 e.2.2 = true := by
    rw [in_bounds_iff, hinv.ginv.rows_eq, hinv.ginv.cols_eq]
    omega
  have hq_free : s.grid.free e.1 = true := hinv.cells_free e.1 hq_odd hq_inb
  have hp_free : s.grid.free e.2 = true := hinv.cells_free e.2 hp_odd hp_inb
  have hnbm : e.2 ∈ s.grid.neighbors_cells e.1 := by
    refine mem_neighbors_cells.2 ⟨?_, hp_inb⟩
    rcases hrel with ⟨h1, h2⟩ | ⟨h1, h2⟩
    · exact Or.inr (Or.inl (by rw [Prod.ext_iff]; exact ⟨h1, h2⟩))
    · exact Or.inr (Or.inr (Or.inl (by rw [Prod.ext_iff]; exact ⟨h1, h2⟩)))
  have hq_key : e.1 ∈ s.uf.keys := by
    rw [hinv.uf_keys, List.mem_toFinset]
    exact hq_cell
  have hp_key : e.2 ∈ s.uf.keys := by
    rw [hinv.uf_keys, List.mem_toFinset]
    exact hp_cell
  obtain ⟨ha2, hakeys, harank, hainv, haroots⟩ := find_spec hinv.ufinv e.1
  obtain ⟨hb2, hbkeys, hbrank, hbinv, hbroots⟩ := find_spec hainv e.2
  have hb2' : ((s.uf.find e.1).1.find e.2).2 = s.uf.root e.2 := hb2.trans (haroots e.2)
  have hroots2 : ∀ y, ((s.uf.find e.1).1.find e.2).1.root y = s.uf.root y :=
    fun y => (hbroots y).trans (haroots y)
  have h2keys : ((s.uf.find e.1).1.find e.2).1.keys = s.uf.keys := hbkeys.trans hakeys
  by_cases hr : ((s.uf.find e.1).1.find e.2).2 = (s.uf.find e.1).2
  · -- roots already equal: only the path-compressed union-find changes
    have hres : s.processEdge k = { s with uf := ((s.uf.find e.1).1.find e.2).1 } := by
      unfold KruskalGen.processEdge
      simp only []
      rw [← hedef, if_pos hr]
    have hreach : (passageGraph s.grid).Reachable e.1 e.2 := by
      refine hinv.sound e.1 e.2 hq_key hp_key ?_
      rw [← ha2, ← hb2']
      exact hr.symm
    rw [hres]
    refine ⟨⟨hinv.ginv, hinv.cells_free, h2keys.trans hinv.uf_keys, hbinv, ?_, ?_,
      hinv.edges_perm, hinv.processed⟩, rfl, rfl, fun p q h => h, hreach⟩
    · -- sound
      intro a b ha hb hr'
      have ha' : a ∈ s.uf.keys := by
        rw [← h2keys]
        exact ha
      have hb' : b ∈ s.uf.keys := by
        rw [← h2keys]
        exact hb
      have hr'' : ((s.uf.find e.1).1.find e.2).1.root a =
          ((s.uf.find e.1).1.find e.2).1.root b := hr'
      rw [hroots2 a, hroots2 b] at hr''
      exact hinv.sound a b ha' hb' hr''
    · -- complete
      intro a b ha hb hr'
      have ha' : a ∈ s.uf.keys := by
        rw [← h2keys]
        exact ha
      have hb' : b ∈ s.uf.keys := by
        rw [← h2keys]
        exact hb
      show ((s.uf.find e.1).1.find e.2).1.root a = ((s.uf.find e.1).1.find e.2).1.root b
      rw [hroots2 a, hroots2 b]
      exact hinv.complete a b ha' hb' hr'
  · -- new edge: carve and union
    have hne_roots : s.uf.root e.1 ≠ s.uf.root e.2 := by
      rw [← ha2, ← hb2']
      exact fun hc => hr hc.symm
    have hnr : ¬(passageGraph s.grid).Reachable e.1 e.2 :=
      fun h => hne_roots (hinv.complete e.1 e.2 hq_key hp_key h)
    have hmw : s.grid.free (midpt e.1 e.2) = false := by
      cases hval : s.grid.free (midpt e.1 e.2)
      · rfl
      · exfalso
        obtain ⟨hm1, hm2⟩ := manhattan_midpt hnbm
        have hadj1 : (passageGraph s.grid).Adj e.1 (midpt e.1 e.2) := ⟨hm1, hq_free, hval⟩
        have hadj2 : (passageGraph s.grid).Adj (midpt e.1 e.2) e.2 := ⟨hm2, hval, hp_free⟩
        exact hnr (hadj1.reachable.trans hadj2.reachable)
    have hres : s.processEdge k =
        { s with uf := ((s.uf.find e.1).1.find e.2).1.union e.1 e.2
                 grid := s.grid.carve_passage e.1 e.2 } := by
      unfold KruskalGen.processEdge
      simp only []
      rw [← hedef, if_neg hr]
    have hq_key2 : e.1 ∈ ((s.uf.find e.1).1.find e.2).1.keys := by
      rw [h2keys]
      exact hq_key
    have hp_key2 : e.2 ∈ ((s.uf.find e.1).1.find e.2).1.keys := by
      rw [h2keys]
      exact hp_key
    obtain ⟨hukeys, huinv, huchar⟩ := union_spec hbinv hq_key2 hp_key2
    have hmono : ∀ p q : Coord, (passageGraph s.grid).Reachable p q →
        (passageGraph (s.grid.carve_passage e.1 e.2)).Reachable p q :=
      fun p q h => h.mono (carve_mono hp_free)
    have hreach12 : (passageGraph (s.grid.carve_passage e.1 e.2)).Reachable e.1 e.2 :=
      (carve_reach_ab hnbm hp_free).1
    have hcd1 : (s.grid.carve_passage e.1 e.2).rows = s.grid.rows :=
      (carve_passage_dims s.grid e.1 e.2).1
    have hcd2 : (s.grid.carve_passage e.1 e.2).cols = s.grid.cols :=
      (carve_passage_dims s.grid e.1 e.2).2.1
    have hkey_odd : ∀ a : Coord, a ∈ ((s.uf.find e.1).1.find e.2).1.keys → oddCell a := by
      intro a ha
      rw [h2keys, hinv.uf_keys, List.mem_toFinset, mem_cellList] at ha
      exact ⟨ha.1.2.2, ha.2.2.2⟩
    rw [hres]
    refine ⟨⟨?_, ?_, ?_, huinv, ?_, ?_, hinv.edges_perm, ?_⟩, rfl, rfl, hmono, hreach12⟩
    · -- ginv
      exact gridInv_carve hinv.ginv hnbm hq_odd hq_inb hp_free hmw hnr
    · -- cells_free
      intro p hpo hpb
      have hpb' : s.grid.in_bounds p.1 p.2 = true := by
        rw [← in_bounds_congr hcd1 hcd2]
        exact hpb
      exact (carve_free_iff hp_free p).2 (Or.inl (hinv.cells_free p hpo hpb'))
    · -- uf_keys
      exact hukeys.trans (h2keys.trans hinv.uf_keys)
    · -- sound
      intro a b ha hb hr'
      have ha2' : a ∈ ((s.uf.find e.1).1.find e.2).1.keys := by
        have h0 : a ∈ (((s.uf.find e.1).1.find e.2).1.union e.1 e.2).keys := ha
        rw [hukeys] at h0
        exact h0
      have hb2' : b ∈ ((s.uf.find e.1).1.find e.2).1.keys := by
        have h0 : b ∈ (((s.uf.find e.1).1.find e.2).1.union e.1 e.2).keys := hb
        rw [hukeys] at h0
        exact h0
      have ha' : a ∈ s.uf.keys := by
        rw [← h2keys]
        exact ha2'
      have hb' : b ∈ s.uf.keys := by
        rw [← h2keys]
        exact hb2'
      have hr'' := (huchar a b).1 hr'
      rw [hroots2 a, hroots2 b, hroots2 e.1, hroots2 e.2] at hr''
      rcases hr'' with hc | ⟨hc1, hc2⟩ | ⟨hc1, hc2⟩
      · exact hmono a b (hinv.sound a b ha' hb' hc)
      · exact ((hmono a e.1 (hinv.sound a e.1 ha' hq_key hc1)).trans hreach12).trans
          (hmono e.2 b (hinv.sound e.2 b hp_key hb' hc2.symm))
      · exact ((hmono a e.2 (hinv.sound a e.2 ha' hp_key hc1)).trans hreach12.symm).trans
          (hmono e.1 b (hinv.sound e.1 b hq_key hb' hc2.symm))
    · -- complete
      intro a b ha hb hr'
      have ha2' : a ∈ ((s.uf.find e.1).1.find e.2).1.keys := by
        have h0 : a ∈ (((s.uf.find e.1).1.find e.2).1.union e.1 e.2).keys := ha
        rw [hukeys] at h0
        exact h0
      have hb2' : b ∈ ((s.uf.find e.1).1.find e.2).1.keys := by
        have h0 : b ∈ (((s.uf.find e.1).1.find e.2).1.union e.1 e.2).keys := hb
        rw [hukeys] at h0
        exact h0
      have ha' : a ∈ s.uf.keys := by
        rw [← h2keys]
        exact ha2'
      have hb' : b ∈ s.uf.keys := by
        rw [← h2keys]
        exact hb2'
      have ha_ne : a ≠ midpt e.1 e.2 :=
        fun hc => midpt_not_oddCell hnbm hq_odd (hc ▸ hkey_odd a ha2')
      have hb_ne : b ≠ midpt e.1 e.2 :=
        fun hc => midpt_not_oddCell hnbm hq_odd (hc ▸ hkey_odd b hb2')
      have hdec := carve_reach_decomp hinv.ginv hnbm hq_odd hp_free hmw ha_ne hb_ne hr'
      refine (huchar a b).2 ?_
      rw [hroots2 a, hroots2 b, hroots2 e.1, hroots2 e.2]
      rcases hdec with hc | ⟨hc1, hc2⟩ | ⟨hc1, hc2⟩
      · exact Or.inl (hinv.complete a b ha' hb' hc)
      · exact Or.inr (Or.inl ⟨hinv.complete a e.1 ha' hq_key hc1,
          (hinv.complete e.2 b hp_key hb' hc2).symm⟩)
      · exact Or.inr (Or.inr ⟨hinv.complete a e.2 ha' hp_key hc1,
          (hinv.complete e.1 b hq_key hb' hc2).symm⟩)
    · -- processed
      intro k' hk'
      exact hmono _ _ (hinv.processed k' hk')

/-- Processing a batch of edges preserves the invariant and connects every edge of
the batch. -/
theorem kruskal_processFrom {rows cols : Int} :
    ∀ (cnt k : Nat) (s : KruskalGen), KruskalInv rows cols s →
      k + cnt ≤ s.edges.length →
      KruskalInv rows cols (s.processFrom k cnt) ∧
      (s.processFrom k cnt).edges = s.edges ∧ (s.processFrom k cnt).i = s.i ∧
      (∀ p q : Coord, (passageGraph s.grid).Reachable p q →
        (passageGraph (s.processFrom k cnt).grid).Reachable p q) ∧
      ∀ j : Nat, k ≤ j → j < k + cnt →
        (passageGraph (s.processFrom k cnt).grid).Reachable
          (s.edges.getD j ((0, 0), (0, 0))).1 (s.edges.getD j ((0, 0), (0, 0))).2 := by
  intro cnt
  induction cnt with
  | zero =>
    intro k s h hle
    exact ⟨h, rfl, rfl, fun p q hr => hr, fun j h1 h2 => absurd h2 (by omega)⟩
  | succ cnt ih =>
    intro k s h hle
    have hk : k < s.edges.length := by omega
    obtain ⟨h1, hed, hi, hmono, hreach⟩ := kruskal_processEdge h hk
    have hle' : (k + 1) + cnt ≤ (s.processEdge k).edges.length := by
      rw [hed]
      omega
    obtain ⟨h2, hed2, hi2, hmono2, hnew⟩ := ih (k + 1) (s.processEdge k) h1 hle'
    have hstep : s.processFrom k (cnt + 1) = (s.processEdge k).processFrom (k + 1) cnt :=
      rfl
    rw [hstep]
    refine ⟨h2, hed2.trans hed, hi2.trans hi, fun p q hr => hmono2 p q (hmono p q hr), ?_⟩
    intro j hj1 hj2
    by_cases hjk : j = k
    · rw [hjk]
      exact hmono2 _ _ hreach
    · have := hnew j (by omega) (by omega)
      rw [hed] at this
      exact this

/-- One Kruskal `step()` preserves the invariant. -/
theorem kruskalInv_step {rows cols : Int} {s : KruskalGen}
    (hinv : KruskalInv rows cols s) : KruskalInv rows cols s.step := by
  by_cases hd : s.i ≥ s.edges.length
  · have hres : s.step = s := by
      unfold KruskalGen.step
      rw [if_pos hd]
    rw [hres]
    exact hinv
  · have hres : s.step =
        { s.processFrom s.i (min (s.i + 8) s.edges.length - s.i) with
          i := min (s.i + 8) s.edges.length } := by
      unfold KruskalGen.step
      simp only []
      rw [if_neg hd]
    have hle : s.i + (min (s.i + 8) s.edges.length - s.i) ≤ s.edges.length := by omega
    obtain ⟨h1, hed, hi, hmono, hnew⟩ :=
      kruskal_processFrom (min (s.i + 8) s.edges.length - s.i) s.i s hinv hle
    rw [hres]
    refine ⟨h1.ginv, h1.cells_free, h1.uf_keys, h1.ufinv, h1.sound, h1.complete,
      h1.edges_perm, ?_⟩
    intro k hk
    have hk' : k < min (s.i + 8) s.edges.length := hk
    have hed' : (s.processFrom s.i (min (s.i + 8) s.edges.length - s.i)).edges =
        s.edges := hed
    show (passageGraph (s.processFrom s.i (min (s.i + 8) s.edges.length - s.i)).grid).Reachable
      ((s.processFrom s.i (min (s.i + 8) s.edges.length - s.i)).edges.getD k
        ((0, 0), (0, 0))).1
      ((s.processFrom s.i (min (s.i + 8) s.edges.length - s.i)).edges.getD k
        ((0, 0), (0, 0))).2
    rw [hed']
    by_cases hki : k < s.i
    · exact hmono _ _ (hinv.processed k hki)
    · exact hnew k (by omega) (by omega)

/-- The Kruskal invariant holds at every reachable state. -/
theorem kruskalInv_runN {rows cols : Int} (r : SeededRNG) (hr2 : 2 ≤ rows)
    (hc2 : 2 ≤ cols) (n : Nat) :
    KruskalInv rows cols (KruskalGen.runN (Grid.init rows cols) r n) := by
  induction n with
  | zero => exact kruskalInv_init r hr2 hc2
  | succ n ih => exact kruskalInv_step ih

/-- Once `step()` reports done, every generated lattice edge has connected
endpoints. -/
theorem kruskal_done_edges {rows cols : Int} {s : KruskalGen}
    (hinv : KruskalInv rows cols s) (hdone : s.edges.length ≤ s.i) :
    ∀ e ∈ edgeList (Grid.init rows cols),
      (passageGraph s.grid).Reachable e.1 e.2 := by
  intro e he
  have he' : e ∈ s.edges := hinv.edges_perm.mem_iff.2 he
  obtain ⟨k, hk, hke⟩ := List.getElem_of_mem he'
  have hgd : s.edges.getD k ((0, 0), (0, 0)) = e := by
    rw [List.getD_eq_getElem _ _ hk]
    exact hke
  have := hinv.processed k (by omega)
  rw [hgd] at this
  exact this

/-- Once done, every cell center is reachable from the start cell `(1, 1)`. -/
theorem kruskal_spanning {rows cols : Int} {s : KruskalGen}
    (hinv : KruskalInv rows cols s) (hdone : s.edges.length ≤ s.i) :
    ∀ p : Coord, oddCell p → s.grid.in_bounds p.1 p.2 = true →
      (passageGraph s.grid).Reachable (1, 1) p := by
  suffices H : ∀ m : Nat, ∀ p : Coord, manhattan (1, 1) p = m → oddCell p →
      s.grid.in_bounds p.1 p.2 = true → (passageGraph s.grid).Reachable (1, 1) p by
    intro p ho hb
    exact H (manhattan (1, 1) p) p rfl ho hb
  intro m
  induction m using Nat.strong_induction_on with
  | _ m ih =>
    intro p hm ho hb
    by_cases hp1 : p = (1, 1)
    · rw [hp1]
    · have hb' := in_bounds_iff.1 hb
      rw [hinv.ginv.rows_eq, hinv.ginv.cols_eq] at hb'
      obtain ⟨ho1, ho2⟩ := ho
      -- a closer cell q with (q, p) a generated lattice edge
      have hq : ∃ q : Coord, q ∈ cellList rows cols ∧ oddCell q ∧
          manhattan (1, 1) q < m ∧
          ((p.1 = q.1 ∧ p.2 = q.2 + 2) ∨ (p.1 = q.1 + 2 ∧ p.2 = q.2)) := by
        by_cases hc1 : 1 < p.1
        · refine ⟨(p.1 - 2, p.2), ?_, ⟨by dsimp only; omega, by dsimp only; exact ho2⟩,
            ?_, Or.inr ⟨by dsimp only; omega, rfl⟩⟩
          · rw [mem_cellList]
            dsimp only
            refine ⟨⟨by omega, by omega, by omega⟩, by omega, by omega, by omega⟩
          · unfold manhattan at hm ⊢
            dsimp only
            omega
        · have hc2 : 1 < p.2 := by
            rcases p with ⟨x, y⟩
            dsimp only at ho1 ho2 hc1 hb' ⊢
            have hx : x = 1 := by omega
            have hy : y ≠ 1 := by
              intro hBut
              exact hp1 (by rw [Prod.mk.injEq]; exact ⟨hx, hBut⟩)
            omega
          refine ⟨(p.1, p.2 - 2), ?_, ⟨by dsimp only; exact ho1, by dsimp only; omega⟩,
            ?_, Or.inl ⟨rfl, by dsimp only; omega⟩⟩
          · rw [mem_cellList]
            dsimp only
            refine ⟨⟨by omega, by omega, by omega⟩, by omega, by omega, by omega⟩
          · unfold manhattan at hm ⊢
            dsimp only
            have hx : p.1 = 1 := by omega
            omega
      obtain ⟨q, hq_cell, hq_odd, hq_lt, hq_rel⟩ := hq
      have hq_mem := mem_cellList.1 hq_cell
      have hq_inb : s.grid.in_bounds q.1 q.2 = true := by
        rw [in_bounds_iff, hinv.ginv.rows_eq, hinv.ginv.cols_eq]
        omega
      have hedge : ((q, p) : Coord × Coord) ∈ edgeList (Grid.init rows cols) := by
        refine edgeList_mem_intro ?_ ?_ hq_rel
        · exact hq_cell
        · rw [in_bounds_iff]
          show 0 ≤ p.1 ∧ p.1 < rows ∧ 0 ≤ p.2 ∧ p.2 < cols
          omega
      have hreach_qp : (passageGraph s.grid).Reachable q p := by
        have := kruskal_done_edges hinv hdone (q, p) hedge
        exact this
      exact (ih _ hq_lt q rfl hq_odd hq_inb).trans hreach_qp

/-- Once done, every free coordinate (cell or carved midpoint) is reachable from the
start cell. -/
theorem kruskal_conn_free {rows cols : Int} {s : KruskalGen}
    (hinv : KruskalInv rows cols s) (hdone : s.edges.length ≤ s.i) :
    ∀ p : Coord, s.grid.free p = true → (passageGraph s.grid).Reachable (1, 1) p := by
  intro p hp
  have hinb := hinv.ginv.free_inb p hp
  by_cases ho : oddCell p
  · exact kruskal_spanning hinv hdone p ho hinb
  · have hnee := hinv.ginv.free_not_ee p hp
    rcases p with ⟨x, y⟩
    unfold oddCell at ho
    dsimp only at ho hnee
    have hx_or : (x % 2 = 0 ∧ y % 2 = 1) ∨ (x % 2 = 1 ∧ y % 2 = 0) := by omega
    rcases hx_or with ⟨hx, hy⟩ | ⟨hx, hy⟩
    · obtain ⟨hup, hdn⟩ := hinv.ginv.mid_vert x y hp hx hy
      have hup_inb := hinv.ginv.free_inb _ hup
      have hup_odd : oddCell ((x - 1 : Int), y) := ⟨by dsimp only; omega, hy⟩
      have hadj : (passageGraph s.grid).Adj (x - 1, y) (x, y) := by
        refine ⟨?_, hup, hp⟩
        unfold manhattan
        dsimp only
        omega
      exact (kruskal_spanning hinv hdone (x - 1, y) hup_odd hup_inb).trans hadj.reachable
    · obtain ⟨hlf, hrt⟩ := hinv.ginv.mid_horz x y hp hx hy
      have hlf_inb := hinv.ginv.free_inb _ hlf
      have hlf_odd : oddCell (x, (y - 1 : Int)) := ⟨hx, by dsimp only; omega⟩
      have hadj : (passageGraph s.grid).Adj (x, y - 1) (x, y) := by
        refine ⟨?_, hlf, hp⟩
        unfold manhattan
        dsimp only
        omega
      exact (kruskal_spanning hinv hdone (x, y - 1) hlf_odd hlf_inb).trans hadj.reachable

/-- C1: for every odd grid size at least 3 and every PRNG stream, once a generator
(Prim or Kruskal) reports done, the resulting grid is a perfect maze: every in-bounds
cell center is a passage, and every pair of passage coordinates is joined by exactly
one simple path (the passage graph is connected on its passages and acyclic). -/
theorem c1_perfect_maze (rows cols : Int) (r : SeededRNG) (n : Nat)
    (hro : rows % 2 = 1) (hco : cols % 2 = 1) (hr3 : 3 ≤ rows) (hc3 : 3 ≤ cols) :
    (PrimGen.reportsDone (PrimGen.runN (Grid.init rows cols) r n) →
      (∀ p : Coord, oddCell p →
        (PrimGen.runN (Grid.init rows cols) r n).grid.in_bounds p.1 p.2 = true →
        (PrimGen.runN (Grid.init rows cols) r n).grid.free p = true) ∧
      (∀ a b : Coord,
        (PrimGen.runN (Grid.init rows cols) r n).grid.free a = true →
        (PrimGen.runN (Grid.init rows cols) r n).grid.free b = true →
        ∃ w : (passageGraph (PrimGen.runN (Grid.init rows cols) r n).grid).Path a b,
          ∀ w' : (passageGraph (PrimGen.runN (Grid.init rows cols) r n).grid).Path a b,
            w' = w)) ∧
    (KruskalGen.reportsDone (KruskalGen.runN (Grid.init rows cols) r n) →
      (∀ p : Coord, oddCell p →
        (KruskalGen.runN (Grid.init rows cols) r n).grid.in_bounds p.1 p.2 = true →
        (KruskalGen.runN (Grid.init rows cols) r n).grid.free p = true) ∧
      (∀ a b : Coord,
        (KruskalGen.runN (Grid.init rows cols) r n).grid.free a = true →
        (KruskalGen.runN (Grid.init rows cols) r n).grid.free b = true →
        ∃ w : (passageGraph (KruskalGen.runN (Grid.init rows cols) r n).grid).Path a b,
          ∀ w' : (passageGraph (KruskalGen.runN (Grid.init rows cols) r n).grid).Path a b,
            w' = w)) := by
  constructor
  · intro hdone
    have hinv : PrimInv rows cols (PrimGen.runN (Grid.init rows cols) r n) :=
      primInv_runN r (by omega) (by omega) n
    exact ⟨prim_spanning hinv hdone, perfect_of_inv hinv.ginv hinv.conn⟩
  · intro hdone
    have hinv : KruskalInv rows cols (KruskalGen.runN (Grid.init rows cols) r n) :=
      kruskalInv_runN r (by omega) (by omega) n
    exact ⟨fun p ho hb => hinv.cells_free p ho hb,
      perfect_of_inv hinv.ginv (kruskal_conn_free hinv hdone)⟩

/-- Witness for C1: on the 3×3 grid with seed 0, after one step both generators are
done and the start cell is carved. -/
theorem c1_perfect_maze_witness :
    (3 : Int) % 2 = 1 ∧ (3 : Int) ≤ 3 ∧
      (PrimGen.runN (Grid.init 3 3) (SeededRNG.fromSeed 0) 1).grid.free (1, 1) = true :=
  ⟨by decide, by decide,
    ((c1_perfect_maze 3 3 (SeededRNG.fromSeed 0) 1 (by decide) (by decide) (by decide)
      (by decide)).1
        (by decide : (PrimGen.runN (Grid.init 3 3) (SeededRNG.fromSeed 0) 1).frontier =
          ∅)).1 (1, 1) ⟨by decide, by decide⟩ (by decide)⟩

/-! ### Search theory: neighbors, reachability, pool machine -/

theorem mem_searchNeighbors {g : Grid} {rc n : Coord} :
    n ∈ searchNeighbors g rc ↔
      (n = (rc.1 - 1, rc.2) ∨ n = (rc.1, rc.2 + 1) ∨ n = (rc.1 + 1, rc.2) ∨
        n = (rc.1, rc.2 - 1)) ∧
      (g.in_bounds n.1 n.2 && ! g.is_wall n) = true := by
  unfold searchNeighbors
  rw [List.mem_filter]
  simp only [List.mem_cons, List.not_mem_nil, or_false]

theorem searchNeighbors_free {g : Grid} {rc n : Coord} (h : n ∈ searchNeighbors g rc) :
    n ∈ freeCellsF g := by
  obtain ⟨_, hcond⟩ := mem_searchNeighbors.1 h
  rw [Bool.and_eq_true] at hcond
  obtain ⟨hb, hw⟩ := hcond
  unfold freeCellsF
  rw [Finset.mem_filter, Finset.mem_product, Finset.mem_Icc, Finset.mem_Icc]
  rw [in_bounds_iff] at hb
  have hf : g.free n = true := by
    rw [← bang_is_wall]
    exact hw
  exact ⟨⟨⟨hb.1, by omega⟩, hb.2.2.1, by omega⟩, hf⟩

theorem searchNeighbors_support {g : Grid} {start rc n : Coord}
    (h : n ∈ searchNeighbors g rc) : n ∈ searchSupport g start :=
  Finset.mem_insert_of_mem (searchNeighbors_free h)

theorem searchNeighbors_ne {g : Grid} {rc n : Coord} (h : n ∈ searchNeighbors g rc) :
    n ≠ rc := by
  obtain ⟨hform, _⟩ := mem_searchNeighbors.1 h
  rcases rc with ⟨x, y⟩
  rcases hform with rfl | rfl | rfl | rfl <;>
    (intro hc; rw [Prod.mk.injEq] at hc; dsimp only at hc; omega)

/-- Reachable coordinates stay inside any set containing the start and closed under
search moves (used to certify concrete unreachability). -/
theorem searchReach_subset_closed {g : Grid} {start : Coord} {S : Finset Coord}
    (hstart : start ∈ S) (hclosed : ∀ a ∈ S, ∀ b ∈ searchNeighbors g a, b ∈ S) :
    ∀ x, searchReach g start x → x ∈ S := by
  intro x h
  induction h with
  | refl => exact hstart
  | tail _ hbc ih => exact hclosed _ ih _ hbc

/-- The neighbor-expansion fold of BFS/DFS: frame facts, invariant preservation and
the measure bound. -/
theorem pool_fold_spec (isStack : Bool) (rc : Coord) (g : Grid) (start : Coord) :
    ∀ (l : List Coord) (st : PoolState),
      (∀ n ∈ l, n ∈ searchSupport g start) →
      (∀ n ∈ l, searchReach g start n) →
      st.seen ⊆ searchSupport g start →
      (∀ c ∈ st.pool, searchReach g start c) →
      ((l.foldl (fun st nr => if nr ∈ st.seen then st else
          { st with seen := insert nr st.seen
                    parent := Function.update st.parent nr (some rc)
                    pool := if isStack then nr :: st.pool else st.pool ++ [nr] }) st).grid
        = st.grid ∧
      (l.foldl (fun st nr => if nr ∈ st.seen then st else
          { st with seen := insert nr st.seen
                    parent := Function.update st.parent nr (some rc)
                    pool := if isStack then nr :: st.pool else st.pool ++ [nr] }) st).start
        = st.start ∧
      (l.foldl (fun st nr => if nr ∈ st.seen then st else
          { st with seen := insert nr st.seen
                    parent := Function.update st.parent nr (some rc)
                    pool := if isStack then nr :: st.pool else st.pool ++ [nr] }) st).goal
        = st.goal ∧
      (l.foldl (fun st nr => if nr ∈ st.seen then st else
          { st with seen := insert nr st.seen
                    parent := Function.update st.parent nr (some rc)
                    pool := if isStack then nr :: st.pool else st.pool ++ [nr] }) st).done
        = st.done ∧
      (l.foldl (fun st nr => if nr ∈ st.seen then st else
          { st with seen := insert nr st.seen
                    parent := Function.update st.parent nr (some rc)
                    pool := if isStack then nr :: st.pool else st.pool ++ [nr] }) st).path
        = st.path ∧
      (l.foldl (fun st nr => if nr ∈ st.seen then st else
          { st with seen := insert nr st.seen
                    parent := Function.update st.parent nr (some rc)
                    pool := if isStack then nr :: st.pool else st.pool ++ [nr] }) st).seen
        ⊆ searchSupport g start ∧
      (∀ c ∈ (l.foldl (fun st nr => if nr ∈ st.seen then st else
          { st with seen := insert nr st.seen
                    parent := Function.update st.parent nr (some rc)
                    pool := if isStack then nr :: st.pool else st.pool ++ [nr] }) st).pool,
        searchReach g start c) ∧
      2 * ((searchSupport g start) \ (l.foldl (fun st nr => if nr ∈ st.seen then st else
          { st with seen := insert nr st.seen
                    parent := Function.update st.parent nr (some rc)
                    pool := if isStack then nr :: st.pool else st.pool ++ [nr] }) st).seen).card +
        (l.foldl (fun st nr => if nr ∈ st.seen then st else
          { st with seen := insert nr st.seen
                    parent := Function.update st.parent nr (some rc)
                    pool := if isStack then nr :: st.pool else st.pool ++ [nr] }) st).pool.length ≤
        2 * ((searchSupport g start) \ st.seen).card + st.pool.length) := by
  intro l
  induction l with
  | nil =>
    intro st _ _ hsub hreach
    exact ⟨rfl, rfl, rfl, rfl, rfl, hsub, hreach, Nat.le_refl _⟩
  | cons a tl ih =>
    intro st hmem hre hsub hreach
    rw [List.foldl_cons]
    by_cases hseen : a ∈ st.seen
    · rw [if_pos hseen]
      exact ih st (fun n hn => hmem n (List.mem_cons_of_mem a hn))
        (fun n hn => hre n (List.mem_cons_of_mem a hn)) hsub hreach
    · rw [if_neg hseen]
      have haS : a ∈ searchSupport g start := hmem a (List.mem_cons_self a tl)
      have hsub' : insert a st.seen ⊆ searchSupport g start := by
        intro z hz
        rcases Finset.mem_insert.1 hz with rfl | hz'
        · exact haS
        · exact hsub hz'
      have hreach' : ∀ c ∈ (if isStack then a :: st.pool else st.pool ++ [a]),
          searchReach g start c := by
        intro c hc
        by_cases hst : isStack
        · rw [if_pos hst] at hc
          rcases List.mem_cons.1 hc with hc0 | hc'
          · rw [hc0]
            exact hre a (List.mem_cons_self a tl)
          · exact hreach c hc'
        · rw [if_neg hst] at hc
          rcases List.mem_append.1 hc with hc' | hc'
          · exact hreach c hc'
          · rw [List.mem_singleton.1 hc']
            exact hre a (List.mem_cons_self a tl)
      obtain ⟨h1, h2, h3, h4, h5, h6, h7, h8⟩ := ih
        { st with seen := insert a st.seen
                  parent := Function.update st.parent a (some rc)
                  pool := if isStack then a :: st.pool else st.pool ++ [a] }
        (fun n hn => hmem n (List.mem_cons_of_mem a hn))
        (fun n hn => hre n (List.mem_cons_of_mem a hn)) hsub' hreach'
      refine ⟨h1, h2, h3, h4, h5, h6, h7, ?_⟩
      refine le_trans h8 ?_
      have hmemdiff : a ∈ (searchSupport g start) \ st.seen :=
        Finset.mem_sdiff.2 ⟨haS, hseen⟩
      have hcard : ((searchSupport g start) \ insert a st.seen).card =
          ((searchSupport g start) \ st.seen).card - 1 := by
        rw [Finset.sdiff_insert, Finset.card_erase_of_mem hmemdiff]
      have hpos : 0 < ((searchSupport g start) \ st.seen).card :=
        Finset.card_pos.2 ⟨a, hmemdiff⟩
      have hlen : (if isStack then a :: st.pool else st.pool ++ [a]).length =
          st.pool.length + 1 := by
        by_cases hst : isStack
        · rw [if_pos hst]
          rfl
        · rw [if_neg hst, List.length_append]
          rfl
      dsimp only
      rw [hcard, hlen]
      omega

/-- One BFS/DFS step preserves the invariant, only sets the path if the goal is
search-reachable, and when not yet done either finishes or decreases the measure. -/
theorem poolStep_progress (isStack : Bool) (g : Grid) (start goal : Coord) (t : Nat)
    {s : PoolState} (hinv : PoolInv g start goal s) :
    PoolInv g start goal (PoolState.step isStack t s) ∧
    ((PoolState.step isStack t s).path = s.path ∨ searchReach g start goal) ∧
    (s.done = false →
      ((PoolState.step isStack t s).done = true ∨
        poolMeasure g start (PoolState.step isStack t s) < poolMeasure g start s)) := by
  by_cases hd : (s.done || decide (s.pool = [])) = true
  · have hres : PoolState.step isStack t s =
        (if s.t1 = 0 then { s with done := true, t1 := t } else { s with done := true }) := by
      unfold PoolState.step
      rw [if_pos hd]
    rw [hres]
    by_cases ht1 : s.t1 = 0
    · rw [if_pos ht1]
      exact ⟨⟨hinv.grid_eq, hinv.start_eq, hinv.goal_eq, hinv.seen_sub, hinv.reach⟩,
        Or.inl rfl, fun _ => Or.inl rfl⟩
    · rw [if_neg ht1]
      exact ⟨⟨hinv.grid_eq, hinv.start_eq, hinv.goal_eq, hinv.seen_sub, hinv.reach⟩,
        Or.inl rfl, fun _ => Or.inl rfl⟩
  · rw [Bool.or_eq_true] at hd
    push_neg at hd
    obtain ⟨hd1, hd2⟩ := hd
    have hdone : s.done = false := by
      cases hval : s.done
      · rfl
      · exact absurd hval hd1
    have hpoolne : s.pool ≠ [] := by
      intro hc
      exact hd2 (by rw [hc]; exact decide_eq_true rfl)
    cases hpool : s.pool with
    | nil => exact absurd hpool hpoolne
    | cons rc rest =>
      have hres0 : PoolState.step isStack t s =
          (let s1 := { s with pool := rest, explored := s.explored + 1, dirty := insert rc s.dirty }
          if rc = s.goal then
            { s1 with done := true, path := some (s1.reconstruct rc), t1 := t }
          else
            let nbrs := searchNeighbors s1.grid rc
            (if isStack then nbrs.reverse else nbrs).foldl
              (fun st nr =>
                if nr ∈ st.seen then st
                else
                  { st with seen := insert nr st.seen
                            parent := Function.update st.parent nr (some rc)
                            pool := if isStack then nr :: st.pool else st.pool ++ [nr] })
              s1) := by
        unfold PoolState.step
        rw [if_neg (by rw [hdone, hpool]; exact Bool.false_ne_true ∘ fun h => h)]
        · rw [hpool]
      have hrcmem : rc ∈ s.pool := by
        rw [hpool]
        exact List.mem_cons_self rc rest
      have hrc_reach : searchReach g start rc := hinv.reach rc hrcmem
      have hrest_reach : ∀ c ∈ rest, searchReach g start c := by
        intro c hc
        exact hinv.reach c (by rw [hpool]; exact List.mem_cons_of_mem rc hc)
      by_cases hgoal : rc = s.goal
      · rw [hres0]
        dsimp only
        rw [if_pos hgoal]
        refine ⟨⟨hinv.grid_eq, hinv.start_eq, hinv.goal_eq, hinv.seen_sub, hrest_reach⟩,
          Or.inr ?_, fun _ => Or.inl rfl⟩
        rw [← hinv.goal_eq, ← hgoal]
        exact hrc_reach
      · rw [hres0]
        dsimp only
        rw [if_neg hgoal]
        have hnb_mem : ∀ n ∈ (if isStack then (searchNeighbors s.grid rc).reverse
            else searchNeighbors s.grid rc), n ∈ searchSupport g start := by
          intro n hn
          have hn' : n ∈ searchNeighbors s.grid rc := by
            by_cases hst : isStack
            · rw [if_pos hst] at hn
              exact List.mem_reverse.1 hn
            · rw [if_neg hst] at hn
              exact hn
          rw [hinv.grid_eq] at hn'
          exact searchNeighbors_support hn'
        have hnb_reach : ∀ n ∈ (if isStack then (searchNeighbors s.grid rc).reverse
            else searchNeighbors s.grid rc), searchReach g start n := by
          intro n hn
          have hn' : n ∈ searchNeighbors s.grid rc := by
            by_cases hst : isStack
            · rw [if_pos hst] at hn
              exact List.mem_reverse.1 hn
            · rw [if_neg hst] at hn
              exact hn
          rw [hinv.grid_eq] at hn'
          exact hrc_reach.tail hn'
        obtain ⟨h1, h2, h3, h4, h5, h6, h7, h8⟩ := pool_fold_spec isStack rc g start
          (if isStack then (searchNeighbors s.grid rc).reverse else searchNeighbors s.grid rc)
          { s with pool := rest, explored := s.explored + 1, dirty := insert rc s.dirty }
          hnb_mem hnb_reach hinv.seen_sub hrest_reach
        refine ⟨⟨h1.trans hinv.grid_eq, h2.trans hinv.start_eq, h3.trans hinv.goal_eq,
          h6, h7⟩, Or.inl h5, fun _ => Or.inr ?_⟩
        unfold poolMeasure
        have hslen : s.pool.length = rest.length + 1 := by
          rw [hpool]
          rfl
        have hseen1 : ({ s with pool := rest, explored := s.explored + 1, dirty := insert rc s.dirty } : PoolState).seen = s.seen := rfl
        have hpool1 : ({ s with pool := rest, explored := s.explored + 1, dirty := insert rc s.dirty } : PoolState).pool = rest := rfl
        rw [hseen1, hpool1] at h8
        omega

theorem poolInv_runN (isStack : Bool) (g : Grid) (start goal : Coord) (tb : Nat)
    (ts : Nat → Nat) :
    ∀ n, PoolInv g start goal (PoolState.runN isStack g start goal tb ts n) := by
  intro n
  induction n with
  | zero =>
    refine ⟨rfl, rfl, rfl, ?_, ?_⟩
    · intro z hz
      have hz' : z ∈ ({start} : Finset Coord) := hz
      rw [Finset.mem_singleton] at hz'
      rw [hz']
      exact Finset.mem_insert_self start _
    · intro c hc
      have hc' : c ∈ [start] := hc
      rw [List.mem_singleton] at hc'
      rw [hc']
      exact Relation.ReflTransGen.refl
  | succ n ih => exact (poolStep_progress isStack g start goal (ts n) ih).1

/-- With an unreachable goal the pool machine never records a path. -/
theorem pool_path_none (isStack : Bool) (g : Grid) (start goal : Coord) (tb : Nat)
    (ts : Nat → Nat) (hunreach : ¬searchReach g start goal) :
    ∀ n, (PoolState.runN isStack g start goal tb ts n).path = none := by
  intro n
  induction n with
  | zero => rfl
  | succ n ih =>
    rcases (poolStep_progress isStack g start goal (ts n)
        (poolInv_runN isStack g start goal tb ts n)).2.1 with h | h
    · rw [← ih]
      exact h
    · exact absurd h hunreach

/-- The pool machine always reports done after finitely many steps. -/
theorem pool_terminates (isStack : Bool) (g : Grid) (start goal : Coord) (tb : Nat)
    (ts : Nat → Nat) :
    ∃ n, (PoolState.runN isStack g start goal tb ts n).done = true := by
  have H : ∀ (mB n : Nat),
      poolMeasure g start (PoolState.runN isStack g start goal tb ts n) ≤ mB →
      ∃ k, (PoolState.runN isStack g start goal tb ts (n + k)).done = true := by
    intro mB
    induction mB with
    | zero =>
      intro n hM
      by_cases hdn : (PoolState.runN isStack g start goal tb ts n).done = true
      · exact ⟨0, hdn⟩
      · have hdn' : (PoolState.runN isStack g start goal tb ts n).done = false := by
          cases hval : (PoolState.runN isStack g start goal tb ts n).done
          · rfl
          · exact absurd hval hdn
        rcases (poolStep_progress isStack g start goal (ts n)
            (poolInv_runN isStack g start goal tb ts n)).2.2 hdn' with h | h
        · exact ⟨1, h⟩
        · exact absurd h (by omega)
    | succ mB ih =>
      intro n hM
      by_cases hdn : (PoolState.runN isStack g start goal tb ts n).done = true
      · exact ⟨0, hdn⟩
      · have hdn' : (PoolState.runN isStack g start goal tb ts n).done = false := by
          cases hval : (PoolState.runN isStack g start goal tb ts n).done
          · rfl
          · exact absurd hval hdn
        rcases (poolStep_progress isStack g start goal (ts n)
            (poolInv_runN isStack g start goal tb ts n)).2.2 hdn' with h | h
        · exact ⟨1, h⟩
        · have hstep : PoolState.runN isStack g start goal tb ts (n + 1) =
              PoolState.step isStack (ts n) (PoolState.runN isStack g start goal tb ts n) :=
            rfl
          obtain ⟨k, hk⟩ := ih (n + 1) (by rw [hstep]; omega)
          exact ⟨k + 1, by rw [show n + (k + 1) = (n + 1) + k by omega]; exact hk⟩
  exact H (poolMeasure g start (PoolState.runN isStack g start goal tb ts 0)) 0
    (Nat.le_refl _) |>.imp fun k hk => by rw [Nat.zero_add] at hk; exact hk

/-! ### Search theory: priority-queue machine -/

theorem foldl_min_mem :
    ∀ (xs : List (Nat × Nat × Coord)) (x : Nat × Nat × Coord),
      xs.foldl (fun m e => if entryLt e m then e else m) x ∈ x :: xs := by
  intro xs
  induction xs with
  | nil =>
    intro x
    exact List.mem_cons_self x []
  | cons a t ih =>
    intro x
    rw [List.foldl_cons]
    rcases List.mem_cons.1 (ih (if entryLt a x then a else x)) with h | h
    · rw [h]
      by_cases he : entryLt a x = true
      · rw [if_pos he]
        exact List.mem_cons_of_mem x (List.mem_cons_self a t)
      · rw [if_neg he]
        exact List.mem_cons_self x (a :: t)
    · exact List.mem_cons_of_mem x (List.mem_cons_of_mem a h)

theorem popMin_spec {l : List (Nat × Nat × Coord)} {m : Nat × Nat × Coord}
    {rest : List (Nat × Nat × Coord)} (h : popMin l = some (m, rest)) :
    m ∈ l ∧ rest = l.erase m ∧ rest.length + 1 = l.length := by
  cases l with
  | nil => cases h
  | cons x xs =>
    unfold popMin at h
    simp only [] at h
    have hinj := Option.some.inj h
    rw [Prod.ext_iff] at hinj
    obtain ⟨hm, hrest⟩ := hinj
    dsimp only at hm hrest
    have hmem : m ∈ x :: xs := hm ▸ foldl_min_mem xs x
    refine ⟨hmem, ?_, ?_⟩
    · rw [← hrest, hm]
    · rw [← hrest, hm]
      have hlen := List.length_erase_of_mem hmem
      rw [hlen]
      have hxx : (x :: xs).length = xs.length + 1 := rfl
      omega

theorem popMin_eq_none {l : List (Nat × Nat × Coord)} (h : popMin l = none) : l = [] := by
  cases l with
  | nil => rfl
  | cons x xs =>
    unfold popMin at h
    simp only [] at h
    cases h

/-- The neighbor-expansion fold of Dijkstra/A*. -/
theorem pq_fold_spec (h : Coord → Nat) (g : Grid) (start rc : Coord) (s1 : PQState) :
    ∀ (l : List Coord) (st : PQState),
      (∀ n ∈ l, n ∈ freeCellsF g) →
      (∀ n ∈ l, searchReach g start n) →
      (∀ v : Coord, st.dist v ≠ none → v ∈ searchSupport g start) →
      (∀ (v : Coord) (d : Nat), st.dist v = some d →
        d < ((searchSupport g start).filter fun w => st.dist w ≠ none).card) →
      (∀ e ∈ st.pq, searchReach g start e.2.2) →
      ((s1.dist rc).getD 0 + 1 ≤
        ((searchSupport g start).filter fun w => st.dist w ≠ none).card) →
      PQFoldOut g start st
        (l.foldl (fun st nr =>
          let nd := ((s1.dist rc).getD 0) + 1
          if (match st.dist nr with
              | none => true
              | some m => decide (nd < m)) then
            { st with dist := Function.update st.dist nr (some nd)
                      parent := Function.update st.parent nr (some rc)
                      tie := st.tie + 1
                      pq := st.pq ++ [(nd + h nr, st.tie + 1, nr)] }
          else st) st) := by
  intro l
  induction l with
  | nil =>
    intro st _ _ hsub hbound hreach _
    exact ⟨rfl, rfl, rfl, rfl, rfl, rfl, hsub, hbound, hreach, Nat.le_refl _⟩
  | cons a tl ih =>
    intro st hmem hre hsub hbound hreach hnd
    rw [List.foldl_cons]
    simp only []
    by_cases hcond : (match st.dist a with
        | none => true
        | some m => decide ((s1.dist rc).getD 0 + 1 < m)) = true
    · rw [if_pos hcond]
      -- a push happens
      have haS : a ∈ searchSupport g start :=
        Finset.mem_insert_of_mem (hmem a (List.mem_cons_self a tl))
      -- the updated distance strictly improves at a
      have himp : ∀ m : Nat, st.dist a = some m → (s1.dist rc).getD 0 + 1 < m := by
        intro m hm
        rw [hm] at hcond
        exact of_decide_eq_true hcond
      -- new defined-support set
      have hsupp' : ((searchSupport g start).filter fun w =>
            Function.update st.dist a (some ((s1.dist rc).getD 0 + 1)) w ≠ none) =
          insert a ((searchSupport g start).filter fun w => st.dist w ≠ none) := by
        ext z
        rw [Finset.mem_insert, Finset.mem_filter, Finset.mem_filter]
        by_cases hz : z = a
        · rw [hz, Function.update_same]
          constructor
          · intro _
            exact Or.inl rfl
          · intro _
            exact ⟨haS, by intro hc; cases hc⟩
        · rw [Function.update_noteq hz]
          constructor
          · rintro ⟨h1, h2⟩
            exact Or.inr ⟨h1, h2⟩
          · rintro (hc | ⟨h1, h2⟩)
            · exact absurd hc hz
            · exact ⟨h1, h2⟩
      have hsupp_sub : ((searchSupport g start).filter fun w => st.dist w ≠ none) ⊆
          insert a ((searchSupport g start).filter fun w => st.dist w ≠ none) :=
        Finset.subset_insert a _
      have hcard_le : ((searchSupport g start).filter fun w => st.dist w ≠ none).card ≤
          (insert a ((searchSupport g start).filter fun w => st.dist w ≠ none)).card :=
        Finset.card_le_card hsupp_sub
      -- invariant hypotheses at the pushed state
      have hsub' : ∀ v : Coord,
          Function.update st.dist a (some ((s1.dist rc).getD 0 + 1)) v ≠ none →
          v ∈ searchSupport g start := by
        intro v hv
        by_cases hva : v = a
        · rw [hva]
          exact haS
        · rw [Function.update_noteq hva] at hv
          exact hsub v hv
      have hbound' : ∀ (v : Coord) (d : Nat),
          Function.update st.dist a (some ((s1.dist rc).getD 0 + 1)) v = some d →
          d < ((searchSupport g start).filter fun w =>
            Function.update st.dist a (some ((s1.dist rc).getD 0 + 1)) w ≠ none).card := by
        intro v d hv
        rw [hsupp']
        by_cases hva : v = a
        · rw [hva, Function.update_same] at hv
          have hd : d = (s1.dist rc).getD 0 + 1 := (Option.some.inj hv).symm
          cases hda : st.dist a with
          | none =>
            have hnotmem : a ∉ ((searchSupport g start).filter fun w => st.dist w ≠ none) := by
              rw [Finset.mem_filter]
              rintro ⟨_, hne⟩
              exact hne hda
            rw [Finset.card_insert_of_not_mem hnotmem]
            omega
          | some m =>
            have hlt := himp m hda
            have hmem' : a ∈ ((searchSupport g start).filter fun w => st.dist w ≠ none) := by
              rw [Finset.mem_filter]
              exact ⟨haS, by rw [hda]; intro hc; cases hc⟩
            have hins : insert a ((searchSupport g start).filter fun w => st.dist w ≠ none) =
                ((searchSupport g start).filter fun w => st.dist w ≠ none) :=
              Finset.insert_eq_self.2 hmem'
            rw [hins]
            have := hbound a m hda
            omega
        · rw [Function.update_noteq hva] at hv
          have := hbound v d hv
          omega
      have hreach' : ∀ e ∈ st.pq ++ [((s1.dist rc).getD 0 + 1 + h a, st.tie + 1, a)],
          searchReach g start e.2.2 := by
        intro e he
        rcases List.mem_append.1 he with he' | he'
        · exact hreach e he'
        · rw [List.mem_singleton.1 he']
          exact hre a (List.mem_cons_self a tl)
      have hnd' : (s1.dist rc).getD 0 + 1 ≤
          ((searchSupport g start).filter fun w =>
            Function.update st.dist a (some ((s1.dist rc).getD 0 + 1)) w ≠ none).card := by
        rw [hsupp']
        omega
      have hout := ih
        { st with dist := Function.update st.dist a (some ((s1.dist rc).getD 0 + 1))
                  parent := Function.update st.parent a (some rc)
                  tie := st.tie + 1
                  pq := st.pq ++ [((s1.dist rc).getD 0 + 1 + h a, st.tie + 1, a)] }
        (fun n hn => hmem n (List.mem_cons_of_mem a hn))
        (fun n hn => hre n (List.mem_cons_of_mem a hn)) hsub' hbound' hreach' hnd'
      -- measure decrease of the single push
      have hcomp : (fun v : Coord =>
          ((Function.update st.dist a (some ((s1.dist rc).getD 0 + 1))) v).getD
            ((searchSupport g start).card + 1)) =
          Function.update (fun v => (st.dist v).getD ((searchSupport g start).card + 1)) a
            ((s1.dist rc).getD 0 + 1) := by
        funext v
        by_cases hva : v = a
        · rw [hva, Function.update_same, Function.update_same]
          rfl
        · rw [Function.update_noteq hva, Function.update_noteq hva]
      have hsum' : (searchSupport g start).sum
          (fun v => ((Function.update st.dist a (some ((s1.dist rc).getD 0 + 1))) v).getD
            ((searchSupport g start).card + 1)) =
          (s1.dist rc).getD 0 + 1 + ((searchSupport g start).erase a).sum
            (fun v => (st.dist v).getD ((searchSupport g start).card + 1)) := by
        rw [hcomp, Finset.sum_update_of_mem haS, Finset.sdiff_singleton_eq_erase]
      have hsum : (searchSupport g start).sum
          (fun v => (st.dist v).getD ((searchSupport g start).card + 1)) =
          (st.dist a).getD ((searchSupport g start).card + 1) +
            ((searchSupport g start).erase a).sum
              (fun v => (st.dist v).getD ((searchSupport g start).card + 1)) :=
        (Finset.add_sum_erase _ _ haS).symm
      have hstrict : (s1.dist rc).getD 0 + 1 <
          (st.dist a).getD ((searchSupport g start).card + 1) := by
        cases hda : st.dist a with
        | none =>
          rw [Option.getD_none]
          have hsuppS : ((searchSupport g start).filter fun w => st.dist w ≠ none) ⊆
              searchSupport g start := Finset.filter_subset _ _
          have := Finset.card_le_card hsuppS
          omega
        | some m =>
          rw [Option.getD_some]
          have := himp m hda
          omega
      have hmeas : 2 * (searchSupport g start).sum
          (fun v => ((Function.update st.dist a (some ((s1.dist rc).getD 0 + 1))) v).getD
            ((searchSupport g start).card + 1)) +
          (st.pq ++ [((s1.dist rc).getD 0 + 1 + h a, st.tie + 1, a)]).length ≤
          2 * (searchSupport g start).sum
            (fun v => (st.dist v).getD ((searchSupport g start).card + 1)) + st.pq.length := by
        rw [hsum', hsum, List.length_append]
        have hlen1 : ([((s1.dist rc).getD 0 + 1 + h a, st.tie + 1, a)] :
            List (Nat × Nat × Coord)).length = 1 := rfl
        rw [hlen1]
        omega
      exact ⟨hout.grid_eq.trans rfl, hout.start_eq.trans rfl, hout.goal_eq.trans rfl,
        hout.done_eq.trans rfl, hout.path_eq.trans rfl, hout.t1_eq.trans rfl,
        hout.dist_sub, hout.dist_bound, hout.pq_reach,
        le_trans hout.measure_le hmeas⟩
    · rw [if_neg hcond]
      exact ih st (fun n hn => hmem n (List.mem_cons_of_mem a hn))
        (fun n hn => hre n (List.mem_cons_of_mem a hn)) hsub hbound hreach hnd

/-- One Dijkstra/A* step preserves the invariant, only sets the path if the goal is
search-reachable, and when not yet done either finishes or decreases the measure. -/
theorem pqStep_progress (h : Coord → Nat) (g : Grid) (start goal : Coord) (t : Nat)
    {s : PQState} (hinv : PQInv g start goal s) :
    PQInv g start goal (PQState.step h t s) ∧
    ((PQState.step h t s).path = s.path ∨ searchReach g start goal) ∧
    (s.done = false →
      ((PQState.step h t s).done = true ∨
        pqMeasure g start (PQState.step h t s) < pqMeasure g start s)) := by
  by_cases hd : (s.done || decide (s.pq = [])) = true
  · have hres : PQState.step h t s =
        (if s.t1 = 0 then { s with done := true, t1 := t } else { s with done := true }) := by
      unfold PQState.step
      rw [if_pos hd]
    rw [hres]
    by_cases ht1 : s.t1 = 0
    · rw [if_pos ht1]
      exact ⟨⟨hinv.grid_eq, hinv.start_eq, hinv.goal_eq, hinv.dist_sub, hinv.dist_bound,
        hinv.pq_reach⟩, Or.inl rfl, fun _ => Or.inl rfl⟩
    · rw [if_neg ht1]
      exact ⟨⟨hinv.grid_eq, hinv.start_eq, hinv.goal_eq, hinv.dist_sub, hinv.dist_bound,
        hinv.pq_reach⟩, Or.inl rfl, fun _ => Or.inl rfl⟩
  · rw [Bool.or_eq_true] at hd
    push_neg at hd
    obtain ⟨hd1, hd2⟩ := hd
    have hdone : s.done = false := by
      cases hval : s.done
      · rfl
      · exact absurd hval hd1
    have hpqne : s.pq ≠ [] := by
      intro hc
      exact hd2 (by rw [hc]; exact decide_eq_true rfl)
    cases hpop : popMin s.pq with
    | none => exact absurd (popMin_eq_none hpop) hpqne
    | some pr =>
      obtain ⟨⟨d, tie0, rc⟩, rest⟩ := pr
      obtain ⟨hmem_pq, hrest_eq, hrest_len⟩ := popMin_spec hpop
      have hrest_sub : ∀ e ∈ rest, e ∈ s.pq := by
        intro e he
        rw [hrest_eq] at he
        exact List.mem_of_mem_erase he
      have hrest_reach : ∀ e ∈ rest, searchReach g start e.2.2 :=
        fun e he => hinv.pq_reach e (hrest_sub e he)
      have hrc_reach : searchReach g start rc := hinv.pq_reach (d, tie0, rc) hmem_pq
      set s1 : PQState := { s with pq := rest, explored := s.explored + 1, dirty := insert rc s.dirty } with hs1
      have hres0 : PQState.step h t s =
          (if PQState.keyOf h s rc ≠ some d then { s with pq := rest }
          else if rc = s.goal then
            { s1 with done := true, path := some (s1.reconstruct rc), t1 := t }
          else
            (searchNeighbors s1.grid rc).foldl
              (fun st nr =>
                let nd := ((s1.dist rc).getD 0) + 1
                if (match st.dist nr with
                    | none => true
                    | some m => decide (nd < m)) then
                  { st with dist := Function.update st.dist nr (some nd)
                            parent := Function.update st.parent nr (some rc)
                            tie := st.tie + 1
                            pq := st.pq ++ [(nd + h nr, st.tie + 1, nr)] }
                else st)
              s1) := by
        unfold PQState.step
        rw [if_neg (by rw [hdone]; intro hc; rw [Bool.false_or] at hc; exact hd2 hc), hpop]
      have hs1dist : s1.dist = s.dist := rfl
      have hs1pq : s1.pq = rest := rfl
      have hs1grid : s1.grid = s.grid := rfl
      by_cases hstale : PQState.keyOf h s rc ≠ some d
      · rw [hres0, if_pos hstale]
        refine ⟨⟨hinv.grid_eq, hinv.start_eq, hinv.goal_eq, hinv.dist_sub, hinv.dist_bound,
          hrest_reach⟩, Or.inl rfl, fun _ => Or.inr ?_⟩
        unfold pqMeasure
        dsimp only
        omega
      · rw [hres0, if_neg hstale]
        by_cases hgoal : rc = s.goal
        · rw [if_pos hgoal]
          refine ⟨⟨hinv.grid_eq, hinv.start_eq, hinv.goal_eq, hinv.dist_sub, hinv.dist_bound,
            ?_⟩, Or.inr ?_, fun _ => Or.inl rfl⟩
          · intro e he
            exact hrest_reach e he
          · rw [← hinv.goal_eq, ← hgoal]
            exact hrc_reach
        · rw [if_neg hgoal]
          push_neg at hstale
          have hdrc : ∃ drc : Nat, s.dist rc = some drc := by
            unfold PQState.keyOf at hstale
            cases hval : s.dist rc
            · rw [hval] at hstale
              cases hstale
            · exact ⟨_, rfl⟩
          obtain ⟨drc, hdrc⟩ := hdrc
          have hnb_mem : ∀ n ∈ searchNeighbors s1.grid rc, n ∈ freeCellsF g := by
            intro n hn
            rw [hs1grid, hinv.grid_eq] at hn
            exact searchNeighbors_free hn
          have hnb_reach : ∀ n ∈ searchNeighbors s1.grid rc, searchReach g start n := by
            intro n hn
            rw [hs1grid, hinv.grid_eq] at hn
            exact hrc_reach.tail hn
          have hsub1 : ∀ v : Coord, s1.dist v ≠ none → v ∈ searchSupport g start := by
            intro v hv
            rw [hs1dist] at hv
            exact hinv.dist_sub v hv
          have hbound1 : ∀ (v : Coord) (dd : Nat), s1.dist v = some dd →
              dd < ((searchSupport g start).filter fun w => s1.dist w ≠ none).card := by
            intro v dd hv
            rw [hs1dist] at hv ⊢
            exact hinv.dist_bound v dd hv
          have hreach1 : ∀ e ∈ s1.pq, searchReach g start e.2.2 := by
            intro e he
            rw [hs1pq] at he
            exact hrest_reach e he
          have hnd : (s1.dist rc).getD 0 + 1 ≤
              ((searchSupport g start).filter fun w => s1.dist w ≠ none).card := by
            have hb := hinv.dist_bound rc drc hdrc
            rw [hs1dist, hdrc, Option.getD_some]
            omega
          have hout := pq_fold_spec h g start rc s1 (searchNeighbors s1.grid rc) s1
            hnb_mem hnb_reach hsub1 hbound1 hreach1 hnd
          have hmea := hout.measure_le
          rw [hs1dist, hs1pq] at hmea
          refine ⟨⟨hout.grid_eq.trans (hs1grid.trans hinv.grid_eq),
            hout.start_eq.trans hinv.start_eq, hout.goal_eq.trans hinv.goal_eq,
            hout.dist_sub, hout.dist_bound, hout.pq_reach⟩,
            Or.inl (hout.path_eq.trans rfl), fun _ => Or.inr ?_⟩
          unfold pqMeasure
          rw [hs1dist]
          omega

theorem pqInv_runN (h : Coord → Nat) (g : Grid) (start goal : Coord) (tb : Nat)
    (ts : Nat → Nat) :
    ∀ n, PQInv g start goal (PQState.runN h g start goal tb ts n) := by
  intro n
  induction n with
  | zero =>
    refine ⟨rfl, rfl, rfl, ?_, ?_, ?_⟩
    · intro v hv
      by_cases hvs : v = start
      · rw [hvs]
        exact Finset.mem_insert_self start _
      · exfalso
        have hv' : Function.update (fun _ : Coord => (none : Option Nat)) start
            (some 0) v ≠ none := hv
        rw [Function.update_noteq hvs] at hv'
        exact hv' rfl
    · intro v dd hv
      have hv' : Function.update (fun _ : Coord => (none : Option Nat)) start
          (some 0) v = some dd := hv
      by_cases hvs : v = start
      · rw [hvs, Function.update_same] at hv'
        have hd0 : dd = 0 := (Option.some.inj hv').symm
        have hsmem : start ∈ (searchSupport g start).filter fun w =>
            (PQState.runN h g start goal tb ts 0).dist w ≠ none := by
          rw [Finset.mem_filter]
          refine ⟨Finset.mem_insert_self start _, ?_⟩
          have hst : (PQState.runN h g start goal tb ts 0).dist start =
              Function.update (fun _ : Coord => (none : Option Nat)) start (some 0)
                start := rfl
          rw [hst, Function.update_same]
          intro hc
          cases hc
        have := Finset.card_pos.2 ⟨start, hsmem⟩
        omega
      · rw [Function.update_noteq hvs] at hv'
        cases hv'
    · intro e he
      have he' : e ∈ [(h start, 0, start)] := he
      rw [List.mem_singleton] at he'
      rw [he']
      exact Relation.ReflTransGen.refl
  | succ n ih => exact (pqStep_progress h g start goal (ts n) ih).1

/-- With an unreachable goal the priority-queue machine never records a path. -/
theorem pq_path_none (h : Coord → Nat) (g : Grid) (start goal : Coord) (tb : Nat)
    (ts : Nat → Nat) (hunreach : ¬searchReach g start goal) :
    ∀ n, (PQState.runN h g start goal tb ts n).path = none := by
  intro n
  induction n with
  | zero => rfl
  | succ n ih =>
    rcases (pqStep_progress h g start goal (ts n)
        (pqInv_runN h g start goal tb ts n)).2.1 with hp | hp
    · rw [← ih]
      exact hp
    · exact absurd hp hunreach

/-- The priority-queue machine always reports done after finitely many steps. -/
theorem pq_terminates (h : Coord → Nat) (g : Grid) (start goal : Coord) (tb : Nat)
    (ts : Nat → Nat) :
    ∃ n, (PQState.runN h g start goal tb ts n).done = true := by
  have H : ∀ (mB n : Nat),
      pqMeasure g start (PQState.runN h g start goal tb ts n) ≤ mB →
      ∃ k, (PQState.runN h g start goal tb ts (n + k)).done = true := by
    intro mB
    induction mB with
    | zero =>
      intro n hM
      by_cases hdn : (PQState.runN h g start goal tb ts n).done = true
      · exact ⟨0, hdn⟩
      · have hdn' : (PQState.runN h g start goal tb ts n).done = false := by
          cases hval : (PQState.runN h g start goal tb ts n).done
          · rfl
          · exact absurd hval hdn
        rcases (pqStep_progress h g start goal (ts n)
            (pqInv_runN h g start goal tb ts n)).2.2 hdn' with hp | hp
        · exact ⟨1, hp⟩
        · exact absurd hp (by omega)
    | succ mB ih =>
      intro n hM
      by_cases hdn : (PQState.runN h g start goal tb ts n).done = true
      · exact ⟨0, hdn⟩
      · have hdn' : (PQState.runN h g start goal tb ts n).done = false := by
          cases hval : (PQState.runN h g start goal tb ts n).done
          · rfl
          · exact absurd hval hdn
        rcases (pqStep_progress h g start goal (ts n)
            (pqInv_runN h g start goal tb ts n)).2.2 hdn' with hp | hp
        · exact ⟨1, hp⟩
        · have hstep : PQState.runN h g start goal tb ts (n + 1) =
              PQState.step h (ts n) (PQState.runN h g start goal tb ts n) := rfl
          obtain ⟨k, hk⟩ := ih (n + 1) (by rw [hstep]; omega)
          exact ⟨k + 1, by rw [show n + (k + 1) = (n + 1) + k by omega]; exact hk⟩
  exact H (pqMeasure g start (PQState.runN h g start goal tb ts 0)) 0
    (Nat.le_refl _) |>.imp fun k hk => by rw [Nat.zero_add] at hk; exact hk

/-- C5 counterexample: on a grid with the goal sealed off, BFS run to completion
is done with no path, but `get_metrics()["path_len"]` is the empty string, not 0 as
the spec asserts. -/
theorem c5_counterexample :
    ¬searchReach disconnectedGrid (1, 1) (3, 3) ∧
    (BFS.runN disconnectedGrid (1, 1) (3, 3) 0 (fun _ => 1) 2).done = true ∧
    (BFS.runN disconnectedGrid (1, 1) (3, 3) 0 (fun _ => 1) 2).path = none ∧
    (PoolState.get_metrics 3
      (BFS.runN disconnectedGrid (1, 1) (3, 3) 0 (fun _ => 1) 2)).path_len =
      PyVal.emptyStr ∧
    PyVal.emptyStr ≠ PyVal.int 0 := by
  refine ⟨?_, by decide, by decide, by decide, by decide⟩
  intro hreach
  exact absurd (searchReach_subset_closed (S := ({(1, 1)} : Finset Coord)) (by decide)
    (by decide) (3, 3) hreach) (by decide)

/-- C5 (amended): on every grid whose goal is not reachable by search moves from the
start, each of the four algorithms terminates (done becomes true), with no path
recorded and a `path_len` metric equal to the empty string — not 0. -/
theorem c5_unreachable_amended (g : Grid) (start goal : Coord) (tb : Nat)
    (ts : Nat → Nat) (hunreach : ¬searchReach g start goal) :
    ((∃ n, (BFS.runN g start goal tb ts n).done = true) ∧
      ∀ n t, (BFS.runN g start goal tb ts n).done = true →
        (BFS.runN g start goal tb ts n).path = none ∧
        (PoolState.get_metrics t (BFS.runN g start goal tb ts n)).path_len =
          PyVal.emptyStr) ∧
    ((∃ n, (DFS.runN g start goal tb ts n).done = true) ∧
      ∀ n t, (DFS.runN g start goal tb ts n).done = true →
        (DFS.runN g start goal tb ts n).path = none ∧
        (PoolState.get_metrics t (DFS.runN g start goal tb ts n)).path_len =
          PyVal.emptyStr) ∧
    ((∃ n, (Dijkstra.runN g start goal tb ts n).done = true) ∧
      ∀ n t, (Dijkstra.runN g start goal tb ts n).done = true →
        (Dijkstra.runN g start goal tb ts n).path = none ∧
        (PQState.get_metrics t (Dijkstra.runN g start goal tb ts n)).path_len =
          PyVal.emptyStr) ∧
    ((∃ n, (AStar.runN g start goal tb ts n).done = true) ∧
      ∀ n t, (AStar.runN g start goal tb ts n).done = true →
        (AStar.runN g start goal tb ts n).path = none ∧
        (PQState.get_metrics t (AStar.runN g start goal tb ts n)).path_len =
          PyVal.emptyStr) := by
  refine ⟨⟨pool_terminates false g start goal tb ts, ?_⟩,
    ⟨pool_terminates true g start goal tb ts, ?_⟩,
    ⟨pq_terminates (fun _ => 0) g start goal tb ts, ?_⟩,
    ⟨pq_terminates (fun rc => manhattan rc goal) g start goal tb ts, ?_⟩⟩
  · intro n t _
    have hpath : (BFS.runN g start goal tb ts n).path = none :=
      pool_path_none false g start goal tb ts hunreach n
    refine ⟨hpath, ?_⟩
    unfold PoolState.get_metrics
    dsimp only
    rw [hpath]
  · intro n t _
    have hpath : (DFS.runN g start goal tb ts n).path = none :=
      pool_path_none true g start goal tb ts hunreach n
    refine ⟨hpath, ?_⟩
    unfold PoolState.get_metrics
    dsimp only
    rw [hpath]
  · intro n t _
    have hpath : (Dijkstra.runN g start goal tb ts n).path = none :=
      pq_path_none (fun _ => 0) g start goal tb ts hunreach n
    refine ⟨hpath, ?_⟩
    unfold PQState.get_metrics
    dsimp only
    rw [hpath]
  · intro n t _
    have hpath : (AStar.runN g start goal tb ts n).path = none :=
      pq_path_none (fun rc => manhattan rc goal) g start goal tb ts hunreach n
    refine ⟨hpath, ?_⟩
    unfold PQState.get_metrics
    dsimp only
    rw [hpath]

/-- Witness for the amended C5 on the concrete sealed-off grid. -/
theorem c5_unreachable_amended_witness :
    (¬searchReach disconnectedGrid (1, 1) (3, 3)) ∧
    (∃ n, (BFS.runN disconnectedGrid (1, 1) (3, 3) 0 (fun _ => 1) n).done = true) := by
  have hunreach : ¬searchReach disconnectedGrid (1, 1) (3, 3) := by
    intro hreach
    exact absurd (searchReach_subset_closed (S := ({(1, 1)} : Finset Coord)) (by decide)
      (by decide) (3, 3) hreach) (by decide)
  exact ⟨hunreach,
    (c5_unreachable_amended disconnectedGrid (1, 1) (3, 3) 0 (fun _ => 1) hunreach).1.1⟩

/-! ### Search path soundness: parent chains, walks, uniqueness on trees -/

theorem searchNeighbors_free_eq {g : Grid} {rc n : Coord}
    (h : n ∈ searchNeighbors g rc) : g.free n = true := by
  obtain ⟨_, hcond⟩ := mem_searchNeighbors.1 h
  rw [Bool.and_eq_true] at hcond
  rw [← bang_is_wall]
  exact hcond.2

/-- A search move from a free coordinate is an edge of the passage graph. -/
theorem searchNeighbors_adj {g : Grid} {a n : Coord} (ha : g.free a = true)
    (h : n ∈ searchNeighbors g a) : (passageGraph g).Adj a n := by
  refine passageGraph_adj.2 ⟨?_, ha, searchNeighbors_free_eq h⟩
  obtain ⟨hform, _⟩ := mem_searchNeighbors.1 h
  rcases a with ⟨x, y⟩
  rcases hform with rfl | rfl | rfl | rfl <;> (unfold manhattan; dsimp only; omega)

/-- On a grid satisfying the geometric invariant, passage-graph reachability
implies search-move reachability (free cells are in bounds and non-walls). -/
theorem reachable_searchReach {rows cols : Int} {g : Grid} (hg : GridInv rows cols g)
    {a b : Coord} (h : (passageGraph g).Reachable a b) : searchReach g a b := by
  obtain ⟨w⟩ := h
  induction w with
  | nil => exact Relation.ReflTransGen.refl
  | cons hadj _ ih =>
    refine Relation.ReflTransGen.head ?_ ih
    obtain ⟨hm, hfa, hfc⟩ := passageGraph_adj.1 hadj
    refine mem_searchNeighbors.2 ⟨?_, ?_⟩
    · rcases manhattan_one_iff.1 hm with h1 | h1 | h1 | h1
      · exact Or.inl h1
      · exact Or.inr (Or.inr (Or.inl h1))
      · exact Or.inr (Or.inr (Or.inr h1))
      · exact Or.inr (Or.inl h1)
    · rw [Bool.and_eq_true]
      refine ⟨hg.free_inb _ hfc, ?_⟩
      rw [bang_is_wall]
      exact hfc

/-- Full specification of the parent-chain walk `chainFrom`: under a strictly
decreasing measure on parent links, the chain starts at the queried node, ends at
`start`, repeats no node, and follows recorded parent links, each one a search
move. -/
theorem chainFrom_spec (g : Grid) (parent : Coord → Option Coord) (start : Coord)
    (P : Coord → Prop) (f : Coord → Nat)
    (hedge : ∀ x p : Coord, P x → parent x = some p →
      P p ∧ f p < f x ∧ x ∈ searchNeighbors g p)
    (hterm : ∀ x : Coord, P x → x ≠ start → parent x ≠ none) :
    ∀ (n : Nat) (e : Coord), P e → f e < n →
      (chainFrom parent start n e).head? = some e ∧
      (chainFrom parent start n e).getLast? = some start ∧
      (chainFrom parent start n e).Nodup ∧
      List.Chain' (fun a b => a ∈ searchNeighbors g b) (chainFrom parent start n e) ∧
      ∀ x ∈ chainFrom parent start n e, f x ≤ f e := by
  intro n
  induction n with
  | zero =>
    intro e _ hf
    exact absurd hf (Nat.not_lt_zero _)
  | succ n ih =>
    intro e hP hf
    by_cases he : e = start
    · have hc : chainFrom parent start (n + 1) e = [e] := by
        unfold chainFrom
        rw [if_pos he]
      rw [hc]
      refine ⟨rfl, ?_, List.nodup_singleton e, List.chain'_singleton e, ?_⟩
      · rw [he]
        rfl
      · intro x hx
        rw [List.mem_singleton.1 hx]
    · cases hpar : parent e with
      | none => exact absurd hpar (hterm e hP he)
      | some p =>
        have hstep : chainFrom parent start (n + 1) e = e :: chainFrom parent start n p := by
          show (if e = start then [e]
            else match parent e with
              | none => [e]
              | some q => e :: chainFrom parent start n q) =
            e :: chainFrom parent start n p
          rw [if_neg he, hpar]
        obtain ⟨hPp, hfp, hmem⟩ := hedge e p hP hpar
        obtain ⟨ih1, ih2, ih3, ih4, ih5⟩ := ih p hPp (by omega)
        cases hcl : chainFrom parent start n p with
        | nil =>
          rw [hcl] at ih1
          cases ih1
        | cons c tcl =>
          rw [hcl] at ih1 ih2 ih3 ih4 ih5
          have hcp : c = p := by
            have h2 : some c = some p := ih1
            exact Option.some.inj h2
          rw [hstep, hcl]
          refine ⟨rfl, ?_, ?_, ?_, ?_⟩
          · rw [List.getLast?_cons_cons]
            exact ih2
          · rw [List.nodup_cons]
            refine ⟨?_, ih3⟩
            intro hmem_e
            have hle := ih5 e hmem_e
            omega
          · rw [List.chain'_cons]
            refine ⟨?_, ih4⟩
            rw [hcp]
            exact hmem
          · intro x hx
            rcases List.mem_cons.1 hx with hx0 | hx'
            · rw [hx0]
            · have hle := ih5 x hx'
              omega

/-- A neighbor chain starting at a free coordinate lifts to a walk in the passage
graph whose support is exactly the chain. -/
theorem walk_of_chain {g : Grid} :
    ∀ (l : List Coord) (a b : Coord), g.free a = true →
      List.Chain (fun x y => y ∈ searchNeighbors g x) a l →
      (a :: l).getLast? = some b →
      ∃ w : (passageGraph g).Walk a b, w.support = a :: l := by
  intro l
  induction l with
  | nil =>
    intro a b _ _ hlast
    have hab : a = b := by
      have h2 : some a = some b := hlast
      exact Option.some.inj h2
    subst hab
    exact ⟨SimpleGraph.Walk.nil, SimpleGraph.Walk.support_nil⟩
  | cons c t ih =>
    intro a b ha hch hlast
    cases hch with
    | cons hac hct =>
      have hcfree : g.free c = true := searchNeighbors_free_eq hac
      rw [List.getLast?_cons_cons] at hlast
      obtain ⟨w, hw⟩ := ih c b hcfree hct hlast
      exact ⟨SimpleGraph.Walk.cons (searchNeighbors_adj ha hac) w,
        by rw [SimpleGraph.Walk.support_cons, hw]⟩

/-- On an acyclic passage graph there is at most one valid simple recorded path
between a fixed free start and a fixed goal. -/
theorem listPath_unique {g : Grid} {start goal : Coord}
    (hacy : (passageGraph g).IsAcyclic) (hst : g.free start = true) :
    ∀ {l1 l2 : List Coord}, listPathOK g start goal l1 → listPathOK g start goal l2 →
      l1 = l2 := by
  suffices H : ∀ l : List Coord, listPathOK g start goal l →
      ∃ w : (passageGraph g).Walk start goal, w.IsPath ∧ w.support = l by
    intro l1 l2 h1 h2
    obtain ⟨w1, hp1, hs1⟩ := H l1 h1
    obtain ⟨w2, hp2, hs2⟩ := H l2 h2
    have heq : (⟨w1, hp1⟩ : (passageGraph g).Path start goal) = ⟨w2, hp2⟩ :=
      SimpleGraph.isAcyclic_iff_path_unique.1 hacy _ _
    have hw : w1 = w2 := congrArg Subtype.val heq
    rw [← hs1, ← hs2, hw]
  intro l hok
  obtain ⟨hhead, hlast, hnd, hch⟩ := hok
  cases l with
  | nil => cases hhead
  | cons a t =>
    have ha : a = start := by
      have h2 : some a = some start := hhead
      exact Option.some.inj h2
    subst ha
    have hch' : List.Chain (fun x y => y ∈ searchNeighbors g x) a t := hch
    obtain ⟨w, hw⟩ := walk_of_chain t a goal hst hch' hlast
    refine ⟨w, ?_, hw⟩
    rw [SimpleGraph.Walk.isPath_def, hw]
    exact hnd

theorem poolExpandFold_nil (isStack : Bool) (rc : Coord) (st : PoolState) :
    poolExpandFold isStack rc [] st = st := rfl

theorem poolExpandFold_cons (isStack : Bool) (rc a : Coord) (t : List Coord)
    (st : PoolState) :
    poolExpandFold isStack rc (a :: t) st =
      poolExpandFold isStack rc t
        (if a ∈ st.seen then st
        else
          { st with seen := insert a st.seen
                    parent := Function.update st.parent a (some rc)
                    pool := if isStack then a :: st.pool else st.pool ++ [a] }) := by
  unfold poolExpandFold
  rw [List.foldl_cons]

/-- The BFS/DFS neighbor-expansion fold preserves the parent-chain soundness data:
newly seen cells enter the pool with a parent edge to the popped cell, and the
depth measure extends. -/
theorem pool_fold_sound (isStack : Bool) (g : Grid) (start rc : Coord) :
    ∀ (l : List Coord) (st : PoolState),
      (∀ n ∈ l, n ∈ searchNeighbors g rc) →
      rc ∈ st.seen →
      start ∈ st.seen →
      st.parent start = none →
      (∀ x p : Coord, st.parent x = some p →
        x ∈ st.seen ∧ p ∈ st.seen ∧ x ∈ searchNeighbors g p ∧ x ≠ start) →
      (∀ x ∈ st.seen, x = start ∨ st.parent x ≠ none) →
      (∀ c ∈ st.pool, c ∈ st.seen) →
      (∃ dep : Coord → Nat, (∀ x ∈ st.seen, dep x < st.seen.card) ∧
        ∀ x p : Coord, st.parent x = some p → dep p < dep x) →
      PoolFoldSound g start rc l st (poolExpandFold isStack rc l st) := by
  intro l
  induction l with
  | nil =>
    intro st _ _ hstart hps hpspec hsp hpool hdep
    refine ⟨rfl, rfl, fun _ hz => hz, fun _ hc => hc, ?_, ?_, hstart, hps, hpspec, hsp,
      hpool, hdep⟩
    · intro x hx1 hx2
      exact absurd hx1 hx2
    · intro nz hn
      exact absurd hn (List.not_mem_nil nz)
  | cons a t ih =>
    intro st hl hrc hstart hps hpspec hsp hpool hdep
    rw [poolExpandFold_cons]
    by_cases hseen : a ∈ st.seen
    · rw [if_pos hseen]
      have hout := ih st (fun n hn => hl n (List.mem_cons_of_mem a hn)) hrc hstart hps
        hpspec hsp hpool hdep
      refine ⟨hout.path_eq, hout.done_eq, hout.seen_mono, hout.pool_mono,
        hout.new_in_pool, ?_, hout.start_seen, hout.parent_start, hout.parent_spec,
        hout.seen_parent, hout.pool_seen, hout.depth⟩
      intro nz hn
      rcases List.mem_cons.1 hn with h0 | h'
      · rw [h0]
        exact hout.seen_mono hseen
      · exact hout.all_seen nz h'
    · rw [if_neg hseen]
      set st' : PoolState := { st with seen := insert a st.seen
                                       parent := Function.update st.parent a (some rc)
                                       pool := if isStack then a :: st.pool else st.pool ++ [a] } with hst'
      have hastart : a ≠ start := fun hc => hseen (hc ▸ hstart)
      have hamem : a ∈ searchNeighbors g rc := hl a (List.mem_cons_self a t)
      have hrcna : rc ≠ a := fun hc => hseen (hc ▸ hrc)
      have hrc' : rc ∈ st'.seen := Finset.mem_insert_of_mem hrc
      have hstart' : start ∈ st'.seen := Finset.mem_insert_of_mem hstart
      have hps' : st'.parent start = none := by
        show Function.update st.parent a (some rc) start = none
        rw [Function.update_noteq (Ne.symm hastart)]
        exact hps
      have hpspec' : ∀ x p : Coord, st'.parent x = some p →
          x ∈ st'.seen ∧ p ∈ st'.seen ∧ x ∈ searchNeighbors g p ∧ x ≠ start := by
        intro x p hxp
        by_cases hxa : x = a
        · subst hxa
          have hxp' : Function.update st.parent x (some rc) x = some p := hxp
          rw [Function.update_same] at hxp'
          have hprc : p = rc := (Option.some.inj hxp').symm
          subst hprc
          exact ⟨Finset.mem_insert_self _ _, Finset.mem_insert_of_mem hrc, hamem, hastart⟩
        · have hxp' : st.parent x = some p := by
            have h2 : Function.update st.parent a (some rc) x = some p := hxp
            rw [Function.update_noteq hxa] at h2
            exact h2
          obtain ⟨h1, h2, h3, h4⟩ := hpspec x p hxp'
          exact ⟨Finset.mem_insert_of_mem h1, Finset.mem_insert_of_mem h2, h3, h4⟩
      have hsp' : ∀ x ∈ st'.seen, x = start ∨ st'.parent x ≠ none := by
        intro x hx
        by_cases hxa : x = a
        · right
          subst hxa
          show Function.update st.parent x (some rc) x ≠ none
          rw [Function.update_same]
          exact Option.some_ne_none rc
        · rcases Finset.mem_insert.1 hx with h0 | hx'
          · exact absurd h0 hxa
          · rcases hsp x hx' with h | h
            · exact Or.inl h
            · right
              show Function.update st.parent a (some rc) x ≠ none
              rw [Function.update_noteq hxa]
              exact h
      have hpool' : ∀ c ∈ st'.pool, c ∈ st'.seen := by
        intro c hc
        have hc' : c ∈ (if isStack then a :: st.pool else st.pool ++ [a]) := hc
        by_cases hb : isStack
        · rw [if_pos hb] at hc'
          rcases List.mem_cons.1 hc' with h0 | h'
          · rw [h0]
            exact Finset.mem_insert_self _ _
          · exact Finset.mem_insert_of_mem (hpool c h')
        · rw [if_neg hb] at hc'
          rcases List.mem_append.1 hc' with h' | h'
          · exact Finset.mem_insert_of_mem (hpool c h')
          · rw [List.mem_singleton.1 h']
            exact Finset.mem_insert_self _ _
      have hdep' : ∃ dep : Coord → Nat, (∀ x ∈ st'.seen, dep x < st'.seen.card) ∧
          ∀ x p : Coord, st'.parent x = some p → dep p < dep x := by
        obtain ⟨dep, hb, hd⟩ := hdep
        have hcard : st'.seen.card = st.seen.card + 1 := by
          show (insert a st.seen).card = st.seen.card + 1
          rw [Finset.card_insert_of_not_mem hseen]
        refine ⟨Function.update dep a st.seen.card, ?_, ?_⟩
        · intro x hx
          rcases Finset.mem_insert.1 hx with hxa | hx'
          · rw [hxa, Function.update_same, hcard]
            omega
          · have hxna : x ≠ a := fun hc => hseen (hc ▸ hx')
            rw [Function.update_noteq hxna, hcard]
            have := hb x hx'
            omega
        · intro x p hxp
          by_cases hxa : x = a
          · subst hxa
            have hxp' : Function.update st.parent x (some rc) x = some p := hxp
            rw [Function.update_same] at hxp'
            have hprc : p = rc := (Option.some.inj hxp').symm
            subst hprc
            rw [Function.update_same, Function.update_noteq hrcna]
            exact hb p hrc
          · have hxp' : st.parent x = some p := by
              have h2 : Function.update st.parent a (some rc) x = some p := hxp
              rw [Function.update_noteq hxa] at h2
              exact h2
            have hpa : p ≠ a := by
              obtain ⟨_, hp2, _, _⟩ := hpspec x p hxp'
              exact fun hc => hseen (hc ▸ hp2)
            rw [Function.update_noteq hpa, Function.update_noteq hxa]
            exact hd x p hxp'
      have hout := ih st' (fun n hn => hl n (List.mem_cons_of_mem a hn)) hrc' hstart'
        hps' hpspec' hsp' hpool' hdep'
      refine ⟨hout.path_eq, hout.done_eq, ?_, ?_, ?_, ?_, hout.start_seen,
        hout.parent_start, hout.parent_spec, hout.seen_parent, hout.pool_seen, hout.depth⟩
      · intro z hz
        exact hout.seen_mono (Finset.mem_insert_of_mem hz)
      · intro c hc
        refine hout.pool_mono c ?_
        show c ∈ (if isStack then a :: st.pool else st.pool ++ [a])
        by_cases hb : isStack
        · rw [if_pos hb]
          exact List.mem_cons_of_mem a hc
        · rw [if_neg hb]
          exact List.mem_append.2 (Or.inl hc)
      · intro x hx1 hx2
        by_cases hx' : x ∈ st'.seen
        · have hxa : x = a := by
            rcases Finset.mem_insert.1 hx' with h | h
            · exact h
            · exact absurd h hx2
          subst hxa
          refine hout.pool_mono x ?_
          show x ∈ (if isStack then x :: st.pool else st.pool ++ [x])
          by_cases hb : isStack
          · rw [if_pos hb]
            exact List.mem_cons_self _ _
          · rw [if_neg hb]
            exact List.mem_append.2 (Or.inr (List.mem_singleton.2 rfl))
        · exact hout.new_in_pool x hx1 hx'
      · intro nz hn
        rcases List.mem_cons.1 hn with h0 | h'
        · rw [h0]
          exact hout.seen_mono (Finset.mem_insert_self a st.seen)
        · exact hout.all_seen nz h'

/-- One BFS/DFS step preserves the soundness invariant; in particular a path is
recorded exactly when the popped cell is the goal, and it is then a valid simple
start-goal path reconstructed from the parent chain. -/
theorem poolSound_step (isStack : Bool) (g : Grid) (start goal : Coord) (t : Nat)
    {s : PoolState} (hinv : PoolInv g start goal s) (hs : PoolSound g start goal s) :
    PoolSound g start goal (PoolState.step isStack t s) := by
  by_cases hd : (s.done || decide (s.pool = [])) = true
  · have hres : PoolState.step isStack t s =
        (if s.t1 = 0 then { s with done := true, t1 := t } else { s with done := true }) := by
      unfold PoolState.step
      rw [if_pos hd]
    have hdp : s.done = true ∨ s.pool = [] := by
      rw [Bool.or_eq_true] at hd
      rcases hd with h | h
      · exact Or.inl h
      · exact Or.inr (of_decide_eq_true h)
    have hdpool : ∀ _ : Unit, s.path ≠ none ∨ s.pool = [] → True := fun _ _ => trivial
    rw [hres]
    by_cases ht1 : s.t1 = 0
    · rw [if_pos ht1]
      refine ⟨hs.start_seen, hs.parent_start, hs.parent_spec, hs.seen_parent,
        hs.pool_seen, hs.depth, hs.closure, hs.goal_pending, ?_, hs.path_ok⟩
      intro _
      rcases hdp with h | h
      · exact hs.done_pool h
      · exact Or.inr h
    · rw [if_neg ht1]
      refine ⟨hs.start_seen, hs.parent_start, hs.parent_spec, hs.seen_parent,
        hs.pool_seen, hs.depth, hs.closure, hs.goal_pending, ?_, hs.path_ok⟩
      intro _
      rcases hdp with h | h
      · exact hs.done_pool h
      · exact Or.inr h
  · rw [Bool.or_eq_true] at hd
    push_neg at hd
    obtain ⟨hd1, hd2⟩ := hd
    have hdone : s.done = false := by
      cases hval : s.done
      · rfl
      · exact absurd hval hd1
    have hpoolne : s.pool ≠ [] := by
      intro hc
      exact hd2 (by rw [hc]; exact decide_eq_true rfl)
    cases hpool : s.pool with
    | nil => exact absurd hpool hpoolne
    | cons rc rest =>
      have hres0 : PoolState.step isStack t s =
          (let s1 := { s with pool := rest, explored := s.explored + 1, dirty := insert rc s.dirty }
          if rc = s.goal then
            { s1 with done := true, path := some (s1.reconstruct rc), t1 := t }
          else
            poolExpandFold isStack rc
              (if isStack then (searchNeighbors s1.grid rc).reverse
                else searchNeighbors s1.grid rc) s1) := by
        unfold PoolState.step poolExpandFold
        rw [if_neg (by rw [hdone, hpool]; exact Bool.false_ne_true ∘ fun h => h)]
        · rw [hpool]
      have hrcseen : rc ∈ s.seen :=
        hs.pool_seen rc (by rw [hpool]; exact List.mem_cons_self rc rest)
      by_cases hgoal : rc = s.goal
      · rw [hres0]
        dsimp only
        rw [if_pos hgoal]
        have hgoal' : rc = goal := by
          rw [hgoal, hinv.goal_eq]
        refine ⟨hs.start_seen, hs.parent_start, hs.parent_spec, hs.seen_parent, ?_,
          hs.depth, ?_, ?_, ?_, ?_⟩
        · intro c hc
          exact hs.pool_seen c (by rw [hpool]; exact List.mem_cons_of_mem rc hc)
        · intro hcontra
          exact absurd hcontra (Option.some_ne_none _)
        · intro hcontra
          exact absurd hcontra (Option.some_ne_none _)
        · intro _
          exact Or.inl (Option.some_ne_none _)
        · right
          obtain ⟨dep, hdb, hdd⟩ := hs.depth
          obtain ⟨hh, hl, hnd, hch, _⟩ :=
            chainFrom_spec g s.parent start (fun x => x ∈ s.seen) dep
              (fun x p hx hxp => by
                obtain ⟨h1, h2, h3, h4⟩ := hs.parent_spec x p hxp
                exact ⟨h2, hdd x p hxp, h3⟩)
              (fun x hx hxs => by
                rcases hs.seen_parent x hx with h | h
                · exact absurd h hxs
                · exact h)
              s.seen.card rc hrcseen (hdb rc hrcseen)
          refine ⟨_, rfl, ?_, ?_, ?_, ?_⟩
          · show ((chainFrom s.parent s.start s.seen.card rc).reverse).head? = some start
            rw [hinv.start_eq, List.head?_reverse]
            exact hl
          · show ((chainFrom s.parent s.start s.seen.card rc).reverse).getLast? = some goal
            rw [hinv.start_eq, List.getLast?_reverse, hh, hgoal']
          · show ((chainFrom s.parent s.start s.seen.card rc).reverse).Nodup
            rw [hinv.start_eq, List.nodup_reverse]
            exact hnd
          · show List.Chain' (fun a b => b ∈ searchNeighbors g a)
              ((chainFrom s.parent s.start s.seen.card rc).reverse)
            rw [hinv.start_eq]
            exact List.chain'_reverse.2 hch
      · rw [hres0]
        dsimp only
        rw [if_neg hgoal]
        set s1 : PoolState := { s with pool := rest, explored := s.explored + 1, dirty := insert rc s.dirty } with hs1
        have hlmem : ∀ n ∈ (if isStack then (searchNeighbors s1.grid rc).reverse
            else searchNeighbors s1.grid rc), n ∈ searchNeighbors g rc := by
          intro n hn
          have hn' : n ∈ searchNeighbors s1.grid rc := by
            by_cases hb : isStack
            · rw [if_pos hb] at hn
              exact List.mem_reverse.1 hn
            · rw [if_neg hb] at hn
              exact hn
          have hgr : s1.grid = g := hinv.grid_eq
          rw [hgr] at hn'
          exact hn'
        have hpool1 : ∀ c ∈ s1.pool, c ∈ s1.seen := by
          intro c hc
          have hc' : c ∈ rest := hc
          exact hs.pool_seen c (by rw [hpool]; exact List.mem_cons_of_mem rc hc')
        have hout := pool_fold_sound isStack g start rc
          (if isStack then (searchNeighbors s1.grid rc).reverse
            else searchNeighbors s1.grid rc) s1 hlmem hrcseen hs.start_seen
          hs.parent_start hs.parent_spec hs.seen_parent hpool1 hs.depth
        refine ⟨hout.start_seen, hout.parent_start, hout.parent_spec, hout.seen_parent,
          hout.pool_seen, hout.depth, ?_, ?_, ?_, ?_⟩
        · intro hpn x hx
          have hspn : s.path = none := by
            rw [hout.path_eq] at hpn
            exact hpn
          by_cases hxrc : x = rc
          · right
            intro y hy
            refine hout.all_seen y ?_
            rw [hxrc] at hy
            have hgr : s1.grid = g := hinv.grid_eq
            by_cases hb : isStack
            · rw [if_pos hb]
              refine List.mem_reverse.2 ?_
              rw [hgr]
              exact hy
            · rw [if_neg hb]
              rw [hgr]
              exact hy
          · by_cases hxseen : x ∈ s.seen
            · rcases hs.closure hspn x hxseen with hpl | hcl
              · left
                refine hout.pool_mono x ?_
                rw [hpool] at hpl
                rcases List.mem_cons.1 hpl with h0 | h'
                · exact absurd h0 hxrc
                · exact h'
              · right
                intro y hy
                exact hout.seen_mono (hcl y hy)
            · left
              exact hout.new_in_pool x hx hxseen
        · intro hpn
          have hspn : s.path = none := by
            rw [hout.path_eq] at hpn
            exact hpn
          rcases hs.goal_pending hspn with hns | hpl
          · by_cases hgs : goal ∈ (poolExpandFold isStack rc
                (if isStack then (searchNeighbors s1.grid rc).reverse
                  else searchNeighbors s1.grid rc) s1).seen
            · right
              exact hout.new_in_pool goal hgs hns
            · left
              exact hgs
          · right
            refine hout.pool_mono goal ?_
            rw [hpool] at hpl
            rcases List.mem_cons.1 hpl with h0 | h'
            · exact absurd (by rw [hinv.goal_eq, ← h0] : rc = s.goal) hgoal
            · exact h'
        · intro hc
          rw [hout.done_eq] at hc
          have hc' : s.done = true := hc
          rw [hdone] at hc'
          exact absurd hc' Bool.false_ne_true
        · rcases hs.path_ok with h | ⟨l0, hl0, hok⟩
          · left
            rw [hout.path_eq]
            exact h
          · right
            exact ⟨l0, by rw [hout.path_eq]; exact hl0, hok⟩

theorem poolSound_runN (isStack : Bool) (g : Grid) (start goal : Coord) (tb : Nat)
    (ts : Nat → Nat) :
    ∀ n, PoolSound g start goal (PoolState.runN isStack g start goal tb ts n) := by
  intro n
  induction n with
  | zero =>
    refine ⟨?_, rfl, ?_, ?_, ?_, ?_, ?_, ?_, ?_, Or.inl rfl⟩
    · exact Finset.mem_singleton_self start
    · intro x p hxp
      exact Option.noConfusion hxp
    · intro x hx
      left
      have hx' : x ∈ ({start} : Finset Coord) := hx
      exact Finset.mem_singleton.1 hx'
    · intro c hc
      have hc' : c ∈ [start] := hc
      rw [List.mem_singleton.1 hc']
      exact Finset.mem_singleton_self start
    · refine ⟨fun _ => 0, ?_, ?_⟩
      · intro x hx
        show (0 : Nat) < ({start} : Finset Coord).card
        rw [Finset.card_singleton]
        omega
      · intro x p hxp
        exact Option.noConfusion hxp
    · intro _ x hx
      left
      have hx' : x ∈ ({start} : Finset Coord) := hx
      have hxs : x = start := Finset.mem_singleton.1 hx'
      rw [hxs]
      exact List.mem_singleton.2 rfl
    · intro _
      by_cases hgs : goal = start
      · right
        rw [hgs]
        exact List.mem_singleton.2 rfl
      · left
        intro hc
        have hc' : goal ∈ ({start} : Finset Coord) := hc
        exact hgs (Finset.mem_singleton.1 hc')
    · intro hc
      exact Bool.noConfusion hc
  | succ n ih =>
    exact poolSound_step isStack g start goal (ts n)
      (poolInv_runN isStack g start goal tb ts n) ih

/-- With a search-reachable goal, once the BFS/DFS machine is done it has recorded
a valid simple start-goal path. -/
theorem pool_done_path (isStack : Bool) (g : Grid) (start goal : Coord) (tb : Nat)
    (ts : Nat → Nat) (hreach : searchReach g start goal) (n : Nat)
    (hdone : (PoolState.runN isStack g start goal tb ts n).done = true) :
    ∃ l, (PoolState.runN isStack g start goal tb ts n).path = some l ∧
      listPathOK g start goal l := by
  have hs := poolSound_runN isStack g start goal tb ts n
  rcases hs.path_ok with hnone | ⟨l, hl, hok⟩
  · exfalso
    rcases hs.done_pool hdone with h | hpoolempty
    · exact h hnone
    · have hclosed : ∀ a ∈ (PoolState.runN isStack g start goal tb ts n).seen,
          ∀ b ∈ searchNeighbors g a, b ∈ (PoolState.runN isStack g start goal tb ts n).seen := by
        intro a ha b hb
        rcases hs.closure hnone a ha with hpl | hcl
        · rw [hpoolempty] at hpl
          exact absurd hpl (List.not_mem_nil a)
        · exact hcl b hb
      have hgseen := searchReach_subset_closed hs.start_seen hclosed goal hreach
      rcases hs.goal_pending hnone with h | h
      · exact h hgseen
      · rw [hpoolempty] at h
        exact absurd h (List.not_mem_nil goal)
  · exact ⟨l, hl, hok⟩

theorem pqRelaxFold_cons (h : Coord → Nat) (s1 : PQState) (rc a : Coord)
    (t : List Coord) (st : PQState) :
    pqRelaxFold h s1 rc (a :: t) st =
      pqRelaxFold h s1 rc t
        (if (match st.dist a with
             | none => true
             | some m => decide ((((s1.dist rc).getD 0) + 1) < m)) then
          { st with dist := Function.update st.dist a (some (((s1.dist rc).getD 0) + 1))
                    parent := Function.update st.parent a (some rc)
                    tie := st.tie + 1
                    pq := st.pq ++ [((((s1.dist rc).getD 0) + 1) + h a, st.tie + 1, a)] }
        else st) := by
  unfold pqRelaxFold
  rw [List.foldl_cons]

/-- The Dijkstra/A* neighbor-relaxation fold preserves the parent-chain soundness
data: relaxed cells get a strictly larger distance than the popped cell with a
fresh valid heap entry, and stale facts about other cells survive. -/
theorem pq_fold_sound (h : Coord → Nat) (g : Grid) (start goal rc : Coord)
    (s1 : PQState) (drc : Nat) (hs1rc : s1.dist rc = some drc) :
    ∀ (l : List Coord) (st : PQState),
      (∀ n ∈ l, n ∈ searchNeighbors g rc) →
      st.dist rc = some drc →
      st.dist start = some 0 →
      st.parent start = none →
      (∀ x p : Coord, st.parent x = some p → x ∈ searchNeighbors g p ∧ x ≠ start ∧
        ∃ dx dp : Nat, st.dist x = some dx ∧ st.dist p = some dp ∧ dp < dx) →
      (∀ x : Coord, st.dist x ≠ none → x ≠ start → st.parent x ≠ none) →
      (st.path = none → ∀ (x : Coord) (dx : Nat), st.dist x = some dx → x ≠ rc →
        (∃ e ∈ st.pq, e.2.2 = x ∧ e.1 = dx + h x) ∨
          ∀ y ∈ searchNeighbors g x, st.dist y ≠ none) →
      (st.path = none → st.dist goal = none ∨
        ∃ e ∈ st.pq, e.2.2 = goal ∧ ∃ dg : Nat, st.dist goal = some dg ∧ e.1 = dg + h goal) →
      PQFoldSound h g start goal rc drc l st (pqRelaxFold h s1 rc l st) := by
  intro l
  induction l with
  | nil =>
    intro st _ hdrc hd0 hps hpspec hdparent hexp hgp
    refine ⟨rfl, rfl, hdrc, hd0, hps, hpspec, hdparent, hexp, hgp, fun _ hx => hx, ?_⟩
    intro nz hn
    exact absurd hn (List.not_mem_nil nz)
  | cons a t ih =>
    intro st hl hdrc hd0 hps hpspec hdparent hexp hgp
    rw [pqRelaxFold_cons]
    have hgd : (s1.dist rc).getD 0 = drc := by
      rw [hs1rc]
      rfl
    rw [hgd]
    by_cases hcond : (match st.dist a with
        | none => true
        | some m => decide (drc + 1 < m)) = true
    · rw [if_pos hcond]
      have hamem : a ∈ searchNeighbors g rc := hl a (List.mem_cons_self a t)
      have hastart : a ≠ start := by
        intro hc
        rw [hc, hd0] at hcond
        exact absurd (of_decide_eq_true hcond) (by omega)
      have hana : a ≠ rc := searchNeighbors_ne hamem
      set st' : PQState := { st with dist := Function.update st.dist a (some (drc + 1))
                                     parent := Function.update st.parent a (some rc)
                                     tie := st.tie + 1
                                     pq := st.pq ++ [(drc + 1 + h a, st.tie + 1, a)] } with hst'
      have hdrc' : st'.dist rc = some drc := by
        show Function.update st.dist a (some (drc + 1)) rc = some drc
        rw [Function.update_noteq (Ne.symm hana)]
        exact hdrc
      have hd0' : st'.dist start = some 0 := by
        show Function.update st.dist a (some (drc + 1)) start = some 0
        rw [Function.update_noteq (Ne.symm hastart)]
        exact hd0
      have hps' : st'.parent start = none := by
        show Function.update st.parent a (some rc) start = none
        rw [Function.update_noteq (Ne.symm hastart)]
        exact hps
      have hpspec' : ∀ x p : Coord, st'.parent x = some p →
          x ∈ searchNeighbors g p ∧ x ≠ start ∧
            ∃ dx dp : Nat, st'.dist x = some dx ∧ st'.dist p = some dp ∧ dp < dx := by
        intro x p hxp
        by_cases hxa : x = a
        · subst hxa
          have hxp' : Function.update st.parent x (some rc) x = some p := hxp
          rw [Function.update_same] at hxp'
          have hprc : p = rc := (Option.some.inj hxp').symm
          subst hprc
          refine ⟨hamem, hastart, drc + 1, drc, ?_, ?_, by omega⟩
          · show Function.update st.dist x (some (drc + 1)) x = some (drc + 1)
            rw [Function.update_same]
          · show Function.update st.dist x (some (drc + 1)) p = some drc
            rw [Function.update_noteq (Ne.symm hana)]
            exact hdrc
        · have hxp' : st.parent x = some p := by
            have h2 : Function.update st.parent a (some rc) x = some p := hxp
            rw [Function.update_noteq hxa] at h2
            exact h2
          obtain ⟨he, hne, dx, dp, hdx, hdp, hlt⟩ := hpspec x p hxp'
          by_cases hpa : p = a
          · have hdpa : st.dist a = some dp := by
              rw [← hpa]
              exact hdp
            have hlt2 : drc + 1 < dp := by
              rw [hdpa] at hcond
              exact of_decide_eq_true hcond
            refine ⟨he, hne, dx, drc + 1, ?_, ?_, by omega⟩
            · show Function.update st.dist a (some (drc + 1)) x = some dx
              rw [Function.update_noteq hxa]
              exact hdx
            · show Function.update st.dist a (some (drc + 1)) p = some (drc + 1)
              rw [hpa, Function.update_same]
          · refine ⟨he, hne, dx, dp, ?_, ?_, hlt⟩
            · show Function.update st.dist a (some (drc + 1)) x = some dx
              rw [Function.update_noteq hxa]
              exact hdx
            · show Function.update st.dist a (some (drc + 1)) p = some dp
              rw [Function.update_noteq hpa]
              exact hdp
      have hdparent' : ∀ x : Coord, st'.dist x ≠ none → x ≠ start → st'.parent x ≠ none := by
        intro x hx hxs
        by_cases hxa : x = a
        · show Function.update st.parent a (some rc) x ≠ none
          rw [hxa, Function.update_same]
          exact Option.some_ne_none _
        · show Function.update st.parent a (some rc) x ≠ none
          rw [Function.update_noteq hxa]
          refine hdparent x ?_ hxs
          have hx' : Function.update st.dist a (some (drc + 1)) x ≠ none := hx
          rw [Function.update_noteq hxa] at hx'
          exact hx'
      have hexp' : st'.path = none → ∀ (x : Coord) (dx : Nat), st'.dist x = some dx →
          x ≠ rc → (∃ e ∈ st'.pq, e.2.2 = x ∧ e.1 = dx + h x) ∨
            ∀ y ∈ searchNeighbors g x, st'.dist y ≠ none := by
        intro hpn x dx hdx hxrc
        have hpn0 : st.path = none := hpn
        by_cases hxa : x = a
        · left
          refine ⟨(drc + 1 + h a, st.tie + 1, a), ?_, ?_, ?_⟩
          · show _ ∈ st.pq ++ [(drc + 1 + h a, st.tie + 1, a)]
            exact List.mem_append.2 (Or.inr (List.mem_singleton.2 rfl))
          · show a = x
            rw [hxa]
          · have hdx' : Function.update st.dist a (some (drc + 1)) x = some dx := hdx
            rw [hxa, Function.update_same] at hdx'
            have hdxv : dx = drc + 1 := (Option.some.inj hdx').symm
            show drc + 1 + h a = dx + h x
            rw [hxa, hdxv]
        · have hdx' : st.dist x = some dx := by
            have h2 : Function.update st.dist a (some (drc + 1)) x = some dx := hdx
            rw [Function.update_noteq hxa] at h2
            exact h2
          rcases hexp hpn0 x dx hdx' hxrc with ⟨e, hem, he2, he1⟩ | hcl
          · left
            refine ⟨e, ?_, he2, he1⟩
            show e ∈ st.pq ++ [(drc + 1 + h a, st.tie + 1, a)]
            exact List.mem_append.2 (Or.inl hem)
          · right
            intro y hy
            have hyd := hcl y hy
            show Function.update st.dist a (some (drc + 1)) y ≠ none
            by_cases hya : y = a
            · rw [hya, Function.update_same]
              exact Option.some_ne_none _
            · rw [Function.update_noteq hya]
              exact hyd
      have hgp' : st'.path = none → st'.dist goal = none ∨
          ∃ e ∈ st'.pq, e.2.2 = goal ∧
            ∃ dg : Nat, st'.dist goal = some dg ∧ e.1 = dg + h goal := by
        intro hpn
        have hpn0 : st.path = none := hpn
        by_cases hga : goal = a
        · right
          refine ⟨(drc + 1 + h a, st.tie + 1, a), ?_, ?_, drc + 1, ?_, ?_⟩
          · show _ ∈ st.pq ++ [(drc + 1 + h a, st.tie + 1, a)]
            exact List.mem_append.2 (Or.inr (List.mem_singleton.2 rfl))
          · show a = goal
            rw [hga]
          · show Function.update st.dist a (some (drc + 1)) goal = some (drc + 1)
            rw [hga, Function.update_same]
          · show drc + 1 + h a = drc + 1 + h goal
            rw [hga]
        · rcases hgp hpn0 with hnone | ⟨e, hem, he2, dg, hdg, he1⟩
          · left
            show Function.update st.dist a (some (drc + 1)) goal = none
            rw [Function.update_noteq hga]
            exact hnone
          · right
            refine ⟨e, ?_, he2, dg, ?_, he1⟩
            · show e ∈ st.pq ++ [(drc + 1 + h a, st.tie + 1, a)]
              exact List.mem_append.2 (Or.inl hem)
            · show Function.update st.dist a (some (drc + 1)) goal = some dg
              rw [Function.update_noteq hga]
              exact hdg
      have hout := ih st' (fun n hn => hl n (List.mem_cons_of_mem a hn)) hdrc' hd0'
        hps' hpspec' hdparent' hexp' hgp'
      refine ⟨hout.path_eq, hout.done_eq, hout.dist_rc, hout.dist_start,
        hout.parent_start, hout.parent_spec, hout.dist_parent, hout.expanded_nrc,
        hout.goal_pending, ?_, ?_⟩
      · intro x hx
        refine hout.defined_mono x ?_
        show Function.update st.dist a (some (drc + 1)) x ≠ none
        by_cases hxa : x = a
        · rw [hxa, Function.update_same]
          exact Option.some_ne_none _
        · rw [Function.update_noteq hxa]
          exact hx
      · intro nz hn
        rcases List.mem_cons.1 hn with h0 | h'
        · refine hout.defined_mono nz ?_
          show Function.update st.dist a (some (drc + 1)) nz ≠ none
          rw [h0, Function.update_same]
          exact Option.some_ne_none _
        · exact hout.all_defined nz h'
    · rw [if_neg hcond]
      have hadef : st.dist a ≠ none := by
        intro hc
        rw [hc] at hcond
        exact hcond rfl
      have hout := ih st (fun n hn => hl n (List.mem_cons_of_mem a hn)) hdrc hd0 hps
        hpspec hdparent hexp hgp
      refine ⟨hout.path_eq, hout.done_eq, hout.dist_rc, hout.dist_start,
        hout.parent_start, hout.parent_spec, hout.dist_parent, hout.expanded_nrc,
        hout.goal_pending, hout.defined_mono, ?_⟩
      intro nz hn
      rcases List.mem_cons.1 hn with h0 | h'
      · refine hout.defined_mono nz ?_
        rw [h0]
        exact hadef
      · exact hout.all_defined nz h'

/-- One Dijkstra/A* step preserves the soundness invariant; a path is recorded
exactly when a fresh goal entry is popped, and is then a valid simple start-goal
path reconstructed from the parent chain. -/
theorem pqSound_step (h : Coord → Nat) (g : Grid) (start goal : Coord) (t : Nat)
    {s : PQState} (hinv : PQInv g start goal s) (hs : PQSound h g start goal s) :
    PQSound h g start goal (PQState.step h t s) := by
  by_cases hd : (s.done || decide (s.pq = [])) = true
  · have hres : PQState.step h t s =
        (if s.t1 = 0 then { s with done := true, t1 := t } else { s with done := true }) := by
      unfold PQState.step
      rw [if_pos hd]
    have hdp : s.done = true ∨ s.pq = [] := by
      rw [Bool.or_eq_true] at hd
      rcases hd with hc | hc
      · exact Or.inl hc
      · exact Or.inr (of_decide_eq_true hc)
    rw [hres]
    by_cases ht1 : s.t1 = 0
    · rw [if_pos ht1]
      refine ⟨hs.dist_start, hs.parent_start, hs.parent_spec, hs.dist_parent,
        hs.expanded, hs.goal_pending, ?_, hs.path_ok⟩
      intro _
      rcases hdp with hc | hc
      · exact hs.done_pq hc
      · exact Or.inr hc
    · rw [if_neg ht1]
      refine ⟨hs.dist_start, hs.parent_start, hs.parent_spec, hs.dist_parent,
        hs.expanded, hs.goal_pending, ?_, hs.path_ok⟩
      intro _
      rcases hdp with hc | hc
      · exact hs.done_pq hc
      · exact Or.inr hc
  · rw [Bool.or_eq_true] at hd
    push_neg at hd
    obtain ⟨hd1, hd2⟩ := hd
    have hdone : s.done = false := by
      cases hval : s.done
      · rfl
      · exact absurd hval hd1
    have hpqne : s.pq ≠ [] := by
      intro hc
      exact hd2 (by rw [hc]; exact decide_eq_true rfl)
    cases hpop : popMin s.pq with
    | none => exact absurd (popMin_eq_none hpop) hpqne
    | some pr =>
      obtain ⟨⟨d, tie0, rc⟩, rest⟩ := pr
      obtain ⟨hmem_pq, hrest_eq, _⟩ := popMin_spec hpop
      set s1 : PQState := { s with pq := rest, explored := s.explored + 1, dirty := insert rc s.dirty } with hs1
      have hres0 : PQState.step h t s =
          (if PQState.keyOf h s rc ≠ some d then { s with pq := rest }
          else if rc = s.goal then
            { s1 with done := true, path := some (s1.reconstruct rc), t1 := t }
          else
            pqRelaxFold h s1 rc (searchNeighbors s1.grid rc) s1) := by
        unfold PQState.step pqRelaxFold
        rw [if_neg (by rw [hdone]; intro hc; rw [Bool.false_or] at hc; exact hd2 hc), hpop]
      by_cases hstale : PQState.keyOf h s rc ≠ some d
      · rw [hres0, if_pos hstale]
        refine ⟨hs.dist_start, hs.parent_start, hs.parent_spec, hs.dist_parent,
          ?_, ?_, ?_, hs.path_ok⟩
        · intro hpn x dx hdx
          rcases hs.expanded hpn x dx hdx with ⟨e, hem, he2, he1⟩ | hcl
          · left
            refine ⟨e, ?_, he2, he1⟩
            have hem' : e ≠ (d, tie0, rc) := by
              intro hc
              apply hstale
              have hxrc : x = rc := by
                rw [← he2, hc]
              rw [hxrc] at hdx he1
              have hd1 : d = dx + h rc := by
                rw [← he1, hc]
              unfold PQState.keyOf
              rw [hdx, hd1]
              rfl
            show e ∈ rest
            rw [hrest_eq]
            exact (List.mem_erase_of_ne hem').2 hem
          · right
            exact hcl
        · intro hpn
          rcases hs.goal_pending hpn with hnone | ⟨e, hem, he2, dg, hdg, he1⟩
          · exact Or.inl hnone
          · right
            refine ⟨e, ?_, he2, dg, hdg, he1⟩
            have hem' : e ≠ (d, tie0, rc) := by
              intro hc
              apply hstale
              have hgrc : goal = rc := by
                rw [← he2, hc]
              rw [hgrc] at hdg he1
              have hd1 : d = dg + h rc := by
                rw [← he1, hc]
              unfold PQState.keyOf
              rw [hdg, hd1]
              rfl
            show e ∈ rest
            rw [hrest_eq]
            exact (List.mem_erase_of_ne hem').2 hem
        · intro hc
          have hc' : s.done = true := hc
          rw [hdone] at hc'
          exact absurd hc' Bool.false_ne_true
      · rw [hres0, if_neg hstale]
        push_neg at hstale
        have hdrc0 : ∃ drc : Nat, s.dist rc = some drc ∧ d = drc + h rc := by
          unfold PQState.keyOf at hstale
          cases hval : s.dist rc with
          | none =>
            rw [hval] at hstale
            cases hstale
          | some v =>
            rw [hval] at hstale
            have hv : some (v + h rc) = some d := hstale
            exact ⟨v, rfl, (Option.some.inj hv).symm⟩
        obtain ⟨drc, hdrc, hdval⟩ := hdrc0
        by_cases hgoal : rc = s.goal
        · rw [if_pos hgoal]
          have hgoal' : rc = goal := by
            rw [hgoal, hinv.goal_eq]
          refine ⟨hs.dist_start, hs.parent_start, hs.parent_spec, hs.dist_parent,
            ?_, ?_, ?_, ?_⟩
          · intro hcontra
            exact absurd hcontra (Option.some_ne_none _)
          · intro hcontra
            exact absurd hcontra (Option.some_ne_none _)
          · intro _
            exact Or.inl (Option.some_ne_none _)
          · right
            obtain ⟨hh, hlast, hnd, hch, _⟩ :=
              chainFrom_spec g s.parent start (fun x => s.dist x ≠ none)
                (fun x => (s.dist x).getD 0)
                (fun x p hx hxp => by
                  obtain ⟨he, hne, dx, dp, hdx, hdp, hlt⟩ := hs.parent_spec x p hxp
                  refine ⟨?_, ?_, he⟩
                  · show s.dist p ≠ none
                    rw [hdp]
                    exact Option.some_ne_none _
                  · show (s.dist p).getD 0 < (s.dist x).getD 0
                    rw [hdx, hdp]
                    simp only [Option.getD_some]
                    exact hlt)
                (fun x hx hxs => hs.dist_parent x hx hxs)
                ((s.dist rc).getD 0 + 1) rc
                (by show s.dist rc ≠ none; rw [hdrc]; exact Option.some_ne_none _)
                (by show (s.dist rc).getD 0 < (s.dist rc).getD 0 + 1; omega)
            refine ⟨_, rfl, ?_, ?_, ?_, ?_⟩
            · show ((chainFrom s.parent s.start ((s.dist rc).getD 0 + 1) rc).reverse).head? =
                some start
              rw [hinv.start_eq, List.head?_reverse]
              exact hlast
            · show ((chainFrom s.parent s.start ((s.dist rc).getD 0 + 1) rc).reverse).getLast? =
                some goal
              rw [hinv.start_eq, List.getLast?_reverse, hh, hgoal']
            · show ((chainFrom s.parent s.start ((s.dist rc).getD 0 + 1) rc).reverse).Nodup
              rw [hinv.start_eq, List.nodup_reverse]
              exact hnd
            · show List.Chain' (fun a b => b ∈ searchNeighbors g a)
                ((chainFrom s.parent s.start ((s.dist rc).getD 0 + 1) rc).reverse)
              rw [hinv.start_eq]
              exact List.chain'_reverse.2 hch
        · rw [if_neg hgoal]
          have hs1rc : s1.dist rc = some drc := hdrc
          have hlmem : ∀ n ∈ searchNeighbors s1.grid rc, n ∈ searchNeighbors g rc := by
            intro n hn
            have hgr : s1.grid = g := hinv.grid_eq
            rw [hgr] at hn
            exact hn
          have hexp1 : s1.path = none → ∀ (x : Coord) (dx : Nat), s1.dist x = some dx →
              x ≠ rc → (∃ e ∈ s1.pq, e.2.2 = x ∧ e.1 = dx + h x) ∨
                ∀ y ∈ searchNeighbors g x, s1.dist y ≠ none := by
            intro hpn x dx hdx hxrc
            rcases hs.expanded hpn x dx hdx with ⟨e, hem, he2, he1⟩ | hcl
            · left
              refine ⟨e, ?_, he2, he1⟩
              have hem' : e ≠ (d, tie0, rc) := by
                intro hc
                apply hxrc
                rw [← he2, hc]
              show e ∈ rest
              rw [hrest_eq]
              exact (List.mem_erase_of_ne hem').2 hem
            · right
              exact hcl
          have hgp1 : s1.path = none → s1.dist goal = none ∨
              ∃ e ∈ s1.pq, e.2.2 = goal ∧
                ∃ dg : Nat, s1.dist goal = some dg ∧ e.1 = dg + h goal := by
            intro hpn
            rcases hs.goal_pending hpn with hnone | ⟨e, hem, he2, dg, hdg, he1⟩
            · exact Or.inl hnone
            · right
              refine ⟨e, ?_, he2, dg, hdg, he1⟩
              have hem' : e ≠ (d, tie0, rc) := by
                intro hc
                apply hgoal
                have hrg : rc = goal := by
                  rw [← he2, hc]
                rw [hrg, hinv.goal_eq]
              show e ∈ rest
              rw [hrest_eq]
              exact (List.mem_erase_of_ne hem').2 hem
          have hout := pq_fold_sound h g start goal rc s1 drc hs1rc
            (searchNeighbors s1.grid rc) s1 hlmem hs1rc hs.dist_start hs.parent_start
            hs.parent_spec hs.dist_parent hexp1 hgp1
          refine ⟨hout.dist_start, hout.parent_start, hout.parent_spec,
            hout.dist_parent, ?_, hout.goal_pending, ?_, ?_⟩
          · intro hpn x dx hdx
            by_cases hxrc : x = rc
            · right
              intro y hy
              refine hout.all_defined y ?_
              have hgr : s1.grid = g := hinv.grid_eq
              rw [hxrc] at hy
              rw [hgr]
              exact hy
            · exact hout.expanded_nrc hpn x dx hdx hxrc
          · intro hc
            rw [hout.done_eq] at hc
            have hc' : s.done = true := hc
            rw [hdone] at hc'
            exact absurd hc' Bool.false_ne_true
          · rcases hs.path_ok with hpn | ⟨l0, hl0, hok⟩
            · left
              rw [hout.path_eq]
              exact hpn
            · right
              exact ⟨l0, by rw [hout.path_eq]; exact hl0, hok⟩

theorem pqSound_runN (h : Coord → Nat) (g : Grid) (start goal : Coord) (tb : Nat)
    (ts : Nat → Nat) :
    ∀ n, PQSound h g start goal (PQState.runN h g start goal tb ts n) := by
  intro n
  induction n with
  | zero =>
    refine ⟨?_, rfl, ?_, ?_, ?_, ?_, ?_, Or.inl rfl⟩
    · show Function.update (fun _ : Coord => (none : Option Nat)) start (some 0) start =
        some 0
      rw [Function.update_same]
    · intro x p hxp
      exact Option.noConfusion hxp
    · intro x hx hxs
      exfalso
      have hx' : Function.update (fun _ : Coord => (none : Option Nat)) start (some 0) x ≠
          none := hx
      rw [Function.update_noteq hxs] at hx'
      exact hx' rfl
    · intro _ x dx hdx
      by_cases hxs : x = start
      · left
        refine ⟨(h start, 0, start), List.mem_singleton.2 rfl, ?_, ?_⟩
        · show start = x
          rw [hxs]
        · have hdx' : Function.update (fun _ : Coord => (none : Option Nat)) start
              (some 0) x = some dx := hdx
          rw [hxs, Function.update_same] at hdx'
          have hdx0 : dx = 0 := (Option.some.inj hdx').symm
          show h start = dx + h x
          rw [hxs, hdx0]
          omega
      · exfalso
        have hdx' : Function.update (fun _ : Coord => (none : Option Nat)) start
            (some 0) x = some dx := hdx
        rw [Function.update_noteq hxs] at hdx'
        exact Option.noConfusion hdx'
    · intro _
      by_cases hgs : goal = start
      · right
        refine ⟨(h start, 0, start), List.mem_singleton.2 rfl, ?_, 0, ?_, ?_⟩
        · show start = goal
          rw [hgs]
        · show Function.update (fun _ : Coord => (none : Option Nat)) start (some 0) goal =
            some 0
          rw [hgs, Function.update_same]
        · show h start = 0 + h goal
          rw [hgs]
          omega
      · left
        show Function.update (fun _ : Coord => (none : Option Nat)) start (some 0) goal =
          none
        rw [Function.update_noteq hgs]
    · intro hc
      exact Bool.noConfusion hc
  | succ n ih =>
    exact pqSound_step h g start goal (ts n)
      (pqInv_runN h g start goal tb ts n) ih

/-- With a search-reachable goal, once the Dijkstra/A* machine is done it has
recorded a valid simple start-goal path. -/
theorem pq_done_path (h : Coord → Nat) (g : Grid) (start goal : Coord) (tb : Nat)
    (ts : Nat → Nat) (hreach : searchReach g start goal) (n : Nat)
    (hdone : (PQState.runN h g start goal tb ts n).done = true) :
    ∃ l, (PQState.runN h g start goal tb ts n).path = some l ∧
      listPathOK g start goal l := by
  have hs := pqSound_runN h g start goal tb ts n
  rcases hs.path_ok with hnone | ⟨l, hl, hok⟩
  · exfalso
    rcases hs.done_pq hdone with hc | hpq
    · exact hc hnone
    · have hstartS : start ∈ (searchSupport g start).filter
          (fun w => (PQState.runN h g start goal tb ts n).dist w ≠ none) := by
        rw [Finset.mem_filter]
        refine ⟨Finset.mem_insert_self start _, ?_⟩
        rw [hs.dist_start]
        exact Option.some_ne_none _
      have hclosed : ∀ a ∈ (searchSupport g start).filter
          (fun w => (PQState.runN h g start goal tb ts n).dist w ≠ none),
          ∀ b ∈ searchNeighbors g a, b ∈ (searchSupport g start).filter
            (fun w => (PQState.runN h g start goal tb ts n).dist w ≠ none) := by
        intro a ha b hb
        rw [Finset.mem_filter] at ha
        obtain ⟨_, had⟩ := ha
        cases hval : (PQState.runN h g start goal tb ts n).dist a with
        | none => exact absurd hval had
        | some da =>
          rcases hs.expanded hnone a da hval with ⟨e, hem, _, _⟩ | hcl
          · rw [hpq] at hem
            exact absurd hem (List.not_mem_nil e)
          · rw [Finset.mem_filter]
            exact ⟨searchNeighbors_support hb, hcl b hb⟩
      have hgS := searchReach_subset_closed hstartS hclosed goal hreach
      rw [Finset.mem_filter] at hgS
      obtain ⟨_, hgd⟩ := hgS
      rcases hs.goal_pending hnone with hgn | ⟨e, hem, _⟩
      · exact hgd hgn
      · rw [hpq] at hem
        exact absurd hem (List.not_mem_nil e)
  · exact ⟨l, hl, hok⟩

theorem primStep_start_goal (s : PrimGen) :
    s.step.grid.start = s.grid.start ∧ s.step.grid.goal = s.grid.goal := by
  unfold PrimGen.step
  by_cases hfr : s.frontier = ∅
  · rw [if_pos hfr]
    exact ⟨rfl, rfl⟩
  · rw [if_neg hfr]
    dsimp only
    split
    · exact ⟨rfl, rfl⟩
    · exact ⟨(carve_passage_dims _ _ _).2.2.1, (carve_passage_dims _ _ _).2.2.2⟩

theorem prim_start_goal (rows cols : Int) (r : SeededRNG) :
    ∀ n : Nat, (PrimGen.runN (Grid.init rows cols) r n).grid.start = (1, 1) ∧
      (PrimGen.runN (Grid.init rows cols) r n).grid.goal = (rows - 2, cols - 2) := by
  intro n
  induction n with
  | zero =>
    constructor
    · exact (set_free_dims (Grid.init rows cols) (1, 1)).2.2.1
    · exact (set_free_dims (Grid.init rows cols) (1, 1)).2.2.2
  | succ n ih =>
    have hsg := primStep_start_goal (PrimGen.runN (Grid.init rows cols) r n)
    exact ⟨hsg.1.trans ih.1, hsg.2.trans ih.2⟩

theorem foldl_carve_start_goal (l : List Coord) (g : Grid) :
    (l.foldl (fun g rc => g.carve_cell rc.1 rc.2) g).start = g.start ∧
      (l.foldl (fun g rc => g.carve_cell rc.1 rc.2) g).goal = g.goal := by
  induction l generalizing g with
  | nil => exact ⟨rfl, rfl⟩
  | cons a t ih =>
    rw [List.foldl_cons]
    refine ⟨(ih _).1.trans ?_, (ih _).2.trans ?_⟩
    · exact (set_free_dims g (a.1, a.2)).2.2.1
    · exact (set_free_dims g (a.1, a.2)).2.2.2

theorem kruskal_processEdge_start_goal (s : KruskalGen) (k : Nat) :
    (s.processEdge k).grid.start = s.grid.start ∧
      (s.processEdge k).grid.goal = s.grid.goal := by
  unfold KruskalGen.processEdge
  dsimp only
  split
  · exact ⟨rfl, rfl⟩
  · exact ⟨(carve_passage_dims _ _ _).2.2.1, (carve_passage_dims _ _ _).2.2.2⟩

theorem kruskal_processFrom_start_goal :
    ∀ (cnt : Nat) (s : KruskalGen) (k : Nat),
      (s.processFrom k cnt).grid.start = s.grid.start ∧
      (s.processFrom k cnt).grid.goal = s.grid.goal := by
  intro cnt
  induction cnt with
  | zero =>
    intro s k
    exact ⟨rfl, rfl⟩
  | succ cnt ih =>
    intro s k
    have h1 := kruskal_processEdge_start_goal s k
    have h2 := ih (s.processEdge k) (k + 1)
    exact ⟨h2.1.trans h1.1, h2.2.trans h1.2⟩

theorem kruskalStep_start_goal (s : KruskalGen) :
    s.step.grid.start = s.grid.start ∧ s.step.grid.goal = s.grid.goal := by
  unfold KruskalGen.step
  split
  · exact ⟨rfl, rfl⟩
  · dsimp only
    exact ⟨(kruskal_processFrom_start_goal _ s s.i).1,
      (kruskal_processFrom_start_goal _ s s.i).2⟩

theorem kruskal_start_goal (rows cols : Int) (r : SeededRNG) :
    ∀ n : Nat, (KruskalGen.runN (Grid.init rows cols) r n).grid.start = (1, 1) ∧
      (KruskalGen.runN (Grid.init rows cols) r n).grid.goal = (rows - 2, cols - 2) := by
  intro n
  induction n with
  | zero =>
    constructor
    · show (KruskalGen.init (Grid.init rows cols) r).grid.start = (1, 1)
      unfold KruskalGen.init
      dsimp only
      rw [(foldl_carve_start_goal _ _).1]
      dsimp only
      rw [(foldl_carve_start_goal _ _).1]
      rfl
    · show (KruskalGen.init (Grid.init rows cols) r).grid.goal = (rows - 2, cols - 2)
      unfold KruskalGen.init
      dsimp only
      rw [(foldl_carve_start_goal _ _).2]
      dsimp only
      rw [(foldl_carve_start_goal _ _).2]
      rfl
  | succ n ih =>
    have hsg := kruskalStep_start_goal (KruskalGen.runN (Grid.init rows cols) r n)
    exact ⟨hsg.1.trans ih.1, hsg.2.trans ih.2⟩

/-- On any grid whose passage graph is acyclic, with a free start and a
search-reachable goal, the four algorithms all return the same recorded path,
hence equal-length optimal paths and a DFS path no shorter than Dijkstra's. -/
theorem searches_agree_on_tree (g : Grid) (start goal : Coord)
    (hacy : (passageGraph g).IsAcyclic) (hst : g.free start = true)
    (hreach : searchReach g start goal) : allSearchPathsAgree g start goal := by
  intro tb1 tb2 tb3 tb4 ts1 ts2 ts3 ts4 n1 n2 n3 n4 h1 h2 h3 h4
  obtain ⟨lB, hB, hBok⟩ := pool_done_path false g start goal tb1 ts1 hreach n1 h1
  obtain ⟨lD, hD, hDok⟩ := pool_done_path true g start goal tb2 ts2 hreach n2 h2
  obtain ⟨lJ, hJ, hJok⟩ := pq_done_path (fun _ => 0) g start goal tb3 ts3 hreach n3 h3
  obtain ⟨lA, hA, hAok⟩ :=
    pq_done_path (fun rc => manhattan rc goal) g start goal tb4 ts4 hreach n4 h4
  have hBJ : lB = lJ := listPath_unique hacy hst hBok hJok
  have hDJ : lD = lJ := listPath_unique hacy hst hDok hJok
  have hAJ : lA = lJ := listPath_unique hacy hst hAok hJok
  exact ⟨lB, lD, lJ, lA, hB, hD, hJ, hA, by rw [hBJ], by rw [hAJ], by rw [hDJ]⟩

/-- C4: on every maze produced by a done generator run (Prim or Kruskal, any odd
size at least 3, any PRNG stream), with the grid's own start and goal, stepping
each of BFS, DFS, Dijkstra and A* to completion yields: all four record a path,
the BFS, Dijkstra and A* paths have equal length, and the DFS path is never
shorter than Dijkstra's (on a perfect maze all four paths in fact coincide). -/
theorem c4_optimal_path_lengths (rows cols : Int) (r : SeededRNG) (m : Nat)
    (hro : rows % 2 = 1) (hco : cols % 2 = 1) (hr3 : 3 ≤ rows) (hc3 : 3 ≤ cols) :
    (PrimGen.reportsDone (PrimGen.runN (Grid.init rows cols) r m) →
      allSearchPathsAgree (PrimGen.runN (Grid.init rows cols) r m).grid
        (PrimGen.runN (Grid.init rows cols) r m).grid.start
        (PrimGen.runN (Grid.init rows cols) r m).grid.goal) ∧
    (KruskalGen.reportsDone (KruskalGen.runN (Grid.init rows cols) r m) →
      allSearchPathsAgree (KruskalGen.runN (Grid.init rows cols) r m).grid
        (KruskalGen.runN (Grid.init rows cols) r m).grid.start
        (KruskalGen.runN (Grid.init rows cols) r m).grid.goal) := by
  constructor
  · intro hdone
    have hinv : PrimInv rows cols (PrimGen.runN (Grid.init rows cols) r m) :=
      primInv_runN r (by omega) (by omega) m
    obtain ⟨hstart, hgoal⟩ := prim_start_goal rows cols r m
    rw [hstart, hgoal]
    have hgoalfree : (PrimGen.runN (Grid.init rows cols) r m).grid.free
        (rows - 2, cols - 2) = true := by
      refine prim_spanning hinv hdone (rows - 2, cols - 2) ⟨?_, ?_⟩ ?_
      · show (rows - 2) % 2 = 1
        omega
      · show (cols - 2) % 2 = 1
        omega
      · rw [in_bounds_iff, hinv.ginv.rows_eq, hinv.ginv.cols_eq]
        show 0 ≤ rows - 2 ∧ rows - 2 < rows ∧ 0 ≤ cols - 2 ∧ cols - 2 < cols
        omega
    have hreach : searchReach (PrimGen.runN (Grid.init rows cols) r m).grid (1, 1)
        (rows - 2, cols - 2) :=
      reachable_searchReach hinv.ginv (hinv.conn _ hgoalfree)
    exact searches_agree_on_tree _ _ _ hinv.ginv.acyclic hinv.start_free hreach
  · intro hdone
    have hinv : KruskalInv rows cols (KruskalGen.runN (Grid.init rows cols) r m) :=
      kruskalInv_runN r (by omega) (by omega) m
    obtain ⟨hstart, hgoal⟩ := kruskal_start_goal rows cols r m
    rw [hstart, hgoal]
    have hstartfree : (KruskalGen.runN (Grid.init rows cols) r m).grid.free (1, 1) =
        true := by
      refine hinv.cells_free (1, 1) ⟨?_, ?_⟩ ?_
      · show (1 : Int) % 2 = 1
        decide
      · show (1 : Int) % 2 = 1
        decide
      · rw [in_bounds_iff, hinv.ginv.rows_eq, hinv.ginv.cols_eq]
        show 0 ≤ (1 : Int) ∧ (1 : Int) < rows ∧ 0 ≤ (1 : Int) ∧ (1 : Int) < cols
        omega
    have hgoalfree : (KruskalGen.runN (Grid.init rows cols) r m).grid.free
        (rows - 2, cols - 2) = true := by
      refine hinv.cells_free (rows - 2, cols - 2) ⟨?_, ?_⟩ ?_
      · show (rows - 2) % 2 = 1
        omega
      · show (cols - 2) % 2 = 1
        omega
      · rw [in_bounds_iff, hinv.ginv.rows_eq, hinv.ginv.cols_eq]
        show 0 ≤ rows - 2 ∧ rows - 2 < rows ∧ 0 ≤ cols - 2 ∧ cols - 2 < cols
        omega
    have hreach : searchReach (KruskalGen.runN (Grid.init rows cols) r m).grid (1, 1)
        (rows - 2, cols - 2) :=
      reachable_searchReach hinv.ginv (kruskal_conn_free hinv hdone _ hgoalfree)
    exact searches_agree_on_tree _ _ _ hinv.ginv.acyclic hstartfree hreach

/-- Witness for C4: the 3×3 Prim maze with seed 0 is done after one step, each
search is done after one step on it, and the agreement property holds there. -/
theorem c4_optimal_path_lengths_witness :
    PrimGen.reportsDone (PrimGen.runN (Grid.init 3 3) (SeededRNG.fromSeed 0) 1) ∧
    (BFS.runN (PrimGen.runN (Grid.init 3 3) (SeededRNG.fromSeed 0) 1).grid
      (PrimGen.runN (Grid.init 3 3) (SeededRNG.fromSeed 0) 1).grid.start
      (PrimGen.runN (Grid.init 3 3) (SeededRNG.fromSeed 0) 1).grid.goal
      0 (fun _ => 1) 1).done = true ∧
    (DFS.runN (PrimGen.runN (Grid.init 3 3) (SeededRNG.fromSeed 0) 1).grid
      (PrimGen.runN (Grid.init 3 3) (SeededRNG.fromSeed 0) 1).grid.start
      (PrimGen.runN (Grid.init 3 3) (SeededRNG.fromSeed 0) 1).grid.goal
      0 (fun _ => 1) 1).done = true ∧
    (Dijkstra.runN (PrimGen.runN (Grid.init 3 3) (SeededRNG.fromSeed 0) 1).grid
      (PrimGen.runN (Grid.init 3 3) (SeededRNG.fromSeed 0) 1).grid.start
      (PrimGen.runN (Grid.init 3 3) (SeededRNG.fromSeed 0) 1).grid.goal
      0 (fun _ => 1) 1).done = true ∧
    (AStar.runN (PrimGen.runN (Grid.init 3 3) (SeededRNG.fromSeed 0) 1).grid
      (PrimGen.runN (Grid.init 3 3) (SeededRNG.fromSeed 0) 1).grid.start
      (PrimGen.runN (Grid.init 3 3) (SeededRNG.fromSeed 0) 1).grid.goal
      0 (fun _ => 1) 1).done = true ∧
    allSearchPathsAgree (PrimGen.runN (Grid.init 3 3) (SeededRNG.fromSeed 0) 1).grid
      (PrimGen.runN (Grid.init 3 3) (SeededRNG.fromSeed 0) 1).grid.start
      (PrimGen.runN (Grid.init 3 3) (SeededRNG.fromSeed 0) 1).grid.goal :=
  ⟨(by decide : (PrimGen.runN (Grid.init 3 3) (SeededRNG.fromSeed 0) 1).frontier = ∅),
    by decide, by decide, by decide, by decide,
    (c4_optimal_path_lengths 3 3 (SeededRNG.fromSeed 0) 1 (by decide) (by decide)
      (by decide) (by decide)).1
      (by decide : (PrimGen.runN (Grid.init 3 3) (SeededRNG.fromSeed 0) 1).frontier = ∅)⟩

/-- Witness for the amended C7 at concrete out-of-bounds inputs. -/
theorem c7_is_passage_amended_witness :
    (¬((0 : Int) ≤ 5 ∧ (5 : Int) < 3 ∧ (0 : Int) ≤ 0 ∧ (0 : Int) < 3) ∧
      CMaze.is_passage ⟨3, 3, fun _ => 1⟩ 5 0 = false) ∧
    (¬((0 : Int) ≤ -1 ∧ (-1 : Int) < 3 ∧ (0 : Int) ≤ 0 ∧ (0 : Int) < 3) ∧
      IMaze.is_passage ⟨3, 3, fun _ => 0⟩ (-1) 0 = false) :=
  ⟨⟨by decide, c7_is_passage_amended.1 ⟨3, 3, fun _ => 1⟩ 5 0 (by decide)⟩,
    ⟨by decide, c7_is_passage_amended.2 ⟨3, 3, fun _ => 0⟩ (-1) 0 (by decide)⟩⟩

end Maze
